import Mathlib

/-!
# mkd: the protect-and-restore rendering pipeline and the pager

A shallow embedding of `main.go`.  A Go string is embedded as the list of its
characters (`Str`), so the texts are taken to be valid UTF-8; a Go `int` is an
`Int` or, where it counts, a `Nat`.  The collaborators that are not part of the
repository (the glamour prose formatter, the lipgloss styles and table, the
rune width table of the terminal) are the fields of `Env`; the functions of
`strings`, `fmt`, `regexp`, `xansi` and `bubbles/viewport` the program calls
are embedded next to the code that calls them.
-/

namespace Mkd

/-- A Go string, as the sequence of its characters. -/
abbrev Str := List Char

/-- The escape character `\x1b`. -/
def escChar : Char := Char.ofNat 27

/-- The line separator `\n`. -/
def nl : Char := Char.ofNat 10

/-- The collaborators of `main.go` that live outside the repository. -/
structure Env where
  /-- The prose formatter: `glamour.NewTermRenderer(style, width)` followed by
  `Render(src)`; `none` when either step returns an error. -/
  glamourRender : Str → Int → Option Str
  /-- The function `xansi.StringWidth` of the library `charmbracelet/x/ansi`:
  the display width of a text, escape sequences not counted. -/
  stringWidth : Str → Nat
  /-- The method `linkTextStyle.Render`. -/
  linkTextStyle : Str → Str
  /-- The method `inlineCodeStyle.Render`. -/
  inlineCodeStyle : Str → Str
  /-- The method `inlineBoldStyle.Render`. -/
  inlineBoldStyle : Str → Str
  /-- The method `inlineEmStyle.Render`. -/
  inlineEmStyle : Str → Str
  /-- The lipgloss table built in `renderCompactTable`, from its headers and
  its rows, as the text its `String()` returns. -/
  tableString : List Str → List (List Str) → Str

/-! ## The `strings` functions the program calls -/

/-- The predicate `unicode.IsSpace`. -/
def isSpace (c : Char) : Bool :=
  let n := c.toNat
  n == 9 || n == 10 || n == 11 || n == 12 || n == 13 || n == 32 || n == 0x85 || n == 0xA0
    || n == 0x1680 || (0x2000 ≤ n && n ≤ 0x200A) || n == 0x2028 || n == 0x2029
    || n == 0x202F || n == 0x205F || n == 0x3000

/-- The function `strings.TrimSpace`. -/
def trimSpace (s : Str) : Str :=
  (s.dropWhile isSpace).rdropWhile isSpace

/-- The function `strings.Trim(s, cutset)` for a cutset of one character. -/
def trimChar (c : Char) (s : Str) : Str :=
  (s.dropWhile (fun x => x == c)).rdropWhile (fun x => x == c)

/-- The function `strings.TrimRight(s, cutset)` for a cutset of one character. -/
def trimRightChar (c : Char) (s : Str) : Str :=
  s.rdropWhile (fun x => x == c)

/-- The function `strings.HasPrefix`. -/
def hasPrefix (s p : Str) : Bool := p.isPrefixOf s

/-- The function `strings.HasSuffix`. -/
def hasSuffix (s p : Str) : Bool := p.isSuffixOf s

/-- The function `strings.TrimPrefix`. -/
def trimPrefix (s p : Str) : Str :=
  if hasPrefix s p then s.drop p.length else s

/-- The function `strings.Split(s, sep)` for a separator of one character. -/
def splitChar (sep : Char) : Str → List Str
  | [] => [[]]
  | c :: cs =>
    if c = sep then [] :: splitChar sep cs
    else
      match splitChar sep cs with
      | [] => [[c]]
      | l :: ls => (c :: l) :: ls

/-- The lines of a text: `strings.Split(s, "\n")`. -/
def splitLines (s : Str) : List Str := splitChar nl s

/-- The function `strings.Join(lines, "\n")`. -/
def joinLines : List Str → Str
  | [] => []
  | [l] => l
  | l :: ls => l ++ nl :: joinLines ls

/-- The scan of `strings.ReplaceAll` for a non-empty `old`: the counter is the
number of characters of the match just replaced that are still to be skipped. -/
def replaceAux (old new : Str) : Nat → Str → Str
  | _, [] => []
  | k + 1, _ :: cs => replaceAux old new k cs
  | 0, c :: cs =>
    if old.isPrefixOf (c :: cs) then new ++ replaceAux old new (old.length - 1) cs
    else c :: replaceAux old new 0 cs

/-- The function `strings.ReplaceAll`: the non-overlapping occurrences of `old`
are replaced from left to right; an empty `old` matches before every character
and at the end. -/
def replaceAll (s old new : Str) : Str :=
  if old = [] then new ++ s.flatMap (fun c => c :: new) else replaceAux old new 0 s

/-- The verb `%04d` of `fmt.Sprintf` at a non-negative integer: the decimal
digits, padded with zeros on the left to at least four characters. -/
def fmt04d (n : Nat) : Str :=
  let ds := Nat.toDigits 10 n
  List.replicate (4 - ds.length) '0' ++ ds

/-- The placeholder token `fmt.Sprintf(prefix + "%04d", idx)`. -/
def placeholder (pre : Str) (idx : Nat) : Str := pre ++ fmt04d idx

/-- The prefix of the code-block tokens. -/
def fencePrefix : Str := "MDFENCE".toList

/-- The prefix of the table tokens. -/
def tablePrefix : Str := "MDTABLE".toList

/-- The prefix of the link tokens. -/
def linkPrefix : Str := "MDLINK".toList

/-! ## Code panels -/

/-- The constant `codeBlockBgANSI`. -/
def codeBlockBgANSI : Str := escChar :: "[48;5;235m".toList

/-- The constant `ansiReset`. -/
def ansiReset : Str := escChar :: "[0m".toList

/-- The places of a scan of a line made of printable ASCII characters and SGR
sequences `ESC [ [0-9;]* m`: in the text, after `ESC`, inside the parameters of
a sequence. -/
inductive SgrState where
  | text
  | afterEsc
  | params
  deriving DecidableEq

/-- One step of that scan: the next place and the cells the character takes, or
`none` for a character that is neither a printable ASCII character in the text
nor the next character of an SGR sequence. -/
def sgrStep : SgrState → Char → Option (SgrState × Nat)
  | SgrState.text, c =>
    if c == escChar then some (SgrState.afterEsc, 0)
    else if 32 ≤ c.toNat && c.toNat ≤ 126 then some (SgrState.text, 1)
    else none
  | SgrState.afterEsc, c => if c == '[' then some (SgrState.params, 0) else none
  | SgrState.params, c =>
    if c.isDigit || c == ';' then some (SgrState.params, 0)
    else if c == 'm' then some (SgrState.text, 0)
    else none

/-- The cells of a text read from a place of the scan: `none` when the text
holds another character or ends inside a sequence. -/
def sgrWidthFrom : SgrState → Str → Option Nat
  | SgrState.text, [] => some 0
  | _, [] => none
  | st, c :: cs =>
    match sgrStep st c with
    | none => none
    | some r => (sgrWidthFrom r.1 cs).map (fun n => r.2 + n)

/-- What `xansi.StringWidth` returns for a line made of printable ASCII
characters (`0x20` to `0x7e`) and complete SGR sequences `ESC [ [0-9;]* m` only:
one cell for every printable character outside the sequences.  For every other
line the value is `none`: the width of such a line is left to the library. -/
def sgrWidth (s : Str) : Option Nat := sgrWidthFrom SgrState.text s

/-- The function `padWithBackground`. -/
def padWithBackground (env : Env) (line : Str) (width : Int) : Str :=
  let vw : Int := env.stringWidth line
  let line2 := replaceAll line ansiReset (ansiReset ++ codeBlockBgANSI)
  let padding : Str := if vw < width then List.replicate (width - vw).toNat ' ' else []
  codeBlockBgANSI ++ line2 ++ padding ++ ansiReset

/-- The states of a match of `(\x1b\[[0-9;]*m| )*` that has to reach the end of
the text: between two items, after `ESC`, inside the parameters. -/
inductive PadState where
  | item
  | afterEsc
  | params
  deriving DecidableEq

/-- Whether the whole text is a run of spaces and sequences `ESC [ [0-9;]* m`,
read from the given state. -/
def isPaddingFrom : PadState → Str → Bool
  | PadState.item, [] => true
  | _, [] => false
  | PadState.item, c :: cs =>
    if c == ' ' then isPaddingFrom PadState.item cs
    else if c == escChar then isPaddingFrom PadState.afterEsc cs
    else false
  | PadState.afterEsc, c :: cs =>
    if c == '[' then isPaddingFrom PadState.params cs else false
  | PadState.params, c :: cs =>
    if c.isDigit || c == ';' then isPaddingFrom PadState.params cs
    else if c == 'm' then isPaddingFrom PadState.item cs
    else false

/-- The call `trailingPaddingRe.ReplaceAllString(line, "")`: the leftmost match
of `(\x1b\[[0-9;]*m| )*$` starts at the first position from which the rest of
the line is such a run, and it is removed. -/
def stripTrailingPadding : Str → Str
  | [] => []
  | c :: cs =>
    if isPaddingFrom PadState.item (c :: cs) then [] else c :: stripTrailingPadding cs

/-- The three backticks of a fence. -/
def fenceMark : Str := [Char.ofNat 96, Char.ofNat 96, Char.ofNat 96]

/-- The panel width of `renderCodeBlock`: the largest display width of a line
of the raw code plus the indent `glamourIndent = 4`. -/
def panelWidth (env : Env) (code : Str) : Nat :=
  (splitLines code).foldl (fun pw codeLine =>
    if env.stringWidth codeLine + 4 > pw then env.stringWidth codeLine + 4 else pw) 0

/-- The lines of the formatter output `renderCodeBlock` keeps: the output
without its trailing newlines, split, without leading and trailing blank
lines. -/
def contentLines (rendered : Str) : List Str :=
  let rawLines := splitLines (trimRightChar nl rendered)
  (rawLines.dropWhile (fun l => trimSpace l == [])).rdropWhile (fun l => trimSpace l == [])

/-- The function `renderCodeBlock`; `none` stands for the error result. -/
def renderCodeBlock (env : Env) (lang code : Str) (width : Int) : Option Str :=
  let src := fenceMark ++ lang ++ [nl] ++ code ++ [nl] ++ fenceMark ++ [nl]
  match env.glamourRender src width with
  | none => none
  | some rendered =>
    let pw : Int := panelWidth env code
    some ([nl] ++ (contentLines rendered).flatMap (fun line =>
      padWithBackground env (stripTrailingPadding line) pw ++ [nl]) ++ [nl])

/-! ## Code blocks -/

/-- The local variables of the loop of `extractCodeBlocks`. -/
structure FenceState where
  result : List Str
  fence : List Str
  inFence : Bool
  lang : Str
  blocks : List Str

/-- One iteration of the loop of `extractCodeBlocks`. -/
def fenceStep (env : Env) (width : Int) (st : FenceState) (line : Str) : FenceState :=
  let trimmed := trimSpace line
  if !st.inFence && hasPrefix trimmed fenceMark then
    let lang := trimPrefix trimmed fenceMark
    { st with
      inFence := true
      lang := if lang = [] then "go".toList else lang
      fence := st.fence ++ [line] }
  else if st.inFence && hasPrefix trimmed fenceMark then
    let fence := st.fence ++ [line]
    let code := joinLines ((fence.take (fence.length - 1)).drop 1)
    let rendered :=
      match renderCodeBlock env st.lang code width with
      | some r => r
      | none => joinLines fence ++ [nl]
    { result := st.result ++ [placeholder fencePrefix st.blocks.length]
      fence := []
      inFence := false
      lang := []
      blocks := st.blocks ++ [rendered] }
  else if st.inFence then
    { st with fence := st.fence ++ [line] }
  else
    { st with result := st.result ++ [line] }

/-- The function `extractCodeBlocks`. -/
def extractCodeBlocks (env : Env) (content : Str) (width : Int) : Str × List Str :=
  let st := (splitLines content).foldl (fenceStep env width)
    { result := [], fence := [], inFence := false, lang := [], blocks := [] }
  (joinLines (st.result ++ st.fence), st.blocks)

/-- The loop shared by `restoreCodeBlocks` and `restoreTables`: the token of
index `i` is replaced by the `i`-th text, in increasing order of `i`. -/
def restoreFrom (pre : Str) : Nat → Str → List Str → Str
  | _, rendered, [] => rendered
  | i, rendered, b :: bs => restoreFrom pre (i + 1) (replaceAll rendered (placeholder pre i) b) bs

/-- The function `restoreCodeBlocks`. -/
def restoreCodeBlocks (content : Str) (blocks : List Str) : Str :=
  restoreFrom fencePrefix 0 content blocks

/-! ## Inline markup and links -/

/-- A match of a pattern `open ([^c]+) close` at the start of a text, where
`c` is the first character of `close`: the captured group and the length of
the match.  The group is the longest run of characters other than `c`; a
shorter one is followed by a character other than `c`, so it has no match. -/
def matchDelimited (opn : Str) (c : Char) (cls : Str) (s : Str) : Option (Str × Nat) :=
  if opn.isPrefixOf s then
    let r := s.drop opn.length
    let inner := r.takeWhile (fun x => x != c)
    if inner != [] && cls.isPrefixOf (r.dropWhile (fun x => x != c)) then
      some (inner, opn.length + inner.length + cls.length)
    else none
  else none

/-- A match of `linkRe`, the pattern `\[([^\]]+)\]\(([^)]+)\)`, at the start of
a text: the label, the url and the length of the match. -/
def matchLink (s : Str) : Option (Str × Str × Nat) :=
  match matchDelimited ['['] ']' [']', '('] s with
  | none => none
  | some (label, n) =>
    let r := s.drop n
    let url := r.takeWhile (fun x => x != ')')
    if url != [] && [')'].isPrefixOf (r.dropWhile (fun x => x != ')')) then
      some (label, url, n + url.length + 1)
    else none

/-- The scan of `ReplaceAllStringFunc` for a pattern that matches no empty
text: `m` gives, for a match at the start of a text, its replacement and its
length; the counter is the number of characters of the last match still to be
skipped. -/
def replaceMatches (m : Str → Option (Str × Nat)) : Nat → Str → Str
  | _, [] => []
  | k + 1, _ :: cs => replaceMatches m k cs
  | 0, c :: cs =>
    match m (c :: cs) with
    | some (rep, len) => rep ++ replaceMatches m (len - 1) cs
    | none => c :: replaceMatches m 0 cs

/-- The hyperlink escape `ESC ]8;; url ESC \ label ESC ]8;; ESC \` that
`processInline` and `restoreLinks` build with `fmt.Sprintf`. -/
def osc8 (url styled : Str) : Str :=
  escChar :: "]8;;".toList ++ url ++ [escChar, '\\'] ++ styled
    ++ escChar :: "]8;;".toList ++ [escChar, '\\']

/-- The function `processInline`. -/
def processInline (env : Env) (text : Str) : Str :=
  let t1 := replaceMatches (fun s => (matchLink s).map
    (fun r => (osc8 r.2.1 (env.linkTextStyle r.1), r.2.2))) 0 text
  let t2 := replaceMatches (fun s => (matchDelimited ['*', '*'] '*' ['*', '*'] s).map
    (fun r => (env.inlineBoldStyle r.1, r.2))) 0 t1
  let t3 := replaceMatches (fun s => (matchDelimited ['*'] '*' ['*'] s).map
    (fun r => (env.inlineEmStyle r.1, r.2))) 0 t2
  replaceMatches (fun s => (matchDelimited [Char.ofNat 96] (Char.ofNat 96) [Char.ofNat 96] s).map
    (fun r => (env.inlineCodeStyle r.1, r.2))) 0 t3

/-- The type `linkRef`. -/
structure linkRef where
  text : Str
  url : Str
  deriving DecidableEq

/-- The scan of `extractLinks`: `idx` is `len(links)`, the counter the number of
characters of the last match still to be skipped. -/
def linksAux : Nat → Nat → Str → Str × List linkRef
  | _, _, [] => ([], [])
  | k + 1, idx, _ :: cs => linksAux k idx cs
  | 0, idx, c :: cs =>
    match matchLink (c :: cs) with
    | some (label, url, len) =>
      let r := linksAux (len - 1) (idx + 1) cs
      (placeholder linkPrefix idx ++ r.1, { text := label, url := url } :: r.2)
    | none =>
      let r := linksAux 0 idx cs
      (c :: r.1, r.2)

/-- The function `extractLinks`. -/
def extractLinks (content : Str) : Str × List linkRef := linksAux 0 0 content

/-- The function `restoreLinks`. -/
def restoreLinks (env : Env) (rendered : Str) (links : List linkRef) : Str :=
  restoreFrom linkPrefix 0 rendered
    (links.map (fun l => osc8 l.url (env.linkTextStyle l.text)))

/-! ## Tables -/

/-- The function `isTableRow`.  `len(t)` counts bytes; for a text that starts
with `|` it exceeds 1 exactly when the text has more than one character. -/
def isTableRow (line : Str) : Bool :=
  let t := trimSpace line
  hasPrefix t ['|'] && hasSuffix t ['|'] && decide (t.length > 1)

/-- The function `isSeparatorRow`. -/
def isSeparatorRow (line : Str) : Bool :=
  let t := trimSpace line
  if !hasPrefix t ['|'] || !hasSuffix t ['|'] then false
  else (trimChar '|' t).all (fun c => !(c != '-' && c != ':' && c != '|' && c != ' '))

/-- The function `parseRow`. -/
def parseRow (env : Env) (line : Str) : List Str :=
  (splitChar '|' (trimChar '|' (trimSpace line))).map
    (fun p => processInline env (trimSpace p))

/-- The function `renderCompactTable`. -/
def renderCompactTable (env : Env) (lines : List Str) : Str :=
  if lines.length < 2 then joinLines lines
  else
    let headers := parseRow env (lines.headD [])
    let rows := ((lines.drop 2).map trimSpace).filter (fun l => l != [])
    let t := env.tableString headers (rows.map (parseRow env))
    [nl] ++ (splitLines t).flatMap (fun l => ' ' :: ' ' :: l ++ [nl]) ++ [nl]

/-- The loop of `extractTables`: `idx` is `len(tables)`, the counter the number
of lines of the table just lifted that are still to be skipped. -/
def tablesAux (env : Env) : Nat → Nat → List Str → List Str × List Str
  | _, _, [] => ([], [])
  | k + 1, idx, _ :: rest => tablesAux env k idx rest
  | 0, idx, l :: rest =>
    if isTableRow l && (rest.head?.map isSeparatorRow).getD false then
      let tableLines := l :: rest.take 1 ++ (rest.drop 1).takeWhile isTableRow
      let r := tablesAux env (tableLines.length - 1) (idx + 1) rest
      (placeholder tablePrefix idx :: r.1, renderCompactTable env tableLines :: r.2)
    else
      let r := tablesAux env 0 idx rest
      (l :: r.1, r.2)

/-- The function `extractTables`. -/
def extractTables (env : Env) (content : Str) : Str × List Str :=
  let r := tablesAux env 0 0 (splitLines content)
  (joinLines r.1, r.2)

/-- The function `restoreTables`. -/
def restoreTables (rendered : Str) (tables : List Str) : Str :=
  restoreFrom tablePrefix 0 rendered tables

/-! ## The pipeline -/

/-- The function `renderMarkdown`; `none` stands for the error result. -/
def renderMarkdown (env : Env) (content : Str) (width : Int) : Option Str :=
  let c1 := extractCodeBlocks env content width
  let c2 := extractTables env c1.1
  let c3 := extractLinks c2.1
  match env.glamourRender c3.1 width with
  | none => none
  | some rendered =>
    some (restoreCodeBlocks (restoreTables (restoreLinks env rendered c3.2) c2.2) c1.2)

/-! ## The pager

`model.Update` is in `main.go`; the viewport it drives is the component
`bubbles/viewport`, embedded here method by method as far as the vertical
offset depends on it. -/

/-- The fields of `viewport.Model` the vertical offset depends on (`YPosition`,
which `Update` sets once, plays no part in it). -/
structure Viewport where
  Width : Int
  Height : Int
  YOffset : Int
  lines : List Str
  deriving DecidableEq

/-- The constructor `viewport.New(width, height)`. -/
def Viewport.New (width height : Int) : Viewport :=
  { Width := width, Height := height, YOffset := 0, lines := [] }

/-- The method `maxYOffset`: `max(0, len(lines) - Height)`. -/
def Viewport.maxYOffset (v : Viewport) : Int := max 0 ((v.lines.length : Int) - v.Height)

/-- The method `AtTop`. -/
def Viewport.AtTop (v : Viewport) : Bool := decide (v.YOffset ≤ 0)

/-- The method `AtBottom`. -/
def Viewport.AtBottom (v : Viewport) : Bool := decide (v.YOffset ≥ v.maxYOffset)

/-- The method `SetYOffset`: the offset is clamped to `[0, maxYOffset]`. -/
def Viewport.SetYOffset (v : Viewport) (n : Int) : Viewport :=
  { v with YOffset := min v.maxYOffset (max 0 n) }

/-- The method `GotoTop`. -/
def Viewport.GotoTop (v : Viewport) : Viewport :=
  if v.AtTop then v else v.SetYOffset 0

/-- The method `GotoBottom`, as to the state it leaves: the offset is set to
`maxYOffset`.  The library method also returns `visibleLines()`, a value
`main.go` never reads; that call does not end for every state (it fails on a
window so small that `Height` is negative), and this definition describes the
method where it returns, so for `Height ≥ 0`. -/
def Viewport.GotoBottom (v : Viewport) : Viewport := v.SetYOffset v.maxYOffset

/-- The method `LineDown`. -/
def Viewport.LineDown (v : Viewport) (n : Int) : Viewport :=
  if v.AtBottom || n == 0 || v.lines.length == 0 then v else v.SetYOffset (v.YOffset + n)

/-- The method `LineUp`. -/
def Viewport.LineUp (v : Viewport) (n : Int) : Viewport :=
  if v.AtTop || n == 0 || v.lines.length == 0 then v else v.SetYOffset (v.YOffset - n)

/-- The method `SetContent`. -/
def Viewport.SetContent (v : Viewport) (s : Str) : Viewport :=
  let v2 := { v with lines := splitLines (replaceAll s ['\r', nl] [nl]) }
  if v2.YOffset > (v2.lines.length : Int) - 1 then v2.GotoBottom else v2

/-- The messages `Update` distinguishes: a key, by the text `msg.String()`
returns, and a window size. -/
inductive Msg where
  | key (k : Str)
  | windowSize (width height : Int)
  deriving DecidableEq

/-- The method `Update` of the viewport: the keys of its default key map scroll
by a page (`pgdown`, space, `f`; `pgup`, `b`), half a page (`d`, `ctrl+d`; `u`,
`ctrl+u`, the height halved as Go divides integers) or a line (`down`, `j`;
`up`, `k`); a window-size message is not handled. -/
def Viewport.Update (v : Viewport) : Msg → Viewport
  | Msg.windowSize _ _ => v
  | Msg.key k =>
    if k = "pgdown".toList ∨ k = " ".toList ∨ k = "f".toList then
      if v.AtBottom then v else v.LineDown v.Height
    else if k = "pgup".toList ∨ k = "b".toList then
      if v.AtTop then v else v.LineUp v.Height
    else if k = "d".toList ∨ k = "ctrl+d".toList then
      if v.AtBottom then v else v.LineDown (Int.tdiv v.Height 2)
    else if k = "u".toList ∨ k = "ctrl+u".toList then
      if v.AtTop then v else v.LineUp (Int.tdiv v.Height 2)
    else if k = "down".toList ∨ k = "j".toList then v.LineDown 1
    else if k = "up".toList ∨ k = "k".toList then v.LineUp 1
    else v

/-- The type `model`. -/
structure model where
  viewport : Viewport
  content : Str
  filename : Str
  ready : Bool
  deriving DecidableEq

/-- The constants `headerHeight` and `footerHeight`. -/
def headerHeight : Int := 2

@[inherit_doc headerHeight]
def footerHeight : Int := 2

/-- The method `model.Update`, as the model it returns; the command it returns
with it (`tea.Quit` for a quit key) does not change the model. -/
def model.Update (m : model) (msg : Msg) : model :=
  match msg with
  | Msg.key k =>
    if k = "q".toList ∨ k = "Q".toList ∨ k = "esc".toList ∨ k = "ctrl+c".toList then m
    else
      let vp :=
        if k = "g".toList then m.viewport.GotoTop
        else if k = "G".toList then m.viewport.GotoBottom
        else if k = "l".toList then m.viewport.LineDown 15
        else if k = "p".toList then m.viewport.LineUp 15
        else m.viewport
      { m with viewport := vp.Update msg }
  | Msg.windowSize w h =>
    let verticalSpace := headerHeight + footerHeight
    let m2 : model :=
      if !m.ready then
        { m with viewport := (Viewport.New w (h - verticalSpace)).SetContent m.content, ready := true }
      else
        { m with viewport := { m.viewport with Width := w, Height := h - verticalSpace } }
    { m2 with viewport := m2.viewport.Update msg }

/-- The model `main` starts the program with: the rendered text, the zero
viewport, not ready. -/
def initialModel (content filename : Str) : model :=
  { viewport := { Width := 0, Height := 0, YOffset := 0, lines := [] },
    content := content, filename := filename, ready := false }

/-- The model after a sequence of messages. -/
def model.run (m : model) (msgs : List Msg) : model := msgs.foldl model.Update m

/-! ## Predicates and sample data of the statements -/

/-- A line that opens or closes a fence: its trimmed form starts with three
backticks. -/
def isFenceLine (line : Str) : Bool := hasPrefix (trimSpace line) fenceMark

/-- An environment for the examples: a formatter that returns its input, a
width function that counts the printable characters of a line of printable
ASCII and SGR sequences (and gives 0 for another line), styles that put their
text between angle brackets, a table printed row by row. -/
def sampleEnv : Env :=
  { glamourRender := fun s _ => some s
    stringWidth := fun s => (sgrWidth s).getD 0
    linkTextStyle := fun s => '<' :: s ++ ['>']
    inlineCodeStyle := fun s => '<' :: s ++ ['>']
    inlineBoldStyle := fun s => '<' :: s ++ ['>']
    inlineEmStyle := fun s => '<' :: s ++ ['>']
    tableString := fun h rows => joinLines ((h :: rows).map (fun r => r.foldl (fun a c => a ++ '|' :: c) [])) }

/-- No occurrence of `old` starts inside the leading part `p` of a text
`p ++ w`. -/
def NoStart (old p w : Str) : Prop :=
  ∀ u : Str, u ≠ [] → u <:+ p → ¬ old <+: u ++ w

/-- The number a text of decimal digits stands for. -/
def digitsVal (s : Str) : Nat := s.foldl (fun a c => 10 * a + (c.toNat - 48)) 0

/-- The placeholder tokens generated while `renderMarkdown` extracts a
document: one per code block, per table and per link found, in the order of
the three scanners. -/
def generatedTokens (env : Env) (D : Str) (width : Int) : List Str :=
  let c1 := extractCodeBlocks env D width
  let c2 := extractTables env c1.1
  let c3 := extractLinks c2.1
  (List.range c1.2.length).map (placeholder fencePrefix)
    ++ (List.range c2.2.length).map (placeholder tablePrefix)
    ++ (List.range c3.2.length).map (placeholder linkPrefix)

/-- The offset of a viewport lies in `[0, max(0, total_lines - height)]`. -/
def Viewport.InRange (v : Viewport) : Prop := 0 ≤ v.YOffset ∧ v.YOffset ≤ v.maxYOffset

/-- The width function of the environment is `xansi.StringWidth` on the lines
made of printable ASCII characters and complete SGR sequences: there it counts
the printable characters outside the sequences. -/
def WidthOnSgr (env : Env) : Prop :=
  ∀ (s : Str) (n : Nat), sgrWidth s = some n → env.stringWidth s = n

instance (v : Viewport) : Decidable v.InRange := by
  unfold Viewport.InRange
  infer_instance

/-- One of the three prefixes of the placeholder tokens. -/
def IsTokenPrefix (pre : Str) : Prop :=
  pre = fencePrefix ∨ pre = tablePrefix ∨ pre = linkPrefix

/-- The links of a document of 10001 links: 10000 times `[a](b)`, then
`[c](d)`. -/
def manyLinks : List linkRef :=
  List.replicate 10000 { text := "a".toList, url := "b".toList }
    ++ [{ text := "c".toList, url := "d".toList }]

/-- A character that occurs in a token of the given prefix: a digit or a
character of the prefix. -/
def tokenChar (pre : Str) (c : Char) : Bool := c.isDigit || pre.contains c

/-- A restored text that cannot form a token of the given prefix, alone or
with its neighbours: it is not empty, its first and its last character occur
in no such token, and it does not contain the prefix. -/
def SafeFor (pre x : Str) : Prop :=
  tokenChar pre (x.headD '0') = false ∧ tokenChar pre (x.getLastD '0') = false ∧ ¬ pre <:+: x

instance (pre x : Str) : Decidable (SafeFor pre x) := by
  unfold SafeFor
  infer_instance

/-- A restored text that is safe for the three kinds of token. -/
def SafeIsland (x : Str) : Prop :=
  SafeFor fencePrefix x ∧ SafeFor tablePrefix x ∧ SafeFor linkPrefix x

instance (x : Str) : Decidable (SafeIsland x) := by
  unfold SafeIsland
  infer_instance

/-- The text `x` neither starts with a character of `a` nor lets an occurrence
of `a` start inside it, whatever follows. -/
def Clean (a x : Str) : Prop :=
  (∃ h t, x = h :: t ∧ h ∉ a) ∧ ∀ w, NoStart a x w

/-- A document read as the code scanner reads it: a line outside a fence, or a
closed fenced block with its opening line, its body and its closing line. -/
inductive Seg where
  | prose (l : Str)
  | block (opn : Str) (body : List Str) (cls : Str)
  deriving DecidableEq

/-- The lines of a segment. -/
def Seg.lines : Seg → List Str
  | Seg.prose l => [l]
  | Seg.block opn body cls => opn :: body ++ [cls]

/-- A prose line is no fence line; a block opens and closes with a fence line
and has no fence line in between. -/
def Seg.wellFormed : Seg → Bool
  | Seg.prose l => !isFenceLine l
  | Seg.block opn body cls => isFenceLine opn && body.all (fun l => !isFenceLine l) && isFenceLine cls

/-- The lines of a list of segments. -/
def segLines (segs : List Seg) : List Str := segs.flatMap Seg.lines

/-- The number of blocks among the segments. -/
def blockCount : List Seg → Nat
  | [] => 0
  | Seg.prose _ :: segs => blockCount segs
  | Seg.block _ _ _ :: segs => blockCount segs + 1

/-- The lines left by the code scanner: every block is one token line, the
tokens numbered from `idx`. -/
def tokenLines : Nat → List Seg → List Str
  | _, [] => []
  | idx, Seg.prose l :: segs => l :: tokenLines idx segs
  | idx, Seg.block _ _ _ :: segs => placeholder fencePrefix idx :: tokenLines (idx + 1) segs

/-- The language tag of an opening line: what follows the fence, `go` when
nothing does. -/
def langOf (opn : Str) : Str :=
  if trimPrefix (trimSpace opn) fenceMark = [] then "go".toList
  else trimPrefix (trimSpace opn) fenceMark

/-- The raw text of a block with the newline the fallback appends: the lines
of the block joined by newlines, then one newline. -/
def fallbackText (opn : Str) (body : List Str) (cls : Str) : Str :=
  joinLines (opn :: body ++ [cls]) ++ [nl]

/-- The texts stored for the blocks: the panel of the renderer, or the fallback
text when it returns an error. -/
def storedBlocks (env : Env) (width : Int) : List Seg → List Str
  | [] => []
  | Seg.prose _ :: segs => storedBlocks env width segs
  | Seg.block opn body cls :: segs =>
    (renderCodeBlock env (langOf opn) (joinLines body) width).getD (fallbackText opn body cls)
      :: storedBlocks env width segs

/-- The lines of the document with every block replaced by its fallback
text. -/
def fallbackLines : List Seg → List Str
  | [] => []
  | Seg.prose l :: segs => l :: fallbackLines segs
  | Seg.block opn body cls :: segs => fallbackText opn body cls :: fallbackLines segs

/-- An environment whose formatter returns an error for every input. -/
def failEnv : Env := { sampleEnv with glamourRender := fun _ _ => none }

/-- The markdown source `[label](url)` of a link. -/
def linkSource (label url : Str) : Str := '[' :: label ++ ']' :: '(' :: url ++ [')']

/-- An environment whose styles return their text unchanged, as lipgloss does
when the terminal has no colours. -/
def plainEnv : Env :=
  { sampleEnv with
    linkTextStyle := fun s => s
    inlineCodeStyle := fun s => s
    inlineBoldStyle := fun s => s
    inlineEmStyle := fun s => s }

/-- None of the patterns of the bold, italic and code-span passes of
`processInline` matches anywhere in the text. -/
def inlineMarkupFree (s : Str) : Bool :=
  s.tails.all (fun u =>
    (matchDelimited ['*', '*'] '*' ['*', '*'] u).isNone
      && (matchDelimited ['*'] '*' ['*'] u).isNone
      && (matchDelimited [Char.ofNat 96] (Char.ofNat 96) [Char.ofNat 96] u).isNone)

/-- The cells of a row as the specification words them: the line is trimmed,
exactly one leading `|` and exactly one trailing `|` are removed, what remains
is split on `|`, and each piece is trimmed and passed through `processInline`. -/
def parseRowOnePipe (env : Env) (line : Str) : List Str :=
  let t := trimSpace line
  let t1 := if hasPrefix t ['|'] then t.drop 1 else t
  let t2 := if hasSuffix t1 ['|'] then t1.dropLast else t1
  (splitChar '|' t2).map (fun p => processInline env (trimSpace p))

/-- Every occurrence of the reset sequence in the text, the one at its end
apart, is immediately followed by the background sequence. -/
def ResetsFollowed (s : Str) : Prop :=
  ∀ p q : Str, s = p ++ ansiReset ++ q → q = [] ∨ codeBlockBgANSI <+: q

/-- The trailing run as the specification words it: the text is made of spaces
and colour-reset sequences `ESC[0m` only. -/
def isResetRun : Str → Bool
  | [] => true
  | c :: cs =>
    if c == ' ' then isResetRun cs
    else
      match cs with
      | '[' :: '0' :: 'm' :: rest => c == escChar && isResetRun rest
      | _ => false

/-- The calls of `renderCompactTable` made by the loop of `extractTables`: the
same scan as `tablesAux`, recording the `tableLines` of every call in order in
place of the rendering. -/
def tableArgsAux : Nat → List Str → List (List Str)
  | _, [] => []
  | k + 1, _ :: rest => tableArgsAux k rest
  | 0, l :: rest =>
    if isTableRow l && (rest.head?.map isSeparatorRow).getD false then
      let tableLines := l :: rest.take 1 ++ (rest.drop 1).takeWhile isTableRow
      tableLines :: tableArgsAux (tableLines.length - 1) rest
    else
      tableArgsAux 0 rest

/-- The lists of lines `extractTables` passes to `renderCompactTable` for a
document, in the order of the calls. -/
def tableArgs (content : Str) : List (List Str) :=
  tableArgsAux 0 (splitLines content)

/-- The hyperlink escape `restoreLinks` writes for the link of index `i` of
the list (the local `osc8` of its loop); empty when the list has no such
link. -/
def linkEscapeAt (env : Env) (links : List linkRef) (i : Nat) : Str :=
  match links.get? i with
  | some l => osc8 l.url (env.linkTextStyle l.text)
  | none => []

/-- A rendered text between two passes of a restore loop, piece by piece: each
item is the index of an island and the text that follows its token; the
islands below `k` are restored already, the others still stand as tokens. -/
def linkPieces (k : Nat) (reps : List Str) (items : List (Nat × Str)) : Str :=
  items.flatMap (fun it =>
    (if it.1 < k then reps.getD it.1 [] else placeholder linkPrefix it.1) ++ it.2)

/-! # Theorems -/

/-! ## Lines -/

theorem splitChar_ne_nil (sep : Char) (s : Str) : splitChar sep s ≠ [] := by
  cases s with
  | nil => simp [splitChar]
  | cons c cs =>
    unfold splitChar
    split_ifs
    · simp
    · split <;> simp

theorem joinLines_cons (l : Str) (ls : List Str) :
    joinLines (l :: ls) = l ++ (if ls = [] then [] else nl :: joinLines ls) := by
  cases ls <;> simp [joinLines]

theorem joinLines_append (xs ys : List Str) (hx : xs ≠ []) (hy : ys ≠ []) :
    joinLines (xs ++ ys) = joinLines xs ++ nl :: joinLines ys := by
  induction xs with
  | nil => exact absurd rfl hx
  | cons x xs ih =>
    cases xs with
    | nil =>
      obtain ⟨y, ys, rfl⟩ := List.exists_cons_of_ne_nil hy
      simp [joinLines]
    | cons x2 xs =>
      have := ih (by simp)
      simp only [List.cons_append] at this ⊢
      simp [joinLines, this]

/-- Joining the lines of a text gives the text back. -/
theorem joinLines_splitLines (s : Str) : joinLines (splitLines s) = s := by
  unfold splitLines
  induction s with
  | nil => simp [splitChar, joinLines]
  | cons c cs ih =>
    unfold splitChar
    split_ifs with h
    · rw [joinLines_cons, if_neg (splitChar_ne_nil _ _), ih, h]; simp
    · split
      · next h2 => exact absurd h2 (splitChar_ne_nil _ _)
      · next l ls h2 =>
        rw [h2] at ih
        rw [joinLines_cons] at ih ⊢
        simp [← ih]

/-! ## The loop of `extractCodeBlocks` -/


theorem fenceStep_prose (env : Env) (width : Int) (st : FenceState) (l : Str)
    (hin : st.inFence = false) (hl : isFenceLine l = false) :
    fenceStep env width st l = { st with result := st.result ++ [l] } := by
  unfold isFenceLine at hl
  simp [fenceStep, hin, hl]

theorem fenceStep_body (env : Env) (width : Int) (st : FenceState) (l : Str)
    (hin : st.inFence = true) (hl : isFenceLine l = false) :
    fenceStep env width st l = { st with fence := st.fence ++ [l] } := by
  unfold isFenceLine at hl
  simp [fenceStep, hin, hl]

theorem fenceStep_open (env : Env) (width : Int) (st : FenceState) (l : Str)
    (hin : st.inFence = false) (hl : isFenceLine l = true) :
    fenceStep env width st l =
      { st with
        inFence := true
        lang := if trimPrefix (trimSpace l) fenceMark = [] then "go".toList
          else trimPrefix (trimSpace l) fenceMark
        fence := st.fence ++ [l] } := by
  unfold isFenceLine at hl
  simp [fenceStep, hin, hl]

theorem fenceStep_close (env : Env) (width : Int) (st : FenceState) (l : Str)
    (hin : st.inFence = true) (hl : isFenceLine l = true) :
    fenceStep env width st l =
      { result := st.result ++ [placeholder fencePrefix st.blocks.length]
        fence := []
        inFence := false
        lang := []
        blocks := st.blocks ++
          [(renderCodeBlock env st.lang
              (joinLines (((st.fence ++ [l]).take ((st.fence ++ [l]).length - 1)).drop 1))
              width).getD (joinLines (st.fence ++ [l]) ++ [nl])] } := by
  unfold isFenceLine at hl
  simp only [fenceStep, hin, hl]
  simp
  cases renderCodeBlock env st.lang _ width <;> simp

theorem foldl_fenceStep_body (env : Env) (width : Int) (ls : List Str) (st : FenceState)
    (hin : st.inFence = true) (hls : ∀ l ∈ ls, isFenceLine l = false) :
    ls.foldl (fenceStep env width) st = { st with fence := st.fence ++ ls } := by
  induction ls generalizing st with
  | nil => simp
  | cons l ls ih =>
    rw [List.foldl_cons, fenceStep_body env width st l hin (hls l (by simp)),
      ih { st with fence := st.fence ++ [l] } hin (fun x hx => hls x (by simp [hx]))]
    simp

theorem foldl_fenceStep_prose (env : Env) (width : Int) (ls : List Str) (st : FenceState)
    (hin : st.inFence = false) (hls : ∀ l ∈ ls, isFenceLine l = false) :
    ls.foldl (fenceStep env width) st = { st with result := st.result ++ ls } := by
  induction ls generalizing st with
  | nil => simp
  | cons l ls ih =>
    rw [List.foldl_cons, fenceStep_prose env width st l hin (hls l (by simp)),
      ih { st with result := st.result ++ [l] } hin (fun x hx => hls x (by simp [hx]))]
    simp

theorem foldl_fenceStep_atMostOne (env : Env) (width : Int) (ls : List Str) (st : FenceState)
    (hin : st.inFence = false) (hf : st.fence = [])
    (hls : (ls.filter isFenceLine).length ≤ 1) :
    (ls.foldl (fenceStep env width) st).blocks = st.blocks ∧
      (ls.foldl (fenceStep env width) st).result ++ (ls.foldl (fenceStep env width) st).fence
        = st.result ++ ls := by
  induction ls generalizing st with
  | nil => simp [hf]
  | cons l ls ih =>
    rw [List.foldl_cons]
    cases hl : isFenceLine l with
    | false =>
      rw [fenceStep_prose env width st l hin hl]
      have hls2 : (ls.filter isFenceLine).length ≤ 1 := by
        simpa [List.filter_cons, hl] using hls
      have := ih { st with result := st.result ++ [l] } hin hf hls2
      simpa using this
    | true =>
      rw [fenceStep_open env width st l hin hl]
      have hls2 : ∀ x ∈ ls, isFenceLine x = false := by
        have h0 : (ls.filter isFenceLine).length = 0 := by
          simp only [List.filter_cons, hl, if_true, List.length_cons] at hls
          omega
        intro x hx
        by_contra hc
        have : x ∈ ls.filter isFenceLine := by
          simp [List.mem_filter, hx, hc]
        rw [List.length_eq_zero] at h0
        rw [h0] at this
        exact absurd this (by simp)
      rw [foldl_fenceStep_body env width ls _ rfl hls2]
      simp [hf]

/-- C1: a document that is one closed fenced block is lifted whole: the content
is the single token `MDFENCE0000`, and the table scanner and the link scanner
find nothing in it, whatever the body lines look like and whatever the
renderer returns. -/
theorem fenced_document_protected (env : Env) (width : Int) (D opn cls : Str) (body : List Str)
    (hD : splitLines D = opn :: body ++ [cls])
    (hopen : isFenceLine opn = true)
    (hbody : ∀ l ∈ body, isFenceLine l = false)
    (hclose : isFenceLine cls = true) :
    (extractCodeBlocks env D width).1 = "MDFENCE0000".toList ∧
    extractTables env (extractCodeBlocks env D width).1 = ("MDFENCE0000".toList, []) ∧
    extractLinks (extractTables env (extractCodeBlocks env D width).1).1
      = ("MDFENCE0000".toList, []) := by
  have h1 : (extractCodeBlocks env D width).1 = "MDFENCE0000".toList := by
    unfold extractCodeBlocks
    simp only [hD, List.foldl_cons, List.foldl_append, List.foldl_nil]
    rw [fenceStep_open env width _ opn rfl hopen,
      foldl_fenceStep_body env width body _ rfl hbody,
      fenceStep_close env width _ cls rfl hclose]
    simp only [List.nil_append, List.append_nil, List.length_nil, joinLines]
    decide
  have h2 : extractTables env "MDFENCE0000".toList = ("MDFENCE0000".toList, []) := by
    rfl
  rw [h1, h2]
  exact ⟨rfl, rfl, by decide⟩

theorem fenced_document_protected_witness :
    splitLines "```go\n| a | b |\n|---|---|\n[x](y)\n```".toList
        = "```go".toList :: ["| a | b |".toList, "|---|---|".toList, "[x](y)".toList]
          ++ ["```".toList] ∧
      (extractCodeBlocks sampleEnv "```go\n| a | b |\n|---|---|\n[x](y)\n```".toList 80).1
        = "MDFENCE0000".toList ∧
      extractTables sampleEnv
          (extractCodeBlocks sampleEnv "```go\n| a | b |\n|---|---|\n[x](y)\n```".toList 80).1
        = ("MDFENCE0000".toList, []) ∧
      extractLinks (extractTables sampleEnv
          (extractCodeBlocks sampleEnv "```go\n| a | b |\n|---|---|\n[x](y)\n```".toList 80).1).1
        = ("MDFENCE0000".toList, []) :=
  ⟨by decide, fenced_document_protected sampleEnv 80
    "```go\n| a | b |\n|---|---|\n[x](y)\n```".toList "```go".toList "```".toList
    ["| a | b |".toList, "|---|---|".toList, "[x](y)".toList]
    (by decide) (by decide) (by decide) (by decide)⟩

/-- C2: a document with at most one fence line, so with no closed fence, is
returned unchanged, with no block. -/
theorem extractCodeBlocks_unterminated (env : Env) (D : Str) (width : Int)
    (h : ((splitLines D).filter isFenceLine).length ≤ 1) :
    extractCodeBlocks env D width = (D, []) := by
  unfold extractCodeBlocks
  have := foldl_fenceStep_atMostOne env width (splitLines D)
    { result := [], fence := [], inFence := false, lang := [], blocks := [] } rfl rfl h
  simp only [this.1, this.2, List.nil_append, joinLines_splitLines]

theorem extractCodeBlocks_unterminated_witness :
    ((splitLines "a\n```go\nx := 1\n".toList).filter isFenceLine).length ≤ 1 ∧
      extractCodeBlocks sampleEnv "a\n```go\nx := 1\n".toList 80
        = ("a\n```go\nx := 1\n".toList, []) :=
  ⟨by decide, extractCodeBlocks_unterminated sampleEnv _ 80 (by decide)⟩

/-! ## `strings.ReplaceAll` -/

theorem isPrefixOf_eq_true_iff (p s : Str) : p.isPrefixOf s = true ↔ p <+: s :=
  List.isPrefixOf_iff_prefix

theorem replaceAux_drop (old new : Str) (k : Nat) (s : Str) :
    replaceAux old new k s = replaceAux old new 0 (s.drop k) := by
  induction k generalizing s with
  | zero => simp
  | succ k ih =>
    cases s with
    | nil => simp [replaceAux]
    | cons c cs => simp [replaceAux, ih cs]

theorem replaceAll_nil (old new : Str) (h : old ≠ []) : replaceAll [] old new = [] := by
  simp [replaceAll, h, replaceAux]

/-- An occurrence at the start is replaced, and the scan goes on behind it. -/
theorem replaceAll_append_left (old new s : Str) (h : old ≠ []) :
    replaceAll (old ++ s) old new = new ++ replaceAll s old new := by
  obtain ⟨c, t, rfl⟩ := List.exists_cons_of_ne_nil h
  have hp : (c :: t).isPrefixOf (c :: (t ++ s)) = true := by
    rw [isPrefixOf_eq_true_iff]; exact List.prefix_append (c :: t) s
  simp only [replaceAll, h, if_false, List.cons_append, replaceAux, hp, if_true]
  rw [replaceAux_drop]
  simp

/-- Where no occurrence starts, the character is kept. -/
theorem replaceAll_cons (old new : Str) (c : Char) (s : Str) (h : old ≠ [])
    (hp : ¬ old <+: c :: s) :
    replaceAll (c :: s) old new = c :: replaceAll s old new := by
  have hp2 : old.isPrefixOf (c :: s) = false := by
    rw [← Bool.not_eq_true, isPrefixOf_eq_true_iff]; exact hp
  simp [replaceAll, h, replaceAux, hp2]


theorem replaceAll_skip (old new p w : Str) (h : old ≠ []) (hp : NoStart old p w) :
    replaceAll (p ++ w) old new = p ++ replaceAll w old new := by
  induction p with
  | nil => simp
  | cons c p ih =>
    have h1 : ¬ old <+: c :: (p ++ w) := hp (c :: p) (by simp) (List.suffix_refl _)
    rw [List.cons_append, replaceAll_cons old new c (p ++ w) h h1,
      ih (fun u hu hs => hp u hu (hs.trans (List.suffix_cons c p)))]
    rfl

theorem noStart_of_absent (old p : Str) (h : ¬ old <:+: p) : NoStart old p [] := by
  intro u _ hs hpre
  rw [List.append_nil] at hpre
  exact h (hpre.isInfix.trans hs.isInfix)

/-- A text in which `old` does not occur is left as it is. -/
theorem replaceAll_of_absent (old new s : Str) (h : old ≠ []) (hs : ¬ old <:+: s) :
    replaceAll s old new = s := by
  have := replaceAll_skip old new s [] h (noStart_of_absent old s hs)
  simpa [replaceAll_nil old new h] using this

/-- One occurrence, with none starting before it and none behind it. -/
theorem replaceAll_single (old new p w : Str) (h : old ≠ [])
    (hp : NoStart old p (old ++ w)) (hw : ¬ old <:+: w) :
    replaceAll (p ++ old ++ w) old new = p ++ new ++ w := by
  rw [List.append_assoc, replaceAll_skip old new p (old ++ w) h hp,
    replaceAll_append_left old new w h, replaceAll_of_absent old new w h hw,
    List.append_assoc]

/-- An occurrence of a text free of `c` in `a ++ c :: b` lies in `a` or in `b`. -/
theorem infix_append_cons (p a b : Str) (c : Char) (hc : c ∉ p) (h : p <:+: a ++ c :: b) :
    p <:+: a ∨ p <:+: b := by
  obtain ⟨s, t, hst⟩ := h
  rw [List.append_eq_append_iff] at hst
  rcases hst with ⟨a', h1, h2⟩ | ⟨c', h1, h2⟩
  · -- a = s ++ p ++ a'
    exact Or.inl ⟨s, a', h1.symm⟩
  · -- s ++ p = a ++ c', c :: b = c' ++ t
    cases c' with
    | nil => exact Or.inl ⟨s, [], by simpa using h1⟩
    | cons d c'' =>
      simp only [List.cons_append, List.cons.injEq] at h2
      obtain ⟨rfl, hb⟩ := h2
      rw [List.append_eq_append_iff] at h1
      rcases h1 with ⟨a'', _, h4⟩ | ⟨d', _, h4⟩
      · exact absurd (by rw [h4]; simp) hc
      · cases d' with
        | nil => exact absurd (by rw [← List.nil_append p, ← h4]; simp) hc
        | cons e d'' =>
          simp only [List.cons_append, List.cons.injEq] at h4
          exact Or.inr ⟨d'', t, by rw [hb, h4.2]⟩

/-! ## One token on a line of its own -/

theorem prefix_append_cons (p a b : Str) (c : Char) (hc : c ∉ p) (h : p <+: a ++ c :: b) :
    p <+: a := by
  obtain ⟨t, ht⟩ := h
  rw [List.append_eq_append_iff] at ht
  rcases ht with ⟨a', h1, _⟩ | ⟨c', h1, h2⟩
  · exact ⟨a', h1.symm⟩
  · cases c' with
    | nil => exact ⟨[], by simpa using h1⟩
    | cons d c'' =>
      simp only [List.cons_append, List.cons.injEq] at h2
      exact absurd (by rw [h1, ← h2.1]; simp) hc

theorem infix_joinLines (p : Str) (ls : List Str) (hne : p ≠ []) (hc : nl ∉ p)
    (h : p <:+: joinLines ls) : ∃ l ∈ ls, p <:+: l := by
  induction ls with
  | nil =>
    simp only [joinLines] at h
    exact absurd (List.eq_nil_of_infix_nil h) hne
  | cons l ls ih =>
    rw [joinLines_cons] at h
    split_ifs at h with hls
    · exact ⟨l, by simp, by simpa using h⟩
    · rcases infix_append_cons p l (joinLines ls) nl hc h with h1 | h1
      · exact ⟨l, by simp, h1⟩
      · obtain ⟨x, hx, hpx⟩ := ih h1
        exact ⟨x, by simp [hx], hpx⟩

theorem joinLines_sandwich (pre post : List Str) (x : Str) :
    joinLines (pre ++ [x] ++ post)
      = (if pre = [] then [] else joinLines pre ++ [nl]) ++ x
        ++ (if post = [] then [] else nl :: joinLines post) := by
  by_cases h1 : pre = [] <;> by_cases h2 : post = []
  · simp [h1, h2, joinLines]
  · subst h1
    simp [h2, joinLines_cons]
  · subst h2
    simp [h1]
    rw [joinLines_append pre [x] h1 (by simp)]
    simp [joinLines]
  · simp only [h1, h2, if_false]
    rw [List.append_assoc, joinLines_append pre ([x] ++ post) h1 (by simp)]
    simp [joinLines_cons, h2]

/-- A token that stands on a line of its own, and occurs in no other line, is
replaced in place. -/
theorem replaceAll_joinLines_single (tok t : Str) (pre post : List Str) (hne : tok ≠ [])
    (hc : nl ∉ tok) (hpre : ∀ l ∈ pre, ¬ tok <:+: l) (hpost : ∀ l ∈ post, ¬ tok <:+: l) :
    replaceAll (joinLines (pre ++ [tok] ++ post)) tok t = joinLines (pre ++ [t] ++ post) := by
  rw [joinLines_sandwich, joinLines_sandwich]
  apply replaceAll_single _ _ _ _ hne
  · intro u hu hs hp
    split_ifs at hs with h1
    · exact hu (List.suffix_nil.mp hs)
    · have hu2 : ∃ u', u = u' ++ [nl] := by
        obtain ⟨v, hv⟩ := hs
        rcases List.eq_nil_or_concat u with h | ⟨u', c, rfl⟩
        · exact absurd h hu
        · refine ⟨u', ?_⟩
          have := congrArg List.getLast? hv
          simp at this
          rw [this]
          simp
      obtain ⟨u', rfl⟩ := hu2
      rw [List.append_assoc] at hp
      have h3 : tok <+: u' := prefix_append_cons tok u' _ nl hc hp
      have h4 : u' <:+ joinLines pre := by
        obtain ⟨v, hv⟩ := hs
        refine ⟨v, ?_⟩
        rw [← List.append_assoc] at hv
        exact List.append_cancel_right hv
      obtain ⟨l, hl, hpl⟩ := infix_joinLines tok pre hne hc (h3.isInfix.trans h4.isInfix)
      exact hpre l hl hpl
  · intro h
    split_ifs at h with h2
    · exact hne (List.eq_nil_of_infix_nil h)
    · rcases infix_append_cons tok [] (joinLines post) nl hc h with h1 | h1
      · exact hne (List.eq_nil_of_infix_nil h1)
      · obtain ⟨l, hl, hpl⟩ := infix_joinLines tok post hne hc h1
        exact hpost l hl hpl

/-! ## The loop of `extractTables` -/

theorem tablesAux_drop (env : Env) (k idx : Nat) (ls : List Str) :
    tablesAux env k idx ls = tablesAux env 0 idx (ls.drop k) := by
  induction k generalizing ls with
  | zero => simp
  | succ k ih =>
    cases ls with
    | nil => simp [tablesAux]
    | cons l ls => simp [tablesAux, ih ls]

theorem tablesAux_cons_of_not_row (env : Env) (idx : Nat) (l : Str) (rest : List Str)
    (hl : isTableRow l = false) :
    tablesAux env 0 idx (l :: rest)
      = (l :: (tablesAux env 0 idx rest).1, (tablesAux env 0 idx rest).2) := by
  rw [tablesAux]
  simp [hl]

theorem tablesAux_cons_of_table (env : Env) (idx : Nat) (l sep : Str) (rest : List Str)
    (hl : isTableRow l = true) (hs : isSeparatorRow sep = true) :
    tablesAux env 0 idx (l :: sep :: rest)
      = (placeholder tablePrefix idx ::
          (tablesAux env 0 (idx + 1) (rest.drop (rest.takeWhile isTableRow).length)).1,
        renderCompactTable env (l :: sep :: rest.takeWhile isTableRow) ::
          (tablesAux env 0 (idx + 1) (rest.drop (rest.takeWhile isTableRow).length)).2) := by
  rw [tablesAux]
  simp only [hl, List.head?_cons, Option.map_some', Option.getD_some, hs, Bool.and_self, if_true]
  rw [tablesAux_drop]
  simp

theorem tablesAux_prose (env : Env) (idx : Nat) (pre rest : List Str)
    (hpre : ∀ l ∈ pre, isTableRow l = false) :
    tablesAux env 0 idx (pre ++ rest)
      = (pre ++ (tablesAux env 0 idx rest).1, (tablesAux env 0 idx rest).2) := by
  induction pre with
  | nil => simp
  | cons l pre ih =>
    have hl : isTableRow l = false := hpre l (by simp)
    rw [List.cons_append, tablesAux_cons_of_not_row env idx l _ hl,
      ih (fun x hx => hpre x (by simp [hx]))]
    rfl

theorem tablesAux_nil (env : Env) (k idx : Nat) : tablesAux env k idx [] = ([], []) := by
  cases k <;> simp [tablesAux]

theorem takeWhile_rows (rows post : List Str) (hr : ∀ l ∈ rows, isTableRow l = true)
    (hpost : ∀ l ∈ post, isTableRow l = false) :
    (rows ++ post).takeWhile isTableRow = rows := by
  induction rows with
  | nil =>
    cases post with
    | nil => simp
    | cons x post => simp [List.takeWhile_cons, hpost x (by simp)]
  | cons r rows ih =>
    simp [List.takeWhile_cons, hr r (by simp), ih (fun x hx => hr x (by simp [hx]))]

theorem tablesAux_table (env : Env) (idx : Nat) (header sep : Str) (rows post : List Str)
    (hh : isTableRow header = true) (hs : isSeparatorRow sep = true)
    (hr : ∀ l ∈ rows, isTableRow l = true) (hpost : ∀ l ∈ post, isTableRow l = false) :
    tablesAux env 0 idx (header :: sep :: (rows ++ post))
      = (placeholder tablePrefix idx :: post, [renderCompactTable env (header :: sep :: rows)]) := by
  rw [tablesAux_cons_of_table env idx header sep _ hh hs, takeWhile_rows rows post hr hpost]
  have h := tablesAux_prose env (idx + 1) post [] hpost
  simp only [List.append_nil, tablesAux_nil] at h
  simp [h]

theorem placeholder_table_zero : placeholder tablePrefix 0 = "MDTABLE0000".toList := by decide

/-- C3: a document with one table between prose lines: the table scanner lifts
exactly the header, the separator and the rows, renders them with
`renderCompactTable`, and `restoreTables` puts that rendering where the lines of
the table stood, the lines before and after unchanged and in their order. -/
theorem table_roundtrip (env : Env) (D header sep : Str) (pre rows post : List Str)
    (hD : splitLines D = pre ++ [header, sep] ++ rows ++ post)
    (hh : isTableRow header = true) (hs : isSeparatorRow sep = true)
    (hr : ∀ l ∈ rows, isTableRow l = true)
    (hpre : ∀ l ∈ pre, isTableRow l = false) (hpost : ∀ l ∈ post, isTableRow l = false)
    (hpre2 : ∀ l ∈ pre, ¬ "MDTABLE0000".toList <:+: l)
    (hpost2 : ∀ l ∈ post, ¬ "MDTABLE0000".toList <:+: l) :
    extractTables env D
      = (joinLines (pre ++ ["MDTABLE0000".toList] ++ post),
          [renderCompactTable env (header :: sep :: rows)]) ∧
    restoreTables (extractTables env D).1 (extractTables env D).2
      = joinLines (pre ++ [renderCompactTable env (header :: sep :: rows)] ++ post) := by
  have h1 : extractTables env D
      = (joinLines (pre ++ ["MDTABLE0000".toList] ++ post),
          [renderCompactTable env (header :: sep :: rows)]) := by
    unfold extractTables
    have h2 : pre ++ [header, sep] ++ rows ++ post = pre ++ (header :: sep :: (rows ++ post)) := by
      simp
    simp only [hD, h2]
    rw [tablesAux_prose env 0 pre _ hpre, tablesAux_table env 0 header sep rows post hh hs hr hpost,
      placeholder_table_zero]
    simp
  refine ⟨h1, ?_⟩
  rw [h1]
  simp only [restoreTables, restoreFrom, placeholder_table_zero]
  exact replaceAll_joinLines_single _ _ pre post (by decide) (by decide) hpre2 hpost2

theorem table_roundtrip_witness :
    splitLines "a\n\n| a | b |\n|---|---|\n| 1 | 2 |\n\nend".toList
        = ["a".toList, []] ++ ["| a | b |".toList, "|---|---|".toList] ++ ["| 1 | 2 |".toList]
          ++ [[], "end".toList] ∧
      (extractTables sampleEnv "a\n\n| a | b |\n|---|---|\n| 1 | 2 |\n\nend".toList
        = (joinLines (["a".toList, []] ++ ["MDTABLE0000".toList] ++ [[], "end".toList]),
            [renderCompactTable sampleEnv
              ("| a | b |".toList :: "|---|---|".toList :: ["| 1 | 2 |".toList])]) ∧
      restoreTables
          (extractTables sampleEnv "a\n\n| a | b |\n|---|---|\n| 1 | 2 |\n\nend".toList).1
          (extractTables sampleEnv "a\n\n| a | b |\n|---|---|\n| 1 | 2 |\n\nend".toList).2
        = joinLines (["a".toList, []] ++ [renderCompactTable sampleEnv
              ("| a | b |".toList :: "|---|---|".toList :: ["| 1 | 2 |".toList])]
            ++ [[], "end".toList])) :=
  ⟨by decide, table_roundtrip sampleEnv "a\n\n| a | b |\n|---|---|\n| 1 | 2 |\n\nend".toList
    "| a | b |".toList "|---|---|".toList ["a".toList, []] ["| 1 | 2 |".toList]
    [[], "end".toList] (by decide) (by decide) (by decide) (by decide) (by decide) (by decide)
    (by decide) (by decide)⟩

/-! ## The verb `%04d` -/

theorem digitChar_isDigit (d : Nat) (h : d < 10) : (Nat.digitChar d).isDigit = true := by
  interval_cases d <;> decide

theorem digitChar_val (d : Nat) (h : d < 10) : (Nat.digitChar d).toNat - 48 = d := by
  interval_cases d <;> decide

theorem toDigitsCore_append (fuel n : Nat) (ds : Str) :
    Nat.toDigitsCore 10 fuel n ds = Nat.toDigitsCore 10 fuel n [] ++ ds := by
  induction fuel generalizing n ds with
  | zero => simp [Nat.toDigitsCore]
  | succ f ih =>
    simp only [Nat.toDigitsCore]
    split_ifs
    · simp
    · rw [ih (n / 10) (Nat.digitChar (n % 10) :: ds), ih (n / 10) [Nat.digitChar (n % 10)]]
      simp

theorem toDigitsCore_isDigit (fuel n : Nat) :
    ∀ c ∈ Nat.toDigitsCore 10 fuel n [], c.isDigit = true := by
  induction fuel generalizing n with
  | zero => simp [Nat.toDigitsCore]
  | succ f ih =>
    intro c hc
    simp only [Nat.toDigitsCore] at hc
    split_ifs at hc
    · simp only [List.mem_singleton] at hc
      rw [hc]; exact digitChar_isDigit _ (Nat.mod_lt _ (by norm_num))
    · rw [toDigitsCore_append] at hc
      simp only [List.mem_append, List.mem_singleton] at hc
      rcases hc with hc | hc
      · exact ih _ c hc
      · rw [hc]; exact digitChar_isDigit _ (Nat.mod_lt _ (by norm_num))

theorem digitsVal_append_singleton (s : Str) (c : Char) :
    digitsVal (s ++ [c]) = 10 * digitsVal s + (c.toNat - 48) := by
  simp [digitsVal, List.foldl_append]

theorem toDigitsCore_val (fuel n : Nat) (h : n < fuel) :
    digitsVal (Nat.toDigitsCore 10 fuel n []) = n := by
  induction fuel generalizing n with
  | zero => omega
  | succ f ih =>
    simp only [Nat.toDigitsCore]
    split_ifs with h0
    · have : n < 10 := by
        by_contra hc
        have : 1 ≤ n / 10 := Nat.div_pos (by omega) (by norm_num)
        omega
      simp only [digitsVal, List.foldl_cons, List.foldl_nil, Nat.mod_eq_of_lt this,
        digitChar_val n this]
      omega
    · rw [toDigitsCore_append, digitsVal_append_singleton,
        ih (n / 10) (by omega), digitChar_val _ (Nat.mod_lt n (by norm_num : 10 > 0))]
      omega

theorem toDigitsCore_length (k fuel n : Nat) (hk : 1 ≤ k) (hn : n < 10 ^ k) (h : n < fuel) :
    (Nat.toDigitsCore 10 fuel n []).length ≤ k := by
  induction k generalizing fuel n with
  | zero => omega
  | succ k ih =>
    cases fuel with
    | zero => omega
    | succ f =>
      simp only [Nat.toDigitsCore]
      split_ifs with h0
      · simp
      · rw [toDigitsCore_append]
        have h1 : n / 10 < 10 ^ k := by
          rw [Nat.div_lt_iff_lt_mul (by norm_num)]
          calc n < 10 ^ (k + 1) := hn
            _ = 10 ^ k * 10 := by ring
        have hk1 : 1 ≤ k := by
          by_contra hc
          have : k = 0 := by omega
          subst this
          simp at h1
          exact h0 h1
        have := ih f (n / 10) hk1 h1 (by omega)
        simp
        omega

theorem digitsVal_zeros (k : Nat) (s : Str) :
    digitsVal (List.replicate k '0' ++ s) = digitsVal s := by
  have h : ∀ k, List.foldl (fun a c => 10 * a + (c.toNat - 48)) 0 (List.replicate k '0') = 0 := by
    intro k
    induction k with
    | zero => rfl
    | succ k ih => simp only [List.replicate_succ, List.foldl_cons]; simpa using ih
  simp [digitsVal, List.foldl_append, h]

/-- The digits `%04d` prints stand for the number printed. -/
theorem digitsVal_fmt04d (n : Nat) : digitsVal (fmt04d n) = n := by
  simp only [fmt04d, digitsVal_zeros, Nat.toDigits]
  exact toDigitsCore_val (n + 1) n (by omega)

theorem fmt04d_injective (i j : Nat) (h : fmt04d i = fmt04d j) : i = j := by
  rw [← digitsVal_fmt04d i, ← digitsVal_fmt04d j, h]

theorem fmt04d_isDigit (n : Nat) : ∀ c ∈ fmt04d n, c.isDigit = true := by
  intro c hc
  simp only [fmt04d, List.mem_append, List.mem_replicate] at hc
  rcases hc with ⟨_, rfl⟩ | hc
  · decide
  · exact toDigitsCore_isDigit _ _ c hc

theorem fmt04d_length (n : Nat) (h : n < 10000) : (fmt04d n).length = 4 := by
  have := toDigitsCore_length 4 (n + 1) n (by norm_num) (by norm_num; exact h) (by omega)
  simp only [fmt04d, Nat.toDigits, List.length_append, List.length_replicate]
  omega

theorem fmt04d_length_ge (n : Nat) : 4 ≤ (fmt04d n).length := by
  simp only [fmt04d, List.length_append, List.length_replicate]
  omega

/-! ## Placeholder tokens -/

theorem prefix_placeholder (pre : Str) (i : Nat) : pre <+: placeholder pre i :=
  List.prefix_append pre (fmt04d i)

theorem mem_placeholder (pre : Str) (i : Nat) (c : Char) (h : c ∈ placeholder pre i) :
    c ∈ pre ∨ c.isDigit = true := by
  simp only [placeholder, List.mem_append] at h
  exact h.imp id (fmt04d_isDigit i c)

theorem placeholder_ne_nil (pre : Str) (i : Nat) : placeholder pre i ≠ [] := by
  intro h
  have := fmt04d_length_ge i
  simp only [placeholder, List.append_eq_nil] at h
  rw [h.2] at this
  simp at this

/-- C5, counterexample: the document `MDLINK0000 [a](b)` holds one link, whose
token `MDLINK0000` is a substring of the document. -/
theorem generated_token_collides :
    ∃ t ∈ generatedTokens sampleEnv "MDLINK0000 [a](b)".toList 80,
      t <:+: "MDLINK0000 [a](b)".toList := by
  decide

/-- C5, amended: when the document contains none of the three prefixes
`MDFENCE`, `MDTABLE`, `MDLINK`, no token generated while extracting it occurs in
it. -/
theorem generated_tokens_fresh (env : Env) (D : Str) (width : Int)
    (hf : ¬ fencePrefix <:+: D) (ht : ¬ tablePrefix <:+: D) (hl : ¬ linkPrefix <:+: D) :
    ∀ t ∈ generatedTokens env D width, ¬ t <:+: D := by
  intro t ht2 hin
  simp only [generatedTokens, List.mem_append, List.mem_map, List.mem_range] at ht2
  rcases ht2 with (⟨i, _, rfl⟩ | ⟨i, _, rfl⟩) | ⟨i, _, rfl⟩
  · exact hf ((prefix_placeholder _ i).isInfix.trans hin)
  · exact ht ((prefix_placeholder _ i).isInfix.trans hin)
  · exact hl ((prefix_placeholder _ i).isInfix.trans hin)

theorem generated_tokens_fresh_witness :
    (¬ fencePrefix <:+: "x [a](b)\n| a |\n|---|".toList) ∧
      (¬ tablePrefix <:+: "x [a](b)\n| a |\n|---|".toList) ∧
      (¬ linkPrefix <:+: "x [a](b)\n| a |\n|---|".toList) ∧
      generatedTokens sampleEnv "x [a](b)\n| a |\n|---|".toList 80
        = ["MDTABLE0000".toList, "MDLINK0000".toList] ∧
      ∀ t ∈ generatedTokens sampleEnv "x [a](b)\n| a |\n|---|".toList 80,
        ¬ t <:+: "x [a](b)\n| a |\n|---|".toList :=
  ⟨by decide, by decide, by decide, by decide,
    generated_tokens_fresh sampleEnv "x [a](b)\n| a |\n|---|".toList 80
      (by decide) (by decide) (by decide)⟩

/-! ## The pager -/

theorem setYOffset_inRange (v : Viewport) (n : Int) : (v.SetYOffset n).InRange := by
  have h : (0 : Int) ≤ v.maxYOffset := le_max_left _ _
  simp only [Viewport.InRange, Viewport.SetYOffset, Viewport.maxYOffset] at h ⊢
  omega

theorem gotoTop_inRange (v : Viewport) (h : v.InRange) : v.GotoTop.InRange := by
  unfold Viewport.GotoTop
  split_ifs
  · exact h
  · exact setYOffset_inRange v 0

theorem lineDown_inRange (v : Viewport) (n : Int) (h : v.InRange) : (v.LineDown n).InRange := by
  unfold Viewport.LineDown
  split_ifs
  · exact h
  · exact setYOffset_inRange v _

theorem lineUp_inRange (v : Viewport) (n : Int) (h : v.InRange) : (v.LineUp n).InRange := by
  unfold Viewport.LineUp
  split_ifs
  · exact h
  · exact setYOffset_inRange v _

theorem viewport_update_inRange (v : Viewport) (msg : Msg) (h : v.InRange) :
    (v.Update msg).InRange := by
  cases msg with
  | windowSize w ht => exact h
  | key k =>
    simp only [Viewport.Update]
    split_ifs <;>
      first
        | exact h
        | exact lineDown_inRange v _ h
        | exact lineUp_inRange v _ h

/-- A key message keeps the offset of the viewport in range. -/
theorem update_key_inRange (m : model) (k : Str) (h : m.viewport.InRange) :
    (m.Update (Msg.key k)).viewport.InRange := by
  simp only [model.Update]
  split_ifs <;>
    first
      | exact h
      | exact viewport_update_inRange _ _ (gotoTop_inRange _ h)
      | exact viewport_update_inRange _ _ (setYOffset_inRange _ _)
      | exact viewport_update_inRange _ _ (lineDown_inRange _ _ h)
      | exact viewport_update_inRange _ _ (lineUp_inRange _ _ h)
      | exact viewport_update_inRange _ _ h

/-- The first window-size message makes the pager ready with the offset in
range. -/
theorem update_first_size_inRange (m : model) (w ht : Int) (hr : m.ready = false) :
    (m.Update (Msg.windowSize w ht)).ready = true ∧
      (m.Update (Msg.windowSize w ht)).viewport.InRange := by
  simp only [model.Update, hr, Bool.not_false, if_true, Viewport.Update, true_and]
  unfold Viewport.SetContent
  simp only []
  split_ifs
  · exact setYOffset_inRange _ _
  · simp only [Viewport.InRange, Viewport.New, Viewport.maxYOffset]
    omega

/-- C9, the failing trace: a text of ten lines, a window of height 9 (viewport
height 5), `G` (offset 5), then a window of height 12 (viewport height 8): the
pager is ready, the offset is still 5, and `max(0, 10 - 8)` is 2. -/
theorem resize_leaves_offset_out_of_range :
    ((initialModel (List.replicate 9 nl) []).run
        [Msg.windowSize 80 9, Msg.key "G".toList, Msg.windowSize 80 12]).ready = true ∧
      ((initialModel (List.replicate 9 nl) []).run
        [Msg.windowSize 80 9, Msg.key "G".toList, Msg.windowSize 80 12]).viewport.YOffset = 5 ∧
      ((initialModel (List.replicate 9 nl) []).run
        [Msg.windowSize 80 9, Msg.key "G".toList, Msg.windowSize 80 12]).viewport.maxYOffset = 2 ∧
      ¬ ((initialModel (List.replicate 9 nl) []).run
        [Msg.windowSize 80 9, Msg.key "G".toList, Msg.windowSize 80 12]).viewport.InRange := by
  refine ⟨by decide, by decide, by decide, ?_⟩
  unfold Viewport.InRange
  decide

/-! ## The width of a panel line -/

/-- Induction along the scan of `strings.ReplaceAll`. -/
theorem replaceAll_induction {motive : Str → Prop} (old : Str) (h : old ≠ [])
    (nil : motive [])
    (hit : ∀ s, motive s → motive (old ++ s))
    (miss : ∀ c s, ¬ old <+: c :: s → motive s → motive (c :: s)) :
    ∀ s, motive s := by
  intro s
  generalize hn : s.length = n
  induction n using Nat.strong_induction_on generalizing s with
  | _ n ih =>
    cases s with
    | nil => exact nil
    | cons c cs =>
      by_cases hp : old <+: c :: cs
      · obtain ⟨t, ht⟩ := hp
        rw [← ht]
        apply hit
        apply ih t.length _ t rfl
        have h1 : 0 < old.length := List.length_pos.mpr h
        have h2 := congrArg List.length ht
        simp only [List.length_append, List.length_cons] at h2
        simp only [List.length_cons] at hn
        omega
      · apply miss c cs hp
        apply ih cs.length _ cs rfl
        simp only [List.length_cons] at hn
        omega

theorem sgrWidthFrom_cons (st : SgrState) (c : Char) (cs : Str) :
    sgrWidthFrom st (c :: cs)
      = match sgrStep st c with
        | none => none
        | some r => (sgrWidthFrom r.1 cs).map (fun n => r.2 + n) := by
  cases st <;> rfl

/-- A text that is read to its end, and what follows it. -/
theorem sgrWidthFrom_append (a b : Str) :
    ∀ (st : SgrState) (n : Nat), sgrWidthFrom st a = some n →
      sgrWidthFrom st (a ++ b) = (sgrWidthFrom SgrState.text b).map (fun m => n + m) := by
  induction a with
  | nil =>
    intro st n h
    cases st with
    | text =>
      have hn : n = 0 := by
        have h2 : some 0 = some n := h
        exact (Option.some.inj h2).symm
      subst hn
      simp
    | afterEsc => exact absurd h (by simp [sgrWidthFrom])
    | params => exact absurd h (by simp [sgrWidthFrom])
  | cons c a ih =>
    intro st n h
    rw [sgrWidthFrom_cons] at h
    rw [List.cons_append, sgrWidthFrom_cons]
    cases hs : sgrStep st c with
    | none => rw [hs] at h; exact absurd h (by simp)
    | some r =>
      rw [hs] at h
      simp only [Option.map_eq_some'] at h
      obtain ⟨k, hk, rfl⟩ := h
      simp only [ih r.1 k hk, Option.map_map]
      congr 1
      funext m
      simp [Nat.add_assoc]

theorem sgrWidthFrom_reset (st : SgrState) (x : Str) :
    sgrWidthFrom st (ansiReset ++ x)
      = if st = SgrState.text then sgrWidthFrom SgrState.text x else none := by
  cases st <;>
    simp [ansiReset, escChar, sgrWidthFrom_cons, sgrStep]

theorem sgrWidthFrom_bg (x : Str) :
    sgrWidthFrom SgrState.text (codeBlockBgANSI ++ x) = sgrWidthFrom SgrState.text x := by
  simp [codeBlockBgANSI, escChar, sgrWidthFrom_cons, sgrStep]

theorem sgrWidthFrom_spaces (k : Nat) (x : Str) :
    sgrWidthFrom SgrState.text (List.replicate k ' ' ++ x)
      = (sgrWidthFrom SgrState.text x).map (fun m => k + m) := by
  induction k with
  | zero => simp
  | succ k ih =>
    rw [List.replicate_succ, List.cons_append, sgrWidthFrom_cons]
    have : sgrStep SgrState.text ' ' = some (SgrState.text, 1) := by decide
    simp only [this, ih, Option.map_map]
    congr 1
    funext m
    simp only [Function.comp]
    omega

/-- The background sequences put in behind the resets change neither the
cells of a line nor whether it is read to its end. -/
theorem sgrWidthFrom_reinject (line : Str) :
    ∀ st, sgrWidthFrom st (replaceAll line ansiReset (ansiReset ++ codeBlockBgANSI))
      = sgrWidthFrom st line := by
  have hne : ansiReset ≠ [] := by decide
  refine replaceAll_induction (motive := fun line => ∀ st,
    sgrWidthFrom st (replaceAll line ansiReset (ansiReset ++ codeBlockBgANSI))
      = sgrWidthFrom st line) ansiReset hne ?_ ?_ ?_ line
  · intro st
    rw [replaceAll_nil _ _ hne]
  · intro s ih st
    rw [replaceAll_append_left _ _ _ hne, List.append_assoc, sgrWidthFrom_reset,
      sgrWidthFrom_reset, sgrWidthFrom_bg, ih]
  · intro c s hp ih st
    rw [replaceAll_cons _ _ _ _ hne hp, sgrWidthFrom_cons, sgrWidthFrom_cons]
    cases sgrStep st c with
    | none => rfl
    | some r => simp only [ih]

/-- The cells of a padded line, for a line of printable ASCII characters and
SGR sequences: the panel width, or the cells of the line when there are more. -/
theorem sgrWidth_padWithBackground (env : Env) (hw : WidthOnSgr env) (line : Str)
    (width : Int) (n : Nat) (hn : sgrWidth line = some n) :
    sgrWidth (padWithBackground env line width)
      = some (if (n : Int) < width then width.toNat else n) := by
  have hl : env.stringWidth line = n := hw line n hn
  have h1 : sgrWidthFrom SgrState.text
      (replaceAll line ansiReset (ansiReset ++ codeBlockBgANSI)) = some n := by
    rw [sgrWidthFrom_reinject]; exact hn
  have hr : sgrWidthFrom SgrState.text ansiReset = some 0 := by decide
  simp only [sgrWidth, padWithBackground, hl, List.append_assoc, sgrWidthFrom_bg]
  rw [sgrWidthFrom_append _ _ SgrState.text n h1]
  split_ifs with h
  · rw [sgrWidthFrom_spaces, hr]
    simp only [Option.map_some', Option.some.injEq]
    omega
  · rw [List.nil_append, hr]
    simp

/-- C10, counterexample: the line `abcdef` has six cells and is padded to the
panel width 3 with no space at all: the padded line keeps its display width
6. -/
theorem padded_line_not_panel_width :
    sgrWidth "abcdef".toList = some 6 ∧
      padWithBackground sampleEnv "abcdef".toList 3
        = codeBlockBgANSI ++ "abcdef".toList ++ ansiReset ∧
      sgrWidth (padWithBackground sampleEnv "abcdef".toList 3) = some 6 ∧
      (sampleEnv.stringWidth (padWithBackground sampleEnv "abcdef".toList 3) : Int) ≠ 3 := by
  decide

/-- C10, amended: where `xansi.StringWidth` counts the printable characters of
the lines made of printable ASCII characters and complete SGR sequences, such a
line is padded to the display width `max(width of the line, panel width)`, so
to the panel width exactly when it is not wider; and a panel of
`renderCodeBlock` is made of the kept lines of the formatter output, stripped
and padded to the panel width computed from the raw code, each of which has
that display width when it is such a line and is not wider. -/
theorem panel_line_width (env : Env) (hw : WidthOnSgr env) :
    (∀ (line : Str) (width : Int), (sgrWidth line).isSome = true →
      (env.stringWidth (padWithBackground env line width) : Int)
        = max (env.stringWidth line : Int) width) ∧
    (∀ (lang code rendered : Str) (width : Int),
      env.glamourRender (fenceMark ++ lang ++ [nl] ++ code ++ [nl] ++ fenceMark ++ [nl]) width
        = some rendered →
      renderCodeBlock env lang code width
        = some ([nl] ++ ((contentLines rendered).map (fun l =>
            padWithBackground env (stripTrailingPadding l) (panelWidth env code))).flatMap
              (fun pl => pl ++ [nl]) ++ [nl]) ∧
      ∀ l ∈ contentLines rendered, (sgrWidth (stripTrailingPadding l)).isSome = true →
        env.stringWidth (stripTrailingPadding l) ≤ panelWidth env code →
        env.stringWidth (padWithBackground env (stripTrailingPadding l) (panelWidth env code))
          = panelWidth env code) := by
  have key : ∀ (line : Str) (width : Int), (sgrWidth line).isSome = true →
      (env.stringWidth (padWithBackground env line width) : Int)
        = max (env.stringWidth line : Int) width := by
    intro line width hs
    obtain ⟨n, hn⟩ := Option.isSome_iff_exists.mp hs
    rw [hw _ _ (sgrWidth_padWithBackground env hw line width n hn), hw line n hn]
    split_ifs with h <;> omega
  refine ⟨key, ?_⟩
  intro lang code rendered width hr
  refine ⟨?_, ?_⟩
  · simp only [renderCodeBlock, hr, List.flatMap_map]
  · intro l _ hs hle
    have := key (stripTrailingPadding l) (panelWidth env code) hs
    omega

theorem panel_line_width_witness :
    WidthOnSgr sampleEnv ∧
      (sgrWidth ("ab".toList ++ ansiReset ++ "cd".toList)).isSome = true ∧
      (sampleEnv.stringWidth
          (padWithBackground sampleEnv ("ab".toList ++ ansiReset ++ "cd".toList) 10) : Int)
        = max (sampleEnv.stringWidth ("ab".toList ++ ansiReset ++ "cd".toList) : Int) 10 ∧
      "x := 1".toList ∈ contentLines
          (fenceMark ++ "go".toList ++ [nl] ++ "x := 1".toList ++ [nl] ++ fenceMark ++ [nl]) ∧
      sampleEnv.stringWidth (padWithBackground sampleEnv
          (stripTrailingPadding "x := 1".toList) (panelWidth sampleEnv "x := 1".toList))
        = panelWidth sampleEnv "x := 1".toList ∧
      panelWidth sampleEnv "x := 1".toList = 10 :=
  ⟨fun s n h => by simp [sampleEnv, h],
    by decide,
    (panel_line_width sampleEnv (fun s n h => by simp [sampleEnv, h])).1
      ("ab".toList ++ ansiReset ++ "cd".toList) 10 (by decide),
    by decide,
    ((panel_line_width sampleEnv (fun s n h => by simp [sampleEnv, h])).2 "go".toList
      "x := 1".toList
      (fenceMark ++ "go".toList ++ [nl] ++ "x := 1".toList ++ [nl] ++ fenceMark ++ [nl]) 80
      rfl).2 "x := 1".toList (by decide) (by decide) (by decide),
    by decide⟩

/-! ## Restoring in a text free of tokens -/

theorem restoreFrom_cons (pre : Str) (i : Nat) (r b : Str) (bs : List Str) :
    restoreFrom pre i r (b :: bs)
      = restoreFrom pre (i + 1) (replaceAll r (placeholder pre i) b) bs := rfl

theorem restoreFrom_append (pre : Str) (i : Nat) (r : Str) (bs cs : List Str) :
    restoreFrom pre i r (bs ++ cs)
      = restoreFrom pre (i + bs.length) (restoreFrom pre i r bs) cs := by
  induction bs generalizing i r with
  | nil => simp [restoreFrom]
  | cons b bs ih =>
    rw [List.cons_append, restoreFrom_cons, restoreFrom_cons, ih, List.length_cons,
      show i + 1 + bs.length = i + (bs.length + 1) by omega]

theorem restoreFrom_of_absent (pre : Str) (i : Nat) (r : Str) (bs : List Str)
    (h : ∀ k, i ≤ k → k < i + bs.length → ¬ placeholder pre k <:+: r) :
    restoreFrom pre i r bs = r := by
  induction bs generalizing i with
  | nil => rfl
  | cons b bs ih =>
    rw [restoreFrom_cons, replaceAll_of_absent _ _ _ (placeholder_ne_nil pre i)
      (h i (le_refl _) (by simp))]
    exact ih (i + 1) (fun k h1 h2 => h k (by omega) (by simp only [List.length_cons]; omega))

theorem token_shape (pre : Str) (i : Nat) (hpre : IsTokenPrefix pre) :
    ∃ t, placeholder pre i = 'M' :: t ∧ 'M' ∉ t := by
  have hd : 'M' ∉ fmt04d i := fun h => by
    have := fmt04d_isDigit i _ h
    exact absurd this (by decide)
  rcases hpre with rfl | rfl | rfl
  · refine ⟨"DFENCE".toList ++ fmt04d i, rfl, ?_⟩
    simp only [List.mem_append, not_or]
    exact ⟨by decide, hd⟩
  · refine ⟨"DTABLE".toList ++ fmt04d i, rfl, ?_⟩
    simp only [List.mem_append, not_or]
    exact ⟨by decide, hd⟩
  · refine ⟨"DLINK".toList ++ fmt04d i, rfl, ?_⟩
    simp only [List.mem_append, not_or]
    exact ⟨by decide, hd⟩

theorem token_absent_of_no_M (pre : Str) (i : Nat) (s : Str) (hpre : IsTokenPrefix pre)
    (h : 'M' ∉ s) : ¬ placeholder pre i <:+: s := by
  intro hin
  obtain ⟨t, ht, _⟩ := token_shape pre i hpre
  exact h (hin.subset (by rw [ht]; simp))

/-! ## Ten thousand islands and one -/

theorem token_in_token_10000 (k : Nat)
    (h : placeholder linkPrefix k <:+: placeholder linkPrefix 10000) : k = 1000 ∨ k = 10000 := by
  have h1 : placeholder linkPrefix k <+: placeholder linkPrefix 10000 := by
    obtain ⟨t, ht, hM⟩ := token_shape linkPrefix k (Or.inr (Or.inr rfl))
    have h2 : placeholder linkPrefix 10000 = 'M' :: "DLINK10000".toList := by decide
    rw [h2, List.infix_cons_iff] at h
    rcases h with h | h
    · rw [h2]; exact h
    · have hm : 'M' ∈ "DLINK10000".toList := h.subset (by rw [ht]; simp)
      exact absurd hm (by decide)
  have h3 : fmt04d k <+: "10000".toList := by
    have h2 : placeholder linkPrefix 10000 = linkPrefix ++ "10000".toList := by decide
    rw [h2] at h1
    simpa [placeholder] using h1
  have h4 := fmt04d_length_ge k
  have h5 := h3.length_le
  rw [List.prefix_iff_eq_take] at h3
  have h6 : (fmt04d k).length = 4 ∨ (fmt04d k).length = 5 := by
    simp only [String.toList, List.length_cons, List.length_nil] at h5
    omega
  rcases h6 with h6 | h6
  · left
    rw [h6] at h3
    have := congrArg digitsVal h3
    rw [digitsVal_fmt04d] at this
    rw [this]; decide
  · right
    rw [h6] at h3
    have := congrArg digitsVal h3
    rw [digitsVal_fmt04d] at this
    rw [this]; decide

theorem restoreFrom_three (pre : Str) (i : Nat) (r r1 x : Str) (A B : List Str)
    (h1 : restoreFrom pre i r A = r)
    (h2 : restoreFrom pre (i + A.length) r [x] = r1)
    (h3 : restoreFrom pre (i + A.length + 1) r1 B = r1) :
    restoreFrom pre i r (A ++ ([x] ++ B)) = r1 := by
  rw [restoreFrom_append, h1, restoreFrom_append, h2]
  exact h3

/-- C6, the failing input: the token of island 1000 is a prefix of the token of
island 10000, and `restoreLinks`, run over the rendered text `MDLINK10000` with
10001 links, rewrites that token at step 1000: the text restored is the
hyperlink of link 1000 followed by `0`, not the hyperlink of link 10000. -/
theorem token_1000_rewrites_token_10000 :
    placeholder linkPrefix 1000 <+: placeholder linkPrefix 10000 ∧
      restoreLinks sampleEnv "MDLINK10000".toList manyLinks
        = osc8 "b".toList (sampleEnv.linkTextStyle "a".toList) ++ ['0'] ∧
      restoreLinks sampleEnv "MDLINK10000".toList manyLinks
        ≠ osc8 "d".toList (sampleEnv.linkTextStyle "c".toList) := by
  have hmain : restoreLinks sampleEnv "MDLINK10000".toList manyLinks
      = osc8 "b".toList (sampleEnv.linkTextStyle "a".toList) ++ ['0'] := by
    have hsplit : manyLinks
        = List.replicate 1000 { text := "a".toList, url := "b".toList }
          ++ ([{ text := "a".toList, url := "b".toList }]
          ++ (List.replicate 8999 { text := "a".toList, url := "b".toList }
          ++ [{ text := "c".toList, url := "d".toList }])) := by
      have h1 : List.replicate 10000 ({ text := "a".toList, url := "b".toList } : linkRef)
          = List.replicate 1000 { text := "a".toList, url := "b".toList }
            ++ (List.replicate 1 { text := "a".toList, url := "b".toList }
            ++ List.replicate 8999 { text := "a".toList, url := "b".toList }) := by
        rw [← List.replicate_add, ← List.replicate_add]
      rw [manyLinks, h1, List.append_assoc, List.append_assoc]
      rfl
    rw [restoreLinks, hsplit, List.map_append, List.map_append]
    apply restoreFrom_three
    · apply restoreFrom_of_absent
      intro k _ h2 hin
      have h3 : "MDLINK10000".toList = placeholder linkPrefix 10000 := by decide
      rw [h3] at hin
      simp only [List.length_map, List.length_replicate] at h2
      rcases token_in_token_10000 k hin with h | h <;> omega
    · have h3 : "MDLINK10000".toList = placeholder linkPrefix 1000 ++ ['0'] := by decide
      have h4 : ¬ placeholder linkPrefix 1000 <:+: ['0'] := fun hin =>
        absurd (hin.length_le) (by
          have := fmt04d_length_ge 1000
          simp only [placeholder, List.length_append, List.length_cons, List.length_nil]
          omega)
      simp only [List.length_map, List.length_replicate, Nat.zero_add]
      rw [restoreFrom_cons, h3, replaceAll_append_left _ _ _ (placeholder_ne_nil _ _),
        replaceAll_of_absent _ _ _ (placeholder_ne_nil _ _) h4]
      rfl
    · exact restoreFrom_of_absent linkPrefix _ _ _ (fun k _ _ =>
        token_absent_of_no_M linkPrefix k _ (Or.inr (Or.inr rfl)) (by decide))
  refine ⟨by decide, hmain, ?_⟩
  rw [hmain]
  decide

/-! ## Replacements that form no token -/

/-- A text that does not hold the first character of the replacement and is a
prefix of the result of a replacement was a prefix before it. -/
theorem prefix_of_prefix_replaceAll (b x : Str) (h : Char) (t : Str) (hb : b ≠ [])
    (hx : x = h :: t) (s : Str) :
    ∀ p : Str, h ∉ p → p <+: replaceAll s b x → p <+: s := by
  refine replaceAll_induction (motive := fun s => ∀ p : Str, h ∉ p →
    p <+: replaceAll s b x → p <+: s) b hb ?_ ?_ ?_ s
  · intro p _ hp
    rw [replaceAll_nil _ _ hb] at hp
    exact hp
  · intro s _ p hh hp
    rw [replaceAll_append_left _ _ _ hb, hx, List.cons_append, List.prefix_cons_iff] at hp
    rcases hp with rfl | ⟨p', rfl, _⟩
    · exact List.nil_prefix
    · exact absurd (by simp) hh
  · intro c s hmiss ih p hh hp
    rw [replaceAll_cons _ _ _ _ hb hmiss, List.prefix_cons_iff] at hp
    rcases hp with rfl | ⟨p', rfl, hp'⟩
    · exact List.nil_prefix
    · have := ih p' (fun hm => hh (by simp [hm])) hp'
      exact List.cons_prefix_cons.mpr ⟨rfl, this⟩

theorem infix_of_infix_append (a y w : Str) (hy : NoStart a y w) (h : a <:+: y ++ w) :
    a <:+: w := by
  induction y with
  | nil => simpa using h
  | cons c y ih =>
    rw [List.cons_append, List.infix_cons_iff] at h
    rcases h with h | h
    · exact absurd h (hy (c :: y) (by simp) (List.suffix_refl _))
    · exact ih (fun u hu hs => hy u hu (hs.trans (List.suffix_cons c y))) h

/-- A replacement by a clean text brings in no occurrence of `a`. -/
theorem infix_of_infix_replaceAll (a b y : Str) (hb : b ≠ []) (hy : Clean a y)
    (s : Str) : a <:+: replaceAll s b y → a <:+: s := by
  obtain ⟨⟨h, t, hyt, hh⟩, hns⟩ := hy
  refine replaceAll_induction (motive := fun s => a <:+: replaceAll s b y → a <:+: s)
    b hb ?_ ?_ ?_ s
  · intro hin
    rw [replaceAll_nil _ _ hb] at hin
    exact hin
  · intro s ih hin
    rw [replaceAll_append_left _ _ _ hb] at hin
    exact (ih (infix_of_infix_append a y _ (hns _) hin)).trans (List.suffix_append b s).isInfix
  · intro c s hmiss ih hin
    have hin2 := hin
    rw [replaceAll_cons _ _ _ _ hb hmiss, List.infix_cons_iff] at hin2
    rcases hin2 with h1 | h1
    · rw [← replaceAll_cons _ _ _ _ hb hmiss] at h1
      exact (prefix_of_prefix_replaceAll b y h t hb hyt (c :: s) a hh h1).isInfix
    · exact (ih h1).trans (List.suffix_cons c s).isInfix

/-- After the replacement of `a` by a clean text, `a` does not occur. -/
theorem absent_replaceAll_self (a x : Str) (ha : a ≠ []) (hx : Clean a x) (s : Str) :
    ¬ a <:+: replaceAll s a x := by
  obtain ⟨⟨h, t, hxt, hh⟩, hns⟩ := hx
  refine replaceAll_induction (motive := fun s => ¬ a <:+: replaceAll s a x) a ha ?_ ?_ ?_ s
  · show ¬ a <:+: replaceAll [] a x
    rw [replaceAll_nil _ _ ha]
    exact fun hin => ha (List.eq_nil_of_infix_nil hin)
  · intro s ih hin
    rw [replaceAll_append_left _ _ _ ha] at hin
    exact ih (infix_of_infix_append a x _ (hns _) hin)
  · intro c s hmiss ih hin
    have hin2 := hin
    rw [replaceAll_cons _ _ _ _ ha hmiss, List.infix_cons_iff] at hin2
    rcases hin2 with h1 | h1
    · rw [← replaceAll_cons _ _ _ _ ha hmiss] at h1
      exact hmiss (prefix_of_prefix_replaceAll a x h t ha hxt (c :: s) a hh h1)
    · exact ih h1

theorem absent_restoreFrom (a pre : Str) (bs : List Str)
    (hbs : ∀ b ∈ bs, Clean a b) (i : Nat) (r : Str) (hr : ¬ a <:+: r) :
    ¬ a <:+: restoreFrom pre i r bs := by
  induction bs generalizing i r with
  | nil => exact hr
  | cons b bs ih =>
    rw [restoreFrom_cons]
    apply ih (fun x hx => hbs x (by simp [hx]))
    exact fun hin => hr (infix_of_infix_replaceAll a _ b (placeholder_ne_nil pre i)
      (hbs b (by simp)) r hin)

theorem tokens_absent_restoreFrom (pre : Str) (bs : List Str)
    (hbs : ∀ b ∈ bs, ∀ k, Clean (placeholder pre k) b) (i : Nat) (r : Str) :
    ∀ k, i ≤ k → k < i + bs.length → ¬ placeholder pre k <:+: restoreFrom pre i r bs := by
  induction bs generalizing i r with
  | nil => intro k h1 h2; simp at h2; omega
  | cons b bs ih =>
    intro k h1 h2
    rw [restoreFrom_cons]
    by_cases hk : k = i
    · subst hk
      exact absent_restoreFrom _ pre bs
        (fun x hx => hbs x (by simp [hx]) k) (k + 1) _
        (absent_replaceAll_self _ b (placeholder_ne_nil pre k) (hbs b (by simp) k) r)
    · exact ih (fun x hx => hbs x (by simp [hx])) (i + 1) _ k (by omega)
        (by simp only [List.length_cons] at h2; omega)

/-- Restoring a second time changes nothing when the restored texts are
clean. -/
theorem restoreFrom_idem (pre : Str) (bs : List Str)
    (hbs : ∀ b ∈ bs, ∀ k, Clean (placeholder pre k) b) (i : Nat) (r : Str) :
    restoreFrom pre i (restoreFrom pre i r bs) bs = restoreFrom pre i r bs :=
  restoreFrom_of_absent pre i _ bs (tokens_absent_restoreFrom pre bs hbs i r)

theorem not_mem_placeholder (pre : Str) (i : Nat) (c : Char) (h : tokenChar pre c = false) :
    c ∉ placeholder pre i := by
  intro hc
  simp only [tokenChar, Bool.or_eq_false_iff] at h
  rcases mem_placeholder pre i c hc with h1 | h1
  · have : pre.contains c = true := by simpa using h1
    rw [this] at h
    exact absurd h.2 (by simp)
  · rw [h1] at h
    exact absurd h.1 (by simp)

/-- A safe text is clean for every token of the prefix. -/
theorem clean_of_safeFor (pre x : Str) (i : Nat) (hx : SafeFor pre x) :
    Clean (placeholder pre i) x := by
  obtain ⟨h1, h2, h3⟩ := hx
  cases x with
  | nil => exact absurd h1 (by simp [tokenChar])
  | cons h t =>
    refine ⟨⟨h, t, rfl, not_mem_placeholder pre i h (by simpa using h1)⟩, ?_⟩
    intro w u hu hs hp
    by_cases hlen : (placeholder pre i).length ≤ u.length
    · have h4 : placeholder pre i <+: u :=
        List.prefix_of_prefix_length_le hp (List.prefix_append u w) hlen
      exact h3 ((prefix_placeholder pre i).isInfix.trans (h4.isInfix.trans hs.isInfix))
    · have h4 : u <+: placeholder pre i :=
        List.prefix_of_prefix_length_le (List.prefix_append u w) hp (by omega)
      rcases List.eq_nil_or_concat u with h5 | ⟨u', l, rfl⟩
      · exact hu h5
      · have h6 : l ∈ placeholder pre i := h4.subset (by simp)
        have h7 : (h :: t).getLastD '0' = l := by
          obtain ⟨v, hv⟩ := hs
          rw [← hv]
          simp [List.getLastD_eq_getLast?]
        rw [h7] at h2
        exact not_mem_placeholder pre i l h2 h6

/-- C8, counterexample: a table whose rendering shows the text `MDTABLE0000`:
the second `restoreTables` replaces that text again. -/
theorem restore_twice_differs :
    restoreTables (restoreTables "MDTABLE0000".toList ["\n  MDTABLE0000\n\n".toList])
        ["\n  MDTABLE0000\n\n".toList]
      ≠ restoreTables "MDTABLE0000".toList ["\n  MDTABLE0000\n\n".toList] := by
  decide

/-- C8, amended: restoring twice equals restoring once, for `restoreTables`,
`restoreLinks` and `restoreCodeBlocks`, when every restored text is safe for the
tokens of its kind: not empty, with a first and a last character that occur in
no such token, and without the prefix of the kind. -/
theorem restore_idempotent (env : Env) (r : Str) (links : List linkRef)
    (tables blocks : List Str)
    (hl : ∀ l ∈ links, SafeFor linkPrefix (osc8 l.url (env.linkTextStyle l.text)))
    (ht : ∀ t ∈ tables, SafeFor tablePrefix t)
    (hb : ∀ b ∈ blocks, SafeFor fencePrefix b) :
    restoreTables (restoreTables r tables) tables = restoreTables r tables ∧
      restoreLinks env (restoreLinks env r links) links = restoreLinks env r links ∧
      restoreCodeBlocks (restoreCodeBlocks r blocks) blocks = restoreCodeBlocks r blocks := by
  refine ⟨?_, ?_, ?_⟩
  · exact restoreFrom_idem tablePrefix tables
      (fun t h k => clean_of_safeFor tablePrefix t k (ht t h)) 0 r
  · refine restoreFrom_idem linkPrefix _ (fun t h k => ?_) 0 r
    simp only [List.mem_map] at h
    obtain ⟨l, hl2, rfl⟩ := h
    exact clean_of_safeFor linkPrefix _ k (hl l hl2)
  · exact restoreFrom_idem fencePrefix blocks
      (fun t h k => clean_of_safeFor fencePrefix t k (hb t h)) 0 r

theorem restore_idempotent_witness :
    (∀ l ∈ [({ text := "click".toList, url := "http://x".toList } : linkRef)],
        SafeFor linkPrefix (osc8 l.url (sampleEnv.linkTextStyle l.text))) ∧
      (∀ t ∈ ["\n  a | b\n\n".toList], SafeFor tablePrefix t) ∧
      (∀ b ∈ ["\n x := 1\n\n".toList], SafeFor fencePrefix b) ∧
      restoreTables (restoreTables "MDLINK0000 MDTABLE0000 MDFENCE0000".toList
          ["\n  a | b\n\n".toList]) ["\n  a | b\n\n".toList]
        = restoreTables "MDLINK0000 MDTABLE0000 MDFENCE0000".toList ["\n  a | b\n\n".toList] :=
  ⟨by decide, by decide, by decide,
    (restore_idempotent sampleEnv "MDLINK0000 MDTABLE0000 MDFENCE0000".toList
      [{ text := "click".toList, url := "http://x".toList }] ["\n  a | b\n\n".toList]
      ["\n x := 1\n\n".toList] (by decide) (by decide) (by decide)).1⟩

/-! ## Replacements of two tokens commute -/

/-- The replacements of two tokens that cannot overlap, by texts that are clean
for both, commute. -/
theorem replaceAll_comm (a b x y : Str) (ha : a ≠ []) (hb : b ≠ [])
    (hxb : Clean b x) (hya : Clean a y)
    (hab : ∀ w, NoStart b a w) (hba : ∀ w, NoStart a b w) (s : Str) :
    replaceAll (replaceAll s a x) b y = replaceAll (replaceAll s b y) a x := by
  obtain ⟨⟨hx, tx, hxt, hhx⟩, hnx⟩ := hxb
  obtain ⟨⟨hy, ty, hyt, hhy⟩, hny⟩ := hya
  generalize hn : s.length = n
  induction n using Nat.strong_induction_on generalizing s with
  | _ n ih =>
    cases s with
    | nil => rw [replaceAll_nil _ _ ha, replaceAll_nil _ _ hb, replaceAll_nil _ _ ha]
    | cons c cs =>
      by_cases h1 : a <+: c :: cs
      · obtain ⟨s', hs'⟩ := h1
        have hlen : s'.length < n := by
          have h2 := congrArg List.length hs'
          have h3 : 0 < a.length := List.length_pos.mpr ha
          simp only [List.length_append] at h2
          omega
        rw [← hs', replaceAll_append_left _ _ _ ha, replaceAll_skip b y x _ hb (hnx _),
          replaceAll_skip b y a s' hb (hab s'), replaceAll_append_left _ _ _ ha,
          ih s'.length hlen s' rfl]
      · by_cases h2 : b <+: c :: cs
        · obtain ⟨s', hs'⟩ := h2
          have hlen : s'.length < n := by
            have h2 := congrArg List.length hs'
            have h3 : 0 < b.length := List.length_pos.mpr hb
            simp only [List.length_append] at h2
            omega
          rw [← hs', replaceAll_append_left _ _ _ hb, replaceAll_skip a x y _ ha (hny _),
            replaceAll_skip a x b s' ha (hba s'), replaceAll_append_left _ _ _ hb,
            ih s'.length hlen s' rfl]
        · have h3 : ¬ b <+: c :: replaceAll cs a x := by
            rw [← replaceAll_cons _ _ _ _ ha h1]
            exact fun hp => h2 (prefix_of_prefix_replaceAll a x hx tx ha hxt _ b hhx hp)
          have h4 : ¬ a <+: c :: replaceAll cs b y := by
            rw [← replaceAll_cons _ _ _ _ hb h2]
            exact fun hp => h1 (prefix_of_prefix_replaceAll b y hy ty hb hyt _ a hhy hp)
          rw [replaceAll_cons _ _ _ _ ha h1, replaceAll_cons _ _ _ _ hb h3,
            replaceAll_cons _ _ _ _ hb h2, replaceAll_cons _ _ _ _ ha h4,
            ih cs.length (by simp only [List.length_cons] at hn; omega) cs rfl]

theorem tokenPrefix_take (pa pb : Str) (ha : IsTokenPrefix pa) (hb : IsTokenPrefix pb)
    (hne : pa ≠ pb) : pa.take 3 ≠ pb.take 3 ∧ 3 ≤ pa.length ∧ 3 ≤ pb.length := by
  rcases ha with rfl | rfl | rfl <;> rcases hb with rfl | rfl | rfl <;>
    first
      | exact absurd rfl hne
      | decide

/-- No token of one kind starts inside a token of another kind. -/
theorem noStart_token (pa pb : Str) (i j : Nat) (ha : IsTokenPrefix pa) (hb : IsTokenPrefix pb)
    (hne : pa ≠ pb) (w : Str) : NoStart (placeholder pb j) (placeholder pa i) w := by
  obtain ⟨ta, hta, hMa⟩ := token_shape pa i ha
  obtain ⟨tb, htb, _⟩ := token_shape pb j hb
  intro u hu hs hp
  rw [hta, List.suffix_cons_iff] at hs
  rcases hs with rfl | hs
  · rw [← hta] at hp
    obtain ⟨h3, hla, hlb⟩ := tokenPrefix_take pa pb ha hb hne
    have h1 : pb.take 3 <+: pa ++ (fmt04d i ++ w) := by
      have : pb.take 3 <+: placeholder pb j :=
        (List.take_prefix 3 pb).trans (prefix_placeholder pb j)
      have h2 := this.trans hp
      rwa [placeholder, List.append_assoc] at h2
    have h2 : pa.take 3 <+: pa ++ (fmt04d i ++ w) :=
      (List.take_prefix 3 pa).trans (List.prefix_append pa _)
    have h4 : (pb.take 3).length = (pa.take 3).length := by
      simp only [List.length_take]
      omega
    have h5 : pb.take 3 <+: pa.take 3 := List.prefix_of_prefix_length_le h1 h2 (le_of_eq h4)
    exact h3 (h5.eq_of_length h4).symm
  · cases u with
    | nil => exact hu rfl
    | cons c u' =>
      rw [htb, List.cons_append, List.cons_prefix_cons] at hp
      exact hMa (hp.1 ▸ hs.subset (by simp))

theorem replaceAll_restoreFrom_comm (pre b y : Str) (hb : b ≠ []) (bs : List Str)
    (hbs : ∀ x ∈ bs, Clean b x) (hy : ∀ k, Clean (placeholder pre k) y)
    (h1 : ∀ k w, NoStart b (placeholder pre k) w) (h2 : ∀ k w, NoStart (placeholder pre k) b w)
    (i : Nat) (r : Str) :
    replaceAll (restoreFrom pre i r bs) b y = restoreFrom pre i (replaceAll r b y) bs := by
  induction bs generalizing i r with
  | nil => rfl
  | cons x bs ih =>
    rw [restoreFrom_cons, restoreFrom_cons, ih (fun z hz => hbs z (by simp [hz])),
      replaceAll_comm (placeholder pre i) b x y (placeholder_ne_nil pre i) hb
        (hbs x (by simp)) (hy i) (h1 i) (h2 i)]

/-- Restoring the islands of two kinds commutes when the restored texts are
clean for the tokens of the other kind. -/
theorem restoreFrom_comm (p q : Str) (hp : IsTokenPrefix p) (hq : IsTokenPrefix q) (hne : p ≠ q)
    (bs cs : List Str) (hbs : ∀ x ∈ bs, ∀ k, Clean (placeholder q k) x)
    (hcs : ∀ y ∈ cs, ∀ k, Clean (placeholder p k) y) (i j : Nat) (r : Str) :
    restoreFrom p i (restoreFrom q j r cs) bs = restoreFrom q j (restoreFrom p i r bs) cs := by
  induction cs generalizing j r with
  | nil => rfl
  | cons y cs ih =>
    rw [restoreFrom_cons, restoreFrom_cons, ih (fun z hz => hcs z (by simp [hz])),
      replaceAll_restoreFrom_comm p (placeholder q j) y (placeholder_ne_nil q j) bs
        (fun x hx => hbs x hx j) (hcs y (by simp))
        (fun k w => noStart_token p q k j hp hq hne w)
        (fun k w => noStart_token q p j k hq hp (Ne.symm hne) w)]

/-- C7, counterexample: a code block whose panel shows the text `MDTABLE0000`,
and one table: restoring the tables before the code blocks leaves that text,
restoring them after the code blocks replaces it by the table. -/
theorem restore_order_matters :
    restoreCodeBlocks (restoreTables (restoreLinks sampleEnv "MDFENCE0000".toList [])
        ["\n  a\n\n".toList]) ["\nMDTABLE0000\n\n".toList]
      ≠ restoreTables (restoreCodeBlocks (restoreLinks sampleEnv "MDFENCE0000".toList [])
        ["\nMDTABLE0000\n\n".toList]) ["\n  a\n\n".toList] := by
  decide

/-- C7, amended: when every restored text (hyperlink escape, table, code
block) is safe for the three kinds of token (not empty, with a first and a last
character that occur in no token, and without any of the three prefixes), the
six orders of `restoreLinks`, `restoreTables` and `restoreCodeBlocks` give the
same text. -/
theorem restore_order_independent (env : Env) (r : Str) (links : List linkRef)
    (tables blocks : List Str)
    (hl : ∀ l ∈ links, SafeIsland (osc8 l.url (env.linkTextStyle l.text)))
    (ht : ∀ t ∈ tables, SafeIsland t)
    (hb : ∀ b ∈ blocks, SafeIsland b) :
    restoreCodeBlocks (restoreTables (restoreLinks env r links) tables) blocks
        = restoreCodeBlocks (restoreLinks env (restoreTables r tables) links) blocks ∧
      restoreCodeBlocks (restoreTables (restoreLinks env r links) tables) blocks
        = restoreTables (restoreCodeBlocks (restoreLinks env r links) blocks) tables ∧
      restoreCodeBlocks (restoreTables (restoreLinks env r links) tables) blocks
        = restoreTables (restoreLinks env (restoreCodeBlocks r blocks) links) tables ∧
      restoreCodeBlocks (restoreTables (restoreLinks env r links) tables) blocks
        = restoreLinks env (restoreCodeBlocks (restoreTables r tables) blocks) links ∧
      restoreCodeBlocks (restoreTables (restoreLinks env r links) tables) blocks
        = restoreLinks env (restoreTables (restoreCodeBlocks r blocks) tables) links := by
  have hF : IsTokenPrefix fencePrefix := Or.inl rfl
  have hT : IsTokenPrefix tablePrefix := Or.inr (Or.inl rfl)
  have hL : IsTokenPrefix linkPrefix := Or.inr (Or.inr rfl)
  have hl2 : ∀ x ∈ links.map (fun l => osc8 l.url (env.linkTextStyle l.text)),
      SafeIsland x := by
    intro x hx
    simp only [List.mem_map] at hx
    obtain ⟨l, hl3, rfl⟩ := hx
    exact hl l hl3
  have hTL : ∀ s, restoreTables (restoreLinks env s links) tables
      = restoreLinks env (restoreTables s tables) links := fun s =>
    restoreFrom_comm tablePrefix linkPrefix hT hL (by decide) tables _
      (fun x hx k => clean_of_safeFor _ x k (ht x hx).2.2)
      (fun y hy k => clean_of_safeFor _ y k (hl2 y hy).2.1) 0 0 s
  have hCL : ∀ s, restoreCodeBlocks (restoreLinks env s links) blocks
      = restoreLinks env (restoreCodeBlocks s blocks) links := fun s =>
    restoreFrom_comm fencePrefix linkPrefix hF hL (by decide) blocks _
      (fun x hx k => clean_of_safeFor _ x k (hb x hx).2.2)
      (fun y hy k => clean_of_safeFor _ y k (hl2 y hy).1) 0 0 s
  have hCT : ∀ s, restoreCodeBlocks (restoreTables s tables) blocks
      = restoreTables (restoreCodeBlocks s blocks) tables := fun s =>
    restoreFrom_comm fencePrefix tablePrefix hF hT (by decide) blocks tables
      (fun x hx k => clean_of_safeFor _ x k (hb x hx).2.1)
      (fun y hy k => clean_of_safeFor _ y k (ht y hy).1) 0 0 s
  refine ⟨?_, ?_, ?_, ?_, ?_⟩
  · rw [hTL]
  · rw [hCT]
  · rw [hCT, hCL]
  · rw [hTL, hCL]
  · rw [hCT, hCL, hTL]

theorem restore_order_independent_witness :
    (∀ l ∈ [({ text := "click".toList, url := "http://x".toList } : linkRef)],
        SafeIsland (osc8 l.url (sampleEnv.linkTextStyle l.text))) ∧
      (∀ t ∈ ["\n  a | b\n\n".toList], SafeIsland t) ∧
      (∀ b ∈ ["\n x := 1\n\n".toList], SafeIsland b) ∧
      restoreCodeBlocks (restoreTables (restoreLinks sampleEnv
          "MDLINK0000 MDTABLE0000 MDFENCE0000".toList
          [{ text := "click".toList, url := "http://x".toList }])
          ["\n  a | b\n\n".toList]) ["\n x := 1\n\n".toList]
        = restoreLinks sampleEnv (restoreTables (restoreCodeBlocks
          "MDLINK0000 MDTABLE0000 MDFENCE0000".toList ["\n x := 1\n\n".toList])
          ["\n  a | b\n\n".toList]) [{ text := "click".toList, url := "http://x".toList }] :=
  ⟨by decide, by decide, by decide,
    (restore_order_independent sampleEnv "MDLINK0000 MDTABLE0000 MDFENCE0000".toList
      [{ text := "click".toList, url := "http://x".toList }] ["\n  a | b\n\n".toList]
      ["\n x := 1\n\n".toList] (by decide) (by decide) (by decide)).2.2.2.2⟩

/-- Tokens of two kinds, or of one kind with two ordinals below 10000, are not
substrings of one another. -/
theorem token_not_in_token (pa pb : Str) (i j : Nat) (ha : IsTokenPrefix pa)
    (hb : IsTokenPrefix pb) (h : pa ≠ pb ∨ (i ≠ j ∧ i < 10000 ∧ j < 10000)) :
    ¬ placeholder pa i <:+: placeholder pb j := by
  intro hin
  by_cases hne : pa = pb
  · subst hne
    rcases h with h | ⟨hij, hi, hj⟩
    · exact h rfl
    · have hlen : (placeholder pa i).length = (placeholder pa j).length := by
        simp [placeholder, fmt04d_length i hi, fmt04d_length j hj]
      have := hin.eq_of_length hlen
      simp only [placeholder, List.append_cancel_left_eq] at this
      exact hij (fmt04d_injective i j this)
  · obtain ⟨t, ht, _⟩ := token_shape pa i ha
    obtain ⟨u, hu, hM⟩ := token_shape pb j hb
    rw [hu, List.infix_cons_iff] at hin
    rcases hin with h1 | h1
    · rw [← hu] at h1
      have := noStart_token pb pa j i hb ha (Ne.symm hne) [] (placeholder pb j)
        (placeholder_ne_nil pb j) (List.suffix_refl _)
      rw [List.append_nil] at this
      exact this h1
    · exact hM (h1.subset (by rw [ht]; simp))

/-! ## Closed blocks, one after the other -/

theorem take_drop_block (opn cls : Str) (body : List Str) :
    ((([opn] ++ body) ++ [cls]).take ((([opn] ++ body) ++ [cls]).length - 1)).drop 1 = body := by
  have h : (([opn] ++ body) ++ [cls]).length - 1 = ([opn] ++ body).length := by simp
  rw [h, List.take_left']
  · simp
  · rfl

theorem foldl_fenceStep_block (env : Env) (width : Int) (st : FenceState) (opn cls : Str)
    (body : List Str) (hin : st.inFence = false) (hf : st.fence = [])
    (hwf : (Seg.block opn body cls).wellFormed = true) :
    (opn :: body ++ [cls]).foldl (fenceStep env width) st
      = { result := st.result ++ [placeholder fencePrefix st.blocks.length]
          fence := []
          inFence := false
          lang := []
          blocks := st.blocks ++
            [(renderCodeBlock env (langOf opn) (joinLines body) width).getD
              (fallbackText opn body cls)] } := by
  simp only [Seg.wellFormed, Bool.and_eq_true, List.all_eq_true, Bool.not_eq_true'] at hwf
  obtain ⟨⟨ho, hb⟩, hc⟩ := hwf
  rw [List.cons_append, List.foldl_cons, List.foldl_append, List.foldl_cons, List.foldl_nil,
    fenceStep_open env width st opn hin ho, foldl_fenceStep_body env width body _ rfl hb,
    fenceStep_close env width _ cls rfl hc]
  simp only [hf, List.nil_append, take_drop_block]
  rfl

theorem foldl_fenceStep_segs (env : Env) (width : Int) (segs : List Seg) (st : FenceState)
    (hin : st.inFence = false) (hf : st.fence = []) (hl : st.lang = [])
    (hwf : ∀ s ∈ segs, s.wellFormed = true) :
    (segLines segs).foldl (fenceStep env width) st
      = { result := st.result ++ tokenLines st.blocks.length segs
          fence := []
          inFence := false
          lang := []
          blocks := st.blocks ++ storedBlocks env width segs } := by
  induction segs generalizing st with
  | nil =>
    cases st
    simp only [] at hin hf hl
    simp [segLines, tokenLines, storedBlocks, hin, hf, hl]
  | cons s segs ih =>
    have hs := hwf s (by simp)
    have hrest : ∀ x ∈ segs, x.wellFormed = true := fun x hx => hwf x (by simp [hx])
    cases s with
    | prose l =>
      simp only [Seg.wellFormed, Bool.not_eq_true'] at hs
      have hsplit : segLines (Seg.prose l :: segs) = l :: segLines segs := by
        simp [segLines, Seg.lines]
      rw [hsplit, List.foldl_cons, fenceStep_prose env width st l hin hs]
      have := ih { st with result := st.result ++ [l] } hin hf hl hrest
      rw [this]
      simp [tokenLines, storedBlocks]
    | block opn body cls =>
      have hsplit : segLines (Seg.block opn body cls :: segs)
          = (opn :: body ++ [cls]) ++ segLines segs := by
        simp [segLines, Seg.lines]
      rw [hsplit, List.foldl_append, foldl_fenceStep_block env width st opn cls body hin hf hs]
      have := ih
        { result := st.result ++ [placeholder fencePrefix st.blocks.length]
          fence := []
          inFence := false
          lang := []
          blocks := st.blocks ++
            [(renderCodeBlock env (langOf opn) (joinLines body) width).getD
              (fallbackText opn body cls)] } rfl rfl rfl hrest
      rw [this]
      simp [tokenLines, storedBlocks]

/-- What `extractCodeBlocks` returns for a document of closed blocks and prose
lines, followed by lines with at most one fence line. -/
theorem extractCodeBlocks_segs (env : Env) (width : Int) (D : Str) (segs : List Seg)
    (tail : List Str) (hD : splitLines D = segLines segs ++ tail)
    (hwf : ∀ s ∈ segs, s.wellFormed = true)
    (htail : (tail.filter isFenceLine).length ≤ 1) :
    extractCodeBlocks env D width
      = (joinLines (tokenLines 0 segs ++ tail), storedBlocks env width segs) := by
  unfold extractCodeBlocks
  simp only [hD, List.foldl_append]
  rw [foldl_fenceStep_segs env width segs _ rfl rfl rfl hwf]
  have := foldl_fenceStep_atMostOne env width tail
    { result := [] ++ tokenLines 0 segs
      fence := []
      inFence := false
      lang := []
      blocks := [] ++ storedBlocks env width segs } rfl rfl htail
  simp only [List.nil_append, List.length_nil] at this ⊢
  rw [this.1, this.2]

theorem infix_joinLines_of_mem (l : Str) (ls : List Str) (h : l ∈ ls) : l <:+: joinLines ls := by
  induction ls with
  | nil => exact absurd h (by simp)
  | cons x ls ih =>
    rw [joinLines_cons]
    rcases List.mem_cons.mp h with rfl | h
    · exact (List.prefix_append _ _).isInfix
    · have hne : ls ≠ [] := List.ne_nil_of_mem h
      rw [if_neg hne]
      exact (ih h).trans ((List.suffix_cons nl _).trans (List.suffix_append x _)).isInfix

theorem infix_of_mem_splitLines (l D : Str) (h : l ∈ splitLines D) : l <:+: D := by
  have := infix_joinLines_of_mem l _ h
  rwa [joinLines_splitLines] at this

theorem nl_not_mem_token (i : Nat) : nl ∉ placeholder fencePrefix i :=
  not_mem_placeholder fencePrefix i nl (by decide)

theorem mem_tokenLines (segs : List Seg) (j : Nat) (l : Str) (h : l ∈ tokenLines j segs) :
    (∃ s ∈ segs, l ∈ s.lines) ∨
      ∃ k, j < k + 1 ∧ k < j + blockCount segs ∧ l = placeholder fencePrefix k := by
  induction segs generalizing j with
  | nil => simp [tokenLines] at h
  | cons s segs ih =>
    cases s with
    | prose x =>
      simp only [tokenLines, List.mem_cons] at h
      rcases h with rfl | h
      · exact Or.inl ⟨Seg.prose l, by simp, by simp [Seg.lines]⟩
      · rcases ih j h with ⟨s, hs, hl⟩ | ⟨k, h1, h2, h3⟩
        · exact Or.inl ⟨s, by simp [hs], hl⟩
        · exact Or.inr ⟨k, h1, by simpa [blockCount] using h2, h3⟩
    | block opn body cls =>
      simp only [tokenLines, List.mem_cons] at h
      rcases h with rfl | h
      · exact Or.inr ⟨j, by omega, by simp [blockCount], rfl⟩
      · rcases ih (j + 1) h with ⟨s, hs, hl⟩ | ⟨k, h1, h2, h3⟩
        · exact Or.inl ⟨s, by simp [hs], hl⟩
        · exact Or.inr ⟨k, by omega, by simp only [blockCount]; omega, h3⟩

theorem fallbackText_free (opn cls : Str) (body : List Str)
    (h : ∀ l ∈ (Seg.block opn body cls).lines, ¬ fencePrefix <:+: l) :
    ¬ fencePrefix <:+: fallbackText opn body cls := by
  intro hin
  unfold fallbackText at hin
  rcases infix_append_cons fencePrefix _ [] nl (by decide) hin with h1 | h1
  · obtain ⟨l, hl, hpl⟩ := infix_joinLines fencePrefix _ (by decide) (by decide) h1
    exact h l hl hpl
  · exact absurd (List.eq_nil_of_infix_nil h1) (by decide)

/-- The restoration of the fallback texts, block after block. -/
theorem restoreFrom_segs (env : Env) (width : Int)
    (hfail : ∀ lang code, renderCodeBlock env lang code width = none) (tail : List Str)
    (htail : ∀ l ∈ tail, ¬ fencePrefix <:+: l) (segs : List Seg) :
    ∀ (i : Nat) (A : List Str), (∀ l ∈ A, ¬ fencePrefix <:+: l) →
      (∀ s ∈ segs, ∀ l ∈ s.lines, ¬ fencePrefix <:+: l) → i + blockCount segs ≤ 10000 →
      restoreFrom fencePrefix i (joinLines (A ++ tokenLines i segs ++ tail))
          (storedBlocks env width segs)
        = joinLines (A ++ fallbackLines segs ++ tail) := by
  induction segs with
  | nil => intro i A _ _ _; rfl
  | cons s segs ih =>
    intro i A hA hsegs hcount
    have hrest : ∀ x ∈ segs, ∀ l ∈ x.lines, ¬ fencePrefix <:+: l :=
      fun x hx => hsegs x (by simp [hx])
    cases s with
    | prose x =>
      have hx : ¬ fencePrefix <:+: x := hsegs (Seg.prose x) (by simp) x (by simp [Seg.lines])
      have := ih i (A ++ [x]) (by
        intro l hl
        rcases List.mem_append.mp hl with h | h
        · exact hA l h
        · rw [List.mem_singleton.mp h]; exact hx) hrest (by simpa [blockCount] using hcount)
      simpa [tokenLines, storedBlocks, fallbackLines] using this
    | block opn body cls =>
      have hfree := fallbackText_free opn cls body (hsegs _ (by simp))
      have hcount2 : i + 1 + blockCount segs ≤ 10000 := by
        simp only [blockCount] at hcount; omega
      have hstep : replaceAll
          (joinLines (A ++ [placeholder fencePrefix i] ++ (tokenLines (i + 1) segs ++ tail)))
          (placeholder fencePrefix i) (fallbackText opn body cls)
          = joinLines (A ++ [fallbackText opn body cls] ++ (tokenLines (i + 1) segs ++ tail)) := by
        apply replaceAll_joinLines_single _ _ _ _ (placeholder_ne_nil _ _) (nl_not_mem_token i)
        · exact fun l hl hin => hA l hl ((prefix_placeholder _ i).isInfix.trans hin)
        · intro l hl hin
          rcases List.mem_append.mp hl with h | h
          · rcases mem_tokenLines segs (i + 1) l h with ⟨s, hs, hls⟩ | ⟨k, h1, h2, rfl⟩
            · exact hrest s hs l hls ((prefix_placeholder _ i).isInfix.trans hin)
            · exact token_not_in_token fencePrefix fencePrefix i k (Or.inl rfl) (Or.inl rfl)
                (Or.inr ⟨by omega, by omega, by omega⟩) hin
          · exact htail l h ((prefix_placeholder _ i).isInfix.trans hin)
      have := ih (i + 1) (A ++ [fallbackText opn body cls]) (by
        intro l hl
        rcases List.mem_append.mp hl with h | h
        · exact hA l h
        · rw [List.mem_singleton.mp h]; exact hfree) hrest hcount2
      simp only [tokenLines, storedBlocks, fallbackLines, hfail, Option.getD_none,
        restoreFrom_cons]
      have e1 : A ++ placeholder fencePrefix i :: tokenLines (i + 1) segs ++ tail
          = A ++ [placeholder fencePrefix i] ++ (tokenLines (i + 1) segs ++ tail) := by simp
      have e2 : A ++ fallbackText opn body cls :: fallbackLines segs ++ tail
          = A ++ [fallbackText opn body cls] ++ fallbackLines segs ++ tail := by simp
      rw [e1, hstep, e2, ← this]
      simp

/-- C4, counterexample: the renderer fails on the block of the document made
of a fence, `x` and a fence; the text stored is the three lines joined by
newlines and one more newline, and `restoreCodeBlocks` returns the document
with that newline added, not the document. -/
theorem fallback_appends_newline :
    renderCodeBlock failEnv "go".toList "x".toList 80 = none ∧
      ¬ fencePrefix <:+: "```\nx\n```".toList ∧
      (extractCodeBlocks failEnv "```\nx\n```".toList 80).2 = ["```\nx\n```\n".toList] ∧
      (extractCodeBlocks failEnv "```\nx\n```".toList 80).2
        ≠ [joinLines ["```".toList, "x".toList, "```".toList]] ∧
      restoreCodeBlocks (extractCodeBlocks failEnv "```\nx\n```".toList 80).1
          (extractCodeBlocks failEnv "```\nx\n```".toList 80).2
        ≠ "```\nx\n```".toList := by
  decide

/-- C4, amended: for a document read as prose lines and closed blocks,
followed by lines with at most one fence line, `extractCodeBlocks` leaves one
token line per block and stores, for a block on which the renderer returns an
error, the lines of the block joined by newlines followed by one newline; and
when the renderer fails on every block, the document does not contain the text
`MDFENCE` and there are at most 10000 blocks, `restoreCodeBlocks` returns the
document with one newline added behind every closing fence line. -/
theorem fallback_roundtrip (env : Env) (width : Int) (D : Str) (segs : List Seg)
    (tail : List Str) (hD : splitLines D = segLines segs ++ tail)
    (hwf : ∀ s ∈ segs, s.wellFormed = true)
    (htail : (tail.filter isFenceLine).length ≤ 1) :
    extractCodeBlocks env D width
        = (joinLines (tokenLines 0 segs ++ tail), storedBlocks env width segs) ∧
      ((∀ lang code, renderCodeBlock env lang code width = none) →
        ¬ fencePrefix <:+: D → blockCount segs ≤ 10000 →
        restoreCodeBlocks (extractCodeBlocks env D width).1 (extractCodeBlocks env D width).2
          = joinLines (fallbackLines segs ++ tail)) := by
  have h1 := extractCodeBlocks_segs env width D segs tail hD hwf htail
  refine ⟨h1, fun hfail hfree hcount => ?_⟩
  have hlines : ∀ l ∈ splitLines D, ¬ fencePrefix <:+: l :=
    fun l hl hin => hfree (hin.trans (infix_of_mem_splitLines l D hl))
  rw [hD] at hlines
  have := restoreFrom_segs env width hfail tail
    (fun l hl => hlines l (List.mem_append_right _ hl)) segs 0 [] (by simp)
    (fun s hs l hl => hlines l (List.mem_append_left _ (by
      simp only [segLines, List.mem_flatMap]
      exact ⟨s, hs, hl⟩))) (by omega)
  rw [h1]
  simpa [restoreCodeBlocks] using this

theorem fallback_roundtrip_witness :
    splitLines "a\n```go\nx\n```\nb\n```\ny\n```\n```sh".toList
        = segLines [Seg.prose "a".toList, Seg.block "```go".toList ["x".toList] "```".toList,
            Seg.prose "b".toList, Seg.block "```".toList ["y".toList] "```".toList]
          ++ ["```sh".toList] ∧
      (∀ lang code, renderCodeBlock failEnv lang code 80 = none) ∧
      ¬ fencePrefix <:+: "a\n```go\nx\n```\nb\n```\ny\n```\n```sh".toList ∧
      (extractCodeBlocks failEnv "a\n```go\nx\n```\nb\n```\ny\n```\n```sh".toList 80
        = ("a\nMDFENCE0000\nb\nMDFENCE0001\n```sh".toList,
            ["```go\nx\n```\n".toList, "```\ny\n```\n".toList])) ∧
      restoreCodeBlocks
          (extractCodeBlocks failEnv "a\n```go\nx\n```\nb\n```\ny\n```\n```sh".toList 80).1
          (extractCodeBlocks failEnv "a\n```go\nx\n```\nb\n```\ny\n```\n```sh".toList 80).2
        = "a\n```go\nx\n```\n\nb\n```\ny\n```\n\n```sh".toList :=
  ⟨by decide, fun _ _ => rfl, by decide,
    (fallback_roundtrip failEnv 80 "a\n```go\nx\n```\nb\n```\ny\n```\n```sh".toList
      [Seg.prose "a".toList, Seg.block "```go".toList ["x".toList] "```".toList,
        Seg.prose "b".toList, Seg.block "```".toList ["y".toList] "```".toList]
      ["```sh".toList] (by decide) (by decide) (by decide)).1.trans (by decide),
    ((fallback_roundtrip failEnv 80 "a\n```go\nx\n```\nb\n```\ny\n```\n```sh".toList
      [Seg.prose "a".toList, Seg.block "```go".toList ["x".toList] "```".toList,
        Seg.prose "b".toList, Seg.block "```".toList ["y".toList] "```".toList]
      ["```sh".toList] (by decide) (by decide) (by decide)).2 (fun _ _ => rfl) (by decide)
      (by decide)).trans (by decide)⟩

/-- Every list of lines reads as prose lines and closed blocks, followed by
lines with at most one fence line. -/
theorem exists_segments (ls : List Str) :
    ∃ (segs : List Seg) (tail : List Str), ls = segLines segs ++ tail ∧
      (∀ s ∈ segs, s.wellFormed = true) ∧ (tail.filter isFenceLine).length ≤ 1 := by
  generalize hn : ls.length = n
  induction n using Nat.strong_induction_on generalizing ls with
  | _ n ih =>
    cases ls with
    | nil => exact ⟨[], [], rfl, by simp, by simp⟩
    | cons l rest =>
      simp only [List.length_cons] at hn
      cases hl : isFenceLine l with
      | false =>
        obtain ⟨segs, tail, h1, h2, h3⟩ := ih rest.length (by omega) rest rfl
        refine ⟨Seg.prose l :: segs, tail, ?_, ?_, h3⟩
        · rw [h1]; simp [segLines, Seg.lines]
        · intro s hs
          rcases List.mem_cons.mp hs with rfl | hs
          · simp [Seg.wellFormed, hl]
          · exact h2 s hs
      | true =>
        have hsplit : rest = rest.takeWhile (fun x => !isFenceLine x)
            ++ rest.dropWhile (fun x => !isFenceLine x) := (List.takeWhile_append_dropWhile _ _).symm
        have hbody : ∀ x ∈ rest.takeWhile (fun x => !isFenceLine x), isFenceLine x = false := by
          intro x hx
          simpa using List.mem_takeWhile_imp hx
        have hhead : ∀ c rem, rest.dropWhile (fun x => !isFenceLine x) = c :: rem →
            isFenceLine c = true := by
          intro c rem hrem
          have := List.head_dropWhile_not (fun x => !isFenceLine x) rest
            (by rw [hrem]; simp)
          simpa [hrem] using this
        generalize rest.takeWhile (fun x => !isFenceLine x) = body at hsplit hbody
        generalize rest.dropWhile (fun x => !isFenceLine x) = rem0 at hsplit hhead
        cases rem0 with
        | nil =>
          refine ⟨[], l :: rest, by simp [segLines], by simp, ?_⟩
          rw [List.append_nil] at hsplit
          have : rest.filter isFenceLine = [] := by
            rw [List.filter_eq_nil_iff]
            intro x hx
            rw [hsplit] at hx
            simp [hbody x hx]
          simp [List.filter_cons, hl, this]
        | cons c rem =>
          have hc : isFenceLine c = true := hhead c rem rfl
          have hlen : rem.length < n := by
            have := congrArg List.length hsplit
            simp only [List.length_append, List.length_cons] at this
            omega
          obtain ⟨segs, tail, h1, h2, h3⟩ := ih rem.length hlen rem rfl
          refine ⟨Seg.block l body c :: segs, tail, ?_, ?_, h3⟩
          · rw [hsplit, h1]
            simp [segLines, Seg.lines]
          · intro s hs
            rcases List.mem_cons.mp hs with rfl | hs
            · simp only [Seg.wellFormed, hl, hc, Bool.true_and, Bool.and_true, List.all_eq_true]
              intro x hx
              simp [hbody x hx]
            · exact h2 s hs

/-- The first window-size message followed by key messages only: the offset
stays in range. -/
theorem keys_after_first_size_inRange (content filename : Str) (w ht : Int) (ks : List Str) :
    ((initialModel content filename).run (Msg.windowSize w ht :: ks.map Msg.key)).ready = true ∧
      ((initialModel content filename).run
        (Msg.windowSize w ht :: ks.map Msg.key)).viewport.InRange := by
  have hgen : ∀ (ks : List Str) (m : model), m.ready = true → m.viewport.InRange →
      (m.run (ks.map Msg.key)).ready = true ∧ (m.run (ks.map Msg.key)).viewport.InRange := by
    intro ks
    induction ks with
    | nil => intro m h1 h2; exact ⟨h1, h2⟩
    | cons k ks ih =>
      intro m h1 h2
      simp only [List.map_cons, model.run, List.foldl_cons]
      apply ih
      · simp only [model.Update]
        split_ifs <;> exact h1
      · exact update_key_inRange m k h2
  have h0 := update_first_size_inRange (initialModel content filename) w ht rfl
  simp only [model.run, List.foldl_cons]
  exact hgen ks _ h0.1 h0.2

/-! ## One link -/

theorem takeWhile_run (c : Char) (a b : Str) (ha : c ∉ a) :
    (a ++ c :: b).takeWhile (fun x => x != c) = a ∧
      (a ++ c :: b).dropWhile (fun x => x != c) = c :: b := by
  induction a with
  | nil => simp
  | cons x a ih =>
    have hx : (x != c) = true := by
      simp only [bne_iff_ne, ne_eq]
      exact fun h => ha (by simp [h])
    have := ih (fun h => ha (by simp [h]))
    simp [List.takeWhile_cons, List.dropWhile_cons, hx, this]

theorem matchLink_linkSource (label url w : Str) (hl : label ≠ []) (hl2 : ']' ∉ label)
    (hu : url ≠ []) (hu2 : ')' ∉ url) :
    matchLink (linkSource label url ++ w)
      = some (label, url, (linkSource label url).length) := by
  have h1 := takeWhile_run ']' label ('(' :: url ++ [')'] ++ w) hl2
  have h2 := takeWhile_run ')' url w hu2
  have e1 : linkSource label url ++ w = '[' :: (label ++ ']' :: ('(' :: url ++ [')'] ++ w)) := by
    simp [linkSource]
  have hm : matchDelimited ['['] ']' [']', '('] (linkSource label url ++ w)
      = some (label, 1 + label.length + 2) := by
    rw [e1]
    simp only [matchDelimited, List.isPrefixOf, beq_self_eq_true, Bool.true_and, if_true,
      List.length_cons, List.length_nil, List.drop_succ_cons, List.drop_zero, h1.1, h1.2]
    simp [hl]
  have e2 : (linkSource label url ++ w).drop (1 + label.length + 2) = url ++ ')' :: w := by
    rw [e1]
    have : 1 + label.length + 2 = (label.length + 2) + 1 := by omega
    rw [this, List.drop_succ_cons]
    have e3 : label ++ ']' :: ('(' :: url ++ [')'] ++ w) = (label ++ [']', '(']) ++ (url ++ ')' :: w) := by
      simp
    rw [e3, List.drop_left' (by simp)]
  simp only [matchLink, hm, e2, h2.1, h2.2]
  simp [hu, linkSource]
  omega

theorem matchLink_of_head_ne (c : Char) (cs : Str) (h : c ≠ '[') : matchLink (c :: cs) = none := by
  have : matchDelimited ['['] ']' [']', '('] (c :: cs) = none := by
    simp [matchDelimited, List.isPrefixOf, Ne.symm h]
  simp [matchLink, this]

theorem linksAux_drop (k idx : Nat) (s : Str) :
    linksAux k idx s = linksAux 0 idx (s.drop k) := by
  induction k generalizing s with
  | zero => simp
  | succ k ih =>
    cases s with
    | nil => simp [linksAux]
    | cons c cs => simp [linksAux, ih cs]

theorem linksAux_nil (k idx : Nat) : linksAux k idx [] = ([], []) := by
  cases k <;> simp [linksAux]

theorem linksAux_cons_none (idx : Nat) (c : Char) (cs : Str) (h : matchLink (c :: cs) = none) :
    linksAux 0 idx (c :: cs) = (c :: (linksAux 0 idx cs).1, (linksAux 0 idx cs).2) := by
  rw [linksAux]
  simp [h]

theorem linksAux_cons_some (idx : Nat) (c : Char) (cs label url : Str) (len : Nat)
    (h : matchLink (c :: cs) = some (label, url, len)) :
    linksAux 0 idx (c :: cs)
      = (placeholder linkPrefix idx ++ (linksAux 0 (idx + 1) (cs.drop (len - 1))).1,
          { text := label, url := url } :: (linksAux 0 (idx + 1) (cs.drop (len - 1))).2) := by
  rw [linksAux]
  simp only [h]
  rw [linksAux_drop]

theorem linksAux_plain (idx : Nat) (p rest : Str) (hp : '[' ∉ p) :
    linksAux 0 idx (p ++ rest)
      = (p ++ (linksAux 0 idx rest).1, (linksAux 0 idx rest).2) := by
  induction p with
  | nil => simp
  | cons c p ih =>
    rw [List.cons_append, linksAux_cons_none idx c _
      (matchLink_of_head_ne c _ (fun h => hp (by simp [h]))),
      ih (fun h => hp (by simp [h]))]
    rfl

/-- The link scanner on one link between two texts without `[`. -/
theorem extractLinks_single (p w label url : Str) (hp : '[' ∉ p) (hw : '[' ∉ w)
    (hl : label ≠ []) (hl2 : ']' ∉ label) (hu : url ≠ []) (hu2 : ')' ∉ url) :
    extractLinks (p ++ linkSource label url ++ w)
      = (p ++ placeholder linkPrefix 0 ++ w, [{ text := label, url := url }]) := by
  have hm := matchLink_linkSource label url w hl hl2 hu hu2
  have e1 : linkSource label url ++ w = '[' :: (label ++ ']' :: '(' :: url ++ [')'] ++ w) := by
    simp [linkSource]
  have hlen : (linkSource label url).length - 1 = (label ++ ']' :: '(' :: url ++ [')']).length := by
    simp [linkSource]
  rw [e1] at hm
  have hw2 := linksAux_plain 1 w [] hw
  simp only [List.append_nil, linksAux_nil] at hw2
  rw [extractLinks, List.append_assoc, linksAux_plain 0 p _ hp, e1,
    linksAux_cons_some 0 _ _ label url _ hm, hlen, List.drop_left, hw2]
  simp

/-- No occurrence of a token starts inside a text free of it and runs into the
token that follows the text. -/
theorem noStart_token_self (pre : Str) (i : Nat) (hpre : IsTokenPrefix pre) (p w : Str)
    (hp : ¬ placeholder pre i <:+: p) : NoStart (placeholder pre i) p (placeholder pre i ++ w) := by
  intro u hu hs hpf
  by_cases hlen : (placeholder pre i).length ≤ u.length
  · exact hp ((List.prefix_of_prefix_length_le hpf (List.prefix_append u _) hlen).isInfix.trans
      hs.isInfix)
  · have h1 : u <+: placeholder pre i :=
      List.prefix_of_prefix_length_le (List.prefix_append u _) hpf (by omega)
    obtain ⟨t, ht, hM⟩ := token_shape pre i hpre
    rw [ht] at h1 hpf hlen
    cases u with
    | nil => exact hu rfl
    | cons c u' =>
      rw [List.cons_prefix_cons] at h1
      obtain ⟨rfl, h2⟩ := h1
      rw [List.cons_append, List.cons_prefix_cons, List.cons_append] at hpf
      have h3 : t <+: u' := prefix_append_cons t u' (t ++ w) 'M' hM hpf.2
      have := h3.length_le
      simp only [List.length_cons] at hlen
      omega

/-- One token in a rendered text in which it occurs nowhere else is replaced by
the hyperlink escape of its link. -/
theorem restoreLinks_single (env : Env) (p w : Str) (l : linkRef)
    (hp : ¬ placeholder linkPrefix 0 <:+: p) (hw : ¬ placeholder linkPrefix 0 <:+: w) :
    restoreLinks env (p ++ placeholder linkPrefix 0 ++ w) [l]
      = p ++ osc8 l.url (env.linkTextStyle l.text) ++ w := by
  simp only [restoreLinks, List.map_cons, List.map_nil, restoreFrom_cons]
  rw [replaceAll_single _ _ p w (placeholder_ne_nil _ _)
    (noStart_token_self linkPrefix 0 (Or.inr (Or.inr rfl)) p w hp) hw]
  rfl

/-- C11: the document `[label](url)`, for a non-empty label without `]` and a
non-empty url without `)`, is lifted as the one link `(label, url)` behind the
token `MDLINK0000`, and `restoreLinks` returns one hyperlink escape and nothing
else: `ESC ]8;; url ESC \`, the styled label, `ESC ]8;; ESC \`. -/
theorem single_link_roundtrip (env : Env) (label url : Str)
    (hl : label ≠ []) (hl2 : ']' ∉ label) (hu : url ≠ []) (hu2 : ')' ∉ url) :
    extractLinks (linkSource label url)
        = ("MDLINK0000".toList, [{ text := label, url := url }]) ∧
      restoreLinks env (extractLinks (linkSource label url)).1
          (extractLinks (linkSource label url)).2
        = escChar :: "]8;;".toList ++ url ++ [escChar, '\\'] ++ env.linkTextStyle label
          ++ escChar :: "]8;;".toList ++ [escChar, '\\'] := by
  have h1 := extractLinks_single [] [] label url (by simp) (by simp) hl hl2 hu hu2
  simp only [List.nil_append, List.append_nil] at h1
  have hnil : ¬ placeholder linkPrefix 0 <:+: [] :=
    fun h => placeholder_ne_nil _ _ (List.eq_nil_of_infix_nil h)
  have h2 := restoreLinks_single env [] [] { text := label, url := url } hnil hnil
  simp only [List.nil_append, List.append_nil] at h2
  refine ⟨by rw [h1]; rfl, ?_⟩
  rw [h1, h2]
  rfl

theorem single_link_roundtrip_witness :
    "click".toList ≠ [] ∧ ']' ∉ "click".toList ∧ "http://x".toList ≠ [] ∧
      ')' ∉ "http://x".toList ∧
      linkSource "click".toList "http://x".toList = "[click](http://x)".toList ∧
      extractLinks (linkSource "click".toList "http://x".toList)
        = ("MDLINK0000".toList, [{ text := "click".toList, url := "http://x".toList }]) ∧
      restoreLinks sampleEnv (extractLinks (linkSource "click".toList "http://x".toList)).1
          (extractLinks (linkSource "click".toList "http://x".toList)).2
        = escChar :: "]8;;".toList ++ "http://x".toList ++ [escChar, '\\']
          ++ sampleEnv.linkTextStyle "click".toList
          ++ escChar :: "]8;;".toList ++ [escChar, '\\'] :=
  ⟨by decide, by decide, by decide, by decide, by decide,
    (single_link_roundtrip sampleEnv "click".toList "http://x".toList (by decide) (by decide)
      (by decide) (by decide)).1,
    (single_link_roundtrip sampleEnv "click".toList "http://x".toList (by decide) (by decide)
      (by decide) (by decide)).2⟩

/-! ## The passes of `processInline` -/

theorem replaceMatches_skip (m : Str → Option (Str × Nat)) (k : Nat) (s : Str)
    (h : s.length ≤ k) : replaceMatches m k s = [] := by
  induction s generalizing k with
  | nil => cases k <;> rfl
  | cons c cs ih =>
    cases k with
    | zero => simp at h
    | succ k =>
      rw [replaceMatches]
      exact ih k (by simpa using h)

theorem replaceMatches_of_none (m : Str → Option (Str × Nat)) (s : Str)
    (h : ∀ u, u <:+ s → m u = none) : replaceMatches m 0 s = s := by
  induction s with
  | nil => rfl
  | cons c cs ih =>
    rw [replaceMatches]
    simp only [h (c :: cs) (List.suffix_refl _)]
    rw [ih (fun u hu => h u (hu.trans (List.suffix_cons c cs)))]

theorem matchDelimited_of_not_mem (o c : Char) (opn cls u : Str) (h : o ∉ u) :
    matchDelimited (o :: opn) c cls u = none := by
  cases u with
  | nil => simp [matchDelimited, List.isPrefixOf]
  | cons x xs =>
    have : (o == x) = false := by
      simp only [beq_eq_false_iff_ne, ne_eq]
      exact fun hx => h (by simp [hx])
    simp [matchDelimited, List.isPrefixOf, this]

theorem replaceMatches_delimited_of_not_mem (o c : Char) (opn cls s : Str)
    (f : Str × Nat → Str × Nat) (h : o ∉ s) :
    replaceMatches (fun u => (matchDelimited (o :: opn) c cls u).map f) 0 s = s := by
  apply replaceMatches_of_none
  intro u hu
  rw [matchDelimited_of_not_mem o c opn cls u (fun hm => h (hu.subset hm))]
  rfl

/-- The link pass of `processInline` on the source of one link. -/
theorem linkPass_linkSource (env : Env) (label url : Str)
    (hl : label ≠ []) (hl2 : ']' ∉ label) (hu : url ≠ []) (hu2 : ')' ∉ url) :
    replaceMatches (fun s => (matchLink s).map
        (fun r => (osc8 r.2.1 (env.linkTextStyle r.1), r.2.2))) 0 (linkSource label url)
      = osc8 url (env.linkTextStyle label) := by
  have hm := matchLink_linkSource label url [] hl hl2 hu hu2
  rw [List.append_nil] at hm
  have e1 : linkSource label url = '[' :: (label ++ ']' :: '(' :: url ++ [')']) := rfl
  rw [e1] at hm ⊢
  rw [replaceMatches]
  simp only [hm, Option.map_some']
  rw [replaceMatches_skip _ _ _ (by simp)]
  simp

/-- C12, counterexample: the link `[*a*](u)` with styles that return their
text unchanged: in a table cell the italic pass of `processInline` runs over the
hyperlink escape and rewrites the label to `a`; in prose the label stays
`*a*`. -/
theorem cell_link_differs_from_prose_link :
    processInline plainEnv (linkSource "*a*".toList "u".toList)
        = osc8 "u".toList "a".toList ∧
      restoreLinks plainEnv (extractLinks (linkSource "*a*".toList "u".toList)).1
          (extractLinks (linkSource "*a*".toList "u".toList)).2
        = osc8 "u".toList "*a*".toList ∧
      processInline plainEnv (linkSource "*a*".toList "u".toList)
        ≠ restoreLinks plainEnv (extractLinks (linkSource "*a*".toList "u".toList)).1
          (extractLinks (linkSource "*a*".toList "u".toList)).2 := by
  decide

/-- C12, amended: for a link `[label](url)` in whose hyperlink escape (the url
and the styled label between the escape sequences) none of the bold, italic
and code-span patterns has a match, the text produced inside a table cell
equals the text produced in prose. -/
theorem cell_link_eq_prose_link (env : Env) (label url : Str)
    (hl : label ≠ []) (hl2 : ']' ∉ label) (hu : url ≠ []) (hu2 : ')' ∉ url)
    (hfree : inlineMarkupFree (osc8 url (env.linkTextStyle label)) = true) :
    processInline env (linkSource label url)
      = restoreLinks env (extractLinks (linkSource label url)).1
          (extractLinks (linkSource label url)).2 := by
  have h1 := extractLinks_single [] [] label url (by simp) (by simp) hl hl2 hu hu2
  simp only [List.nil_append, List.append_nil] at h1
  have hnil : ¬ placeholder linkPrefix 0 <:+: [] :=
    fun h => placeholder_ne_nil _ _ (List.eq_nil_of_infix_nil h)
  have h2 := restoreLinks_single env [] [] { text := label, url := url } hnil hnil
  simp only [List.nil_append, List.append_nil] at h2
  rw [h1, h2]
  simp only [processInline]
  simp only [inlineMarkupFree, List.all_eq_true, List.mem_tails, Bool.and_eq_true,
    Option.isNone_iff_eq_none] at hfree
  have hb : replaceMatches (fun s => (matchDelimited ['*', '*'] '*' ['*', '*'] s).map
      (fun r => (env.inlineBoldStyle r.1, r.2))) 0 (osc8 url (env.linkTextStyle label))
      = osc8 url (env.linkTextStyle label) :=
    replaceMatches_of_none _ _ (fun u hu => by rw [(hfree u hu).1.1]; rfl)
  have he : replaceMatches (fun s => (matchDelimited ['*'] '*' ['*'] s).map
      (fun r => (env.inlineEmStyle r.1, r.2))) 0 (osc8 url (env.linkTextStyle label))
      = osc8 url (env.linkTextStyle label) :=
    replaceMatches_of_none _ _ (fun u hu => by rw [(hfree u hu).1.2]; rfl)
  have hc : replaceMatches
      (fun s => (matchDelimited [Char.ofNat 96] (Char.ofNat 96) [Char.ofNat 96] s).map
      (fun r => (env.inlineCodeStyle r.1, r.2))) 0 (osc8 url (env.linkTextStyle label))
      = osc8 url (env.linkTextStyle label) :=
    replaceMatches_of_none _ _ (fun u hu => by rw [(hfree u hu).2]; rfl)
  rw [linkPass_linkSource env label url hl hl2 hu hu2, hb, he, hc]

theorem cell_link_eq_prose_link_witness :
    "click".toList ≠ [] ∧ ']' ∉ "click".toList ∧ "http://x/*".toList ≠ [] ∧
      ')' ∉ "http://x/*".toList ∧
      inlineMarkupFree (osc8 "http://x/*".toList (sampleEnv.linkTextStyle "click".toList))
        = true ∧
      processInline sampleEnv (linkSource "click".toList "http://x/*".toList)
        = restoreLinks sampleEnv
          (extractLinks (linkSource "click".toList "http://x/*".toList)).1
          (extractLinks (linkSource "click".toList "http://x/*".toList)).2 :=
  ⟨by decide, by decide, by decide, by decide, by decide,
    cell_link_eq_prose_link sampleEnv "click".toList "http://x/*".toList (by decide) (by decide)
      (by decide) (by decide) (by decide)⟩

/-- C13, counterexample: the prose link `[**b**](u)`: `restoreLinks` embeds the
style of the raw label `**b**`, not the style of `processInline` of the label,
with plain styles and with the styles of `sampleEnv`. -/
theorem prose_label_not_inline_styled :
    restoreLinks plainEnv (extractLinks (linkSource "**b**".toList "u".toList)).1
          (extractLinks (linkSource "**b**".toList "u".toList)).2
        ≠ osc8 "u".toList (plainEnv.linkTextStyle (processInline plainEnv "**b**".toList)) ∧
      restoreLinks sampleEnv (extractLinks (linkSource "**b**".toList "u".toList)).1
          (extractLinks (linkSource "**b**".toList "u".toList)).2
        ≠ osc8 "u".toList (sampleEnv.linkTextStyle (processInline sampleEnv "**b**".toList)) := by
  decide

/-! ## Every link of a rendered text -/

/-- No token starts inside a text free of it when what follows starts with `M`
or with a character of no token. -/
theorem noStart_before (pre : Str) (i : Nat) (hpre : IsTokenPrefix pre) (p w : Str)
    (hp : ¬ placeholder pre i <:+: p)
    (hw : ∀ c w2, w = c :: w2 → c = 'M' ∨ c ∉ placeholder pre i) :
    NoStart (placeholder pre i) p w := by
  intro u hu hs hpf
  by_cases hlen : (placeholder pre i).length ≤ u.length
  · exact hp ((List.prefix_of_prefix_length_le hpf (List.prefix_append u _) hlen).isInfix.trans
      hs.isInfix)
  · have h1 : u <+: placeholder pre i :=
      List.prefix_of_prefix_length_le (List.prefix_append u _) hpf (by omega)
    obtain ⟨v, hv⟩ := h1
    rw [← hv, List.prefix_append_right_inj] at hpf
    cases v with
    | nil =>
      rw [List.append_nil] at hv
      rw [hv] at hlen
      exact hlen (le_refl _)
    | cons c v2 =>
      obtain ⟨w2, hw2⟩ := hpf
      have hc : c ∈ placeholder pre i := by rw [← hv]; simp
      rcases hw c (v2 ++ w2) (by simpa using hw2.symm) with h | h
      · subst h
        obtain ⟨t, ht, hM⟩ := token_shape pre i hpre
        cases u with
        | nil => exact hu rfl
        | cons x u2 =>
          rw [ht, List.cons_append, List.cons.injEq] at hv
          exact hM (by rw [← hv.2]; simp)
      · exact h hc

/-- No token starts inside another token of the same kind, both of four
digits. -/
theorem noStart_other_token (pre : Str) (i j : Nat) (hpre : IsTokenPrefix pre) (hij : i ≠ j)
    (hi : i < 10000) (hj : j < 10000) (w : Str) :
    NoStart (placeholder pre i) (placeholder pre j) w := by
  obtain ⟨ti, hti, _⟩ := token_shape pre i hpre
  obtain ⟨tj, htj, hMj⟩ := token_shape pre j hpre
  intro u hu hs hp
  rw [htj, List.suffix_cons_iff] at hs
  rcases hs with rfl | hs
  · rw [← htj] at hp
    have hlen : (placeholder pre i).length = (placeholder pre j).length := by
      simp [placeholder, fmt04d_length i hi, fmt04d_length j hj]
    have h1 : placeholder pre i <+: placeholder pre j :=
      List.prefix_of_prefix_length_le hp (List.prefix_append _ w) (le_of_eq hlen)
    have := h1.eq_of_length hlen
    simp only [placeholder, List.append_cancel_left_eq] at this
    exact hij (fmt04d_injective i j this)
  · cases u with
    | nil => exact hu rfl
    | cons c u2 =>
      rw [hti, List.cons_append, List.cons_prefix_cons] at hp
      exact hMj (hp.1 ▸ hs.subset (by simp))

theorem safeFor_osc8 (url styled : Str) (h : ¬ linkPrefix <:+: osc8 url styled) :
    SafeFor linkPrefix (osc8 url styled) := by
  refine ⟨by simp [osc8, tokenChar, escChar, linkPrefix], ?_, h⟩
  have e : osc8 url styled
      = (escChar :: "]8;;".toList ++ url ++ [escChar, '\\'] ++ styled
          ++ escChar :: "]8;;".toList ++ [escChar]) ++ ['\\'] := by
    simp [osc8]
  rw [e, List.getLastD_concat]
  decide

theorem linkPieces_cons (k : Nat) (reps : List Str) (it : Nat × Str) (rest : List (Nat × Str)) :
    linkPieces k reps (it :: rest)
      = (if it.1 < k then reps.getD it.1 [] else placeholder linkPrefix it.1)
          ++ (it.2 ++ linkPieces k reps rest) := by
  simp [linkPieces, List.flatMap_cons]

/-- The pieces start with `M` or with a character of no token. -/
theorem linkPieces_head (k : Nat) (reps : List Str) (items : List (Nat × Str)) (i : Nat)
    (hk : k ≤ reps.length) (hsafe : ∀ b ∈ reps, SafeFor linkPrefix b) :
    ∀ c w2, linkPieces k reps items = c :: w2 → c = 'M' ∨ c ∉ placeholder linkPrefix i := by
  intro c w2 h
  cases items with
  | nil => exact absurd h (by simp [linkPieces])
  | cons it rest =>
    rw [linkPieces_cons] at h
    by_cases hlt : it.1 < k
    · rw [if_pos hlt] at h
      have hmem : reps.getD it.1 [] ∈ reps := by
        rw [List.getD_eq_getElem reps [] (by omega)]
        exact List.getElem_mem _
      obtain ⟨hh, _, _⟩ := hsafe _ hmem
      cases hb : reps.getD it.1 [] with
      | nil => rw [hb] at hh; exact absurd hh (by simp [tokenChar])
      | cons x b2 =>
        rw [hb] at hh h
        rw [List.cons_append, List.cons.injEq] at h
        right
        rw [← h.1]
        exact not_mem_placeholder linkPrefix i x (by simpa using hh)
    · rw [if_neg hlt] at h
      obtain ⟨t, ht, _⟩ := token_shape linkPrefix it.1 (Or.inr (Or.inr rfl))
      rw [ht, List.cons_append, List.cons.injEq] at h
      exact Or.inl h.1.symm

/-- One pass of the restore loop over the pieces: the tokens of index `k`
become the `k`-th restored text, everything else stays. -/
theorem replaceAll_linkPieces (k : Nat) (reps : List Str) (b : Str)
    (hk : k < reps.length) (hb : reps.getD k [] = b) (hn : reps.length ≤ 10000)
    (hsafe : ∀ b ∈ reps, SafeFor linkPrefix b) (items : List (Nat × Str))
    (hit : ∀ it ∈ items, it.1 < reps.length ∧ ¬ linkPrefix <:+: it.2) :
    replaceAll (linkPieces k reps items) (placeholder linkPrefix k) b
      = linkPieces (k + 1) reps items := by
  have hne := placeholder_ne_nil linkPrefix k
  have hpre : IsTokenPrefix linkPrefix := Or.inr (Or.inr rfl)
  induction items with
  | nil => simp [linkPieces, replaceAll_nil _ _ hne]
  | cons it rest ih =>
    have ih2 := ih (fun x hx => hit x (by simp [hx]))
    obtain ⟨hlt, hfree⟩ := hit it (by simp)
    have htext : replaceAll (it.2 ++ linkPieces k reps rest) (placeholder linkPrefix k) b
        = it.2 ++ linkPieces (k + 1) reps rest := by
      rw [replaceAll_skip _ _ _ _ hne (noStart_before linkPrefix k hpre _ _
        (fun h => hfree ((prefix_placeholder _ k).isInfix.trans h))
        (linkPieces_head k reps rest k (by omega) hsafe)), ih2]
    rw [linkPieces_cons, linkPieces_cons]
    rcases Nat.lt_trichotomy it.1 k with h | h | h
    · rw [if_pos h, if_pos (by omega)]
      have hmem : reps.getD it.1 [] ∈ reps := by
        rw [List.getD_eq_getElem reps [] (by omega)]
        exact List.getElem_mem _
      have hclean := clean_of_safeFor linkPrefix _ k (hsafe _ hmem)
      rw [replaceAll_skip _ _ _ _ hne (hclean.2 _), htext]
    · rw [if_neg (by omega), if_pos (by omega), h, replaceAll_append_left _ _ _ hne, htext, hb]
    · rw [if_neg (by omega), if_neg (by omega)]
      rw [replaceAll_skip _ _ _ _ hne
        (noStart_other_token linkPrefix k it.1 hpre (by omega) (by omega) (by omega) _), htext]

/-- The restore loop from its pass `k` on, over the pieces. -/
theorem restoreFrom_linkPieces (reps : List Str) (hn : reps.length ≤ 10000)
    (hsafe : ∀ b ∈ reps, SafeFor linkPrefix b) (t0 : Str) (ht0 : ¬ linkPrefix <:+: t0)
    (items : List (Nat × Str))
    (hit : ∀ it ∈ items, it.1 < reps.length ∧ ¬ linkPrefix <:+: it.2) :
    ∀ m k, k + m = reps.length →
      restoreFrom linkPrefix k (t0 ++ linkPieces k reps items) (reps.drop k)
        = t0 ++ linkPieces reps.length reps items := by
  intro m
  induction m with
  | zero =>
    intro k hk
    have : k = reps.length := by omega
    subst this
    simp [restoreFrom]
  | succ m ih =>
    intro k hk
    have hlt : k < reps.length := by omega
    rw [List.drop_eq_getElem_cons hlt, restoreFrom_cons,
      replaceAll_skip _ _ _ _ (placeholder_ne_nil linkPrefix k)
        (noStart_before linkPrefix k (Or.inr (Or.inr rfl)) _ _
          (fun h => ht0 ((prefix_placeholder _ k).isInfix.trans h))
          (linkPieces_head k reps items k (by omega) hsafe)),
      replaceAll_linkPieces k reps _ hlt (List.getD_eq_getElem reps [] hlt) hn hsafe items hit]
    exact ih (k + 1) (by omega)

theorem getD_map_linkEscape (env : Env) (links : List linkRef) (i : Nat) :
    (links.map (fun l => osc8 l.url (env.linkTextStyle l.text))).getD i []
      = linkEscapeAt env links i := by
  simp only [linkEscapeAt, List.getD_eq_getElem?_getD, List.getElem?_map, List.get?_eq_getElem?]
  cases links[i]? <;> rfl

/-- The restoration of the links of a rendered text, token by token. -/
theorem restoreLinks_pieces (env : Env) (links : List linkRef) (t0 : Str)
    (items : List (Nat × Str)) (hn : links.length ≤ 10000)
    (hesc : ∀ l ∈ links, ¬ linkPrefix <:+: osc8 l.url (env.linkTextStyle l.text))
    (ht0 : ¬ linkPrefix <:+: t0)
    (hit : ∀ it ∈ items, it.1 < links.length ∧ ¬ linkPrefix <:+: it.2) :
    restoreLinks env (t0 ++ items.flatMap (fun it => placeholder linkPrefix it.1 ++ it.2)) links
      = t0 ++ items.flatMap (fun it => linkEscapeAt env links it.1 ++ it.2) := by
  have hsafe : ∀ b ∈ links.map (fun l => osc8 l.url (env.linkTextStyle l.text)),
      SafeFor linkPrefix b := by
    intro b hb
    obtain ⟨l, hl, rfl⟩ := List.mem_map.mp hb
    exact safeFor_osc8 _ _ (hesc l hl)
  have h := restoreFrom_linkPieces (links.map (fun l => osc8 l.url (env.linkTextStyle l.text)))
    (by simpa using hn) hsafe t0 ht0 items (by simpa using hit) links.length 0 (by simp)
  have e0 : linkPieces 0 (links.map (fun l => osc8 l.url (env.linkTextStyle l.text))) items
      = items.flatMap (fun it => placeholder linkPrefix it.1 ++ it.2) := by
    simp [linkPieces]
  have e1 : linkPieces (links.map (fun l => osc8 l.url (env.linkTextStyle l.text))).length
      (links.map (fun l => osc8 l.url (env.linkTextStyle l.text))) items
      = items.flatMap (fun it => linkEscapeAt env links it.1 ++ it.2) := by
    simp only [linkPieces, List.length_map]
    apply List.flatMap_congr
    intro it hmem
    rw [if_pos (hit it hmem).1, getD_map_linkEscape]
  rw [e0, e1, List.drop_zero] at h
  exact h


/-- C13, amended: for a document with at most 10000 links whose hyperlink
escapes do not contain `MDLINK`, and a rendered text in which `MDLINK` occurs
only as the start of the token of one of these links (the text before the
first token and the texts behind the tokens are free of it), `restoreLinks`
replaces every token by the hyperlink escape of its link and changes nothing
else; the escape of the link `(text, url)` is `ESC ]8;; url ESC \`, the link
style applied to the label as written, `ESC ]8;; ESC \`, which is the link
style applied to `processInline(text)` for a label that `processInline` leaves
unchanged. -/
theorem restoreLinks_embeds_raw_labels (env : Env) (D t0 : Str) (items : List (Nat × Str))
    (hn : (extractLinks D).2.length ≤ 10000)
    (hesc : ∀ l ∈ (extractLinks D).2,
      ¬ linkPrefix <:+: osc8 l.url (env.linkTextStyle l.text))
    (ht0 : ¬ linkPrefix <:+: t0)
    (hit : ∀ it ∈ items, it.1 < (extractLinks D).2.length ∧ ¬ linkPrefix <:+: it.2) :
    restoreLinks env (t0 ++ items.flatMap (fun it => placeholder linkPrefix it.1 ++ it.2))
        (extractLinks D).2
      = t0 ++ items.flatMap (fun it => linkEscapeAt env (extractLinks D).2 it.1 ++ it.2) ∧
    ∀ (i : Nat) (l : linkRef), (extractLinks D).2.get? i = some l →
      linkEscapeAt env (extractLinks D).2 i
        = escChar :: "]8;;".toList ++ l.url ++ [escChar, '\\'] ++ env.linkTextStyle l.text
          ++ escChar :: "]8;;".toList ++ [escChar, '\\'] ∧
      (processInline env l.text = l.text →
        linkEscapeAt env (extractLinks D).2 i
          = osc8 l.url (env.linkTextStyle (processInline env l.text))) := by
  refine ⟨restoreLinks_pieces env _ t0 items hn hesc ht0 hit, ?_⟩
  intro i l hl
  have e : linkEscapeAt env (extractLinks D).2 i = osc8 l.url (env.linkTextStyle l.text) := by
    simp only [linkEscapeAt, hl]
  exact ⟨e, fun h => by rw [e, h]⟩

theorem restoreLinks_embeds_raw_labels_witness :
    (extractLinks "see [**b**](u) and [c](v)".toList).2
        = [{ text := "**b**".toList, url := "u".toList },
            { text := "c".toList, url := "v".toList }] ∧
      restoreLinks sampleEnv
          ("  see ".toList ++ [(0, " and ".toList), (1, " or ".toList), (0, "\n".toList)].flatMap
            (fun it => placeholder linkPrefix it.1 ++ it.2))
          (extractLinks "see [**b**](u) and [c](v)".toList).2
        = "  see ".toList ++ [(0, " and ".toList), (1, " or ".toList), (0, "\n".toList)].flatMap
            (fun it => linkEscapeAt sampleEnv
              (extractLinks "see [**b**](u) and [c](v)".toList).2 it.1 ++ it.2) ∧
      linkEscapeAt sampleEnv (extractLinks "see [**b**](u) and [c](v)".toList).2 0
        = escChar :: "]8;;".toList ++ "u".toList ++ [escChar, '\\']
          ++ sampleEnv.linkTextStyle "**b**".toList
          ++ escChar :: "]8;;".toList ++ [escChar, '\\'] :=
  ⟨by decide,
    (restoreLinks_embeds_raw_labels sampleEnv "see [**b**](u) and [c](v)".toList "  see ".toList
      [(0, " and ".toList), (1, " or ".toList), (0, "\n".toList)]
      (by decide) (by decide) (by decide) (by decide)).1,
    ((restoreLinks_embeds_raw_labels sampleEnv "see [**b**](u) and [c](v)".toList "  see ".toList
      [(0, " and ".toList), (1, " or ".toList), (0, "\n".toList)]
      (by decide) (by decide) (by decide) (by decide)).2 0
      { text := "**b**".toList, url := "u".toList } (by decide)).1⟩

/-! ## Rows and separators -/

/-- What `isSeparatorRow` tests: the trimmed line starts and ends with `|`, and
without its leading and trailing pipes it is made of `-`, `:`, `|` and
spaces. -/
theorem isSeparatorRow_iff (line : Str) :
    isSeparatorRow line = true ↔
      hasPrefix (trimSpace line) ['|'] = true ∧ hasSuffix (trimSpace line) ['|'] = true ∧
        ∀ c ∈ trimChar '|' (trimSpace line), c = '-' ∨ c = ':' ∨ c = '|' ∨ c = ' ' := by
  have hall : ∀ l : Str,
      l.all (fun c => !(c != '-' && c != ':' && c != '|' && c != ' ')) = true ↔
        ∀ c ∈ l, c = '-' ∨ c = ':' ∨ c = '|' ∨ c = ' ' := by
    intro l
    simp only [List.all_eq_true]
    refine forall₂_congr (fun c _ => ?_)
    by_cases e1 : c = '-' <;> by_cases e2 : c = ':' <;> by_cases e3 : c = '|' <;>
      by_cases e4 : c = ' ' <;> simp [e1, e2, e3, e4]
  simp only [isSeparatorRow]
  by_cases h1 : hasPrefix (trimSpace line) ['|'] = true
  · by_cases h2 : hasSuffix (trimSpace line) ['|'] = true
    · simp only [h1, h2, Bool.not_true, Bool.or_self, Bool.false_eq_true, if_false, true_and]
      exact hall _
    · simp [h1, h2]
  · simp [h1]

/-- For a line whose trimmed form has more than one character, the separator
test is the row test together with the test of the characters. -/
theorem isSeparatorRow_iff_of_length (line : Str) (hlen : 1 < (trimSpace line).length) :
    isSeparatorRow line = true ↔
      isTableRow line = true ∧
        ∀ c ∈ trimChar '|' (trimSpace line), c = '-' ∨ c = ':' ∨ c = '|' ∨ c = ' ' := by
  rw [isSeparatorRow_iff]
  simp only [isTableRow, Bool.and_eq_true, decide_eq_true_eq]
  constructor
  · exact fun h => ⟨⟨⟨h.1, h.2.1⟩, hlen⟩, h.2.2⟩
  · exact fun h => ⟨h.1.1.1, h.1.1.2, h.2⟩

/-- C14, the failing input: the line `|` passes the separator test and fails
the row test, so the two lines `| a |` and `|` are lifted as a table. -/
theorem lone_pipe_is_separator_not_row :
    isSeparatorRow "|".toList = true ∧ isTableRow "|".toList = false ∧
      extractTables sampleEnv "| a |\n|".toList
        = ("MDTABLE0000".toList,
            [renderCompactTable sampleEnv ["| a |".toList, "|".toList]]) := by
  decide

theorem splitChar_length (sep : Char) (s : Str) :
    (splitChar sep s).length = s.count sep + 1 := by
  induction s with
  | nil => simp [splitChar]
  | cons c cs ih =>
    unfold splitChar
    split_ifs with h
    · subst h
      simp [ih]
    · split
      · next h2 => exact absurd h2 (splitChar_ne_nil _ _)
      · next l ls h2 =>
        rw [h2] at ih
        have hc : (c == sep) = false := by simpa using h
        simp only [List.length_cons] at ih ⊢
        rw [List.count_cons, hc]
        simpa using ih

theorem trimChar_between (c : Char) (inner : Str) (h1 : inner.head? ≠ some c)
    (h2 : inner.getLast? ≠ some c) : trimChar c (c :: inner ++ [c]) = inner := by
  unfold trimChar
  have hc : (fun x : Char => x == c) c = true := by simp
  rw [List.cons_append, List.dropWhile_cons_of_pos (p := fun x => x == c) hc]
  cases inner with
  | nil => simp [List.rdropWhile]
  | cons x rest =>
    have hx : ¬ (fun x : Char => x == c) x = true := by
      simp only [beq_iff_eq]
      exact fun h => h1 (by simp [h])
    rw [List.cons_append, List.dropWhile_cons_of_neg (p := fun x => x == c) hx,
      ← List.cons_append, List.rdropWhile_concat_pos (fun x => x == c) _ _ hc]
    rcases List.eq_nil_or_concat (x :: rest) with h | ⟨init, l, h⟩
    · exact absurd h (by simp)
    · have hl : ¬ (fun x : Char => x == c) l = true := by
        simp only [beq_iff_eq]
        intro hlc
        apply h2
        rw [h, hlc]
        simp
      rw [h, List.concat_eq_append, List.rdropWhile_concat_neg (fun x => x == c) _ l hl]

/-- For a row whose trimmed form has one pipe at each end and no second pipe
right behind the first or right before the last, `parseRow` returns what the
specification says: the pieces between the pipes, trimmed and passed through
`processInline`, one more than there are pipes in between. -/
theorem parseRow_of_single_pipes (env : Env) (line inner : Str)
    (ht : trimSpace line = '|' :: inner ++ ['|'])
    (h1 : inner.head? ≠ some '|') (h2 : inner.getLast? ≠ some '|') :
    parseRow env line = (splitChar '|' inner).map (fun p => processInline env (trimSpace p)) ∧
      parseRow env line = parseRowOnePipe env line ∧
      (parseRow env line).length = inner.count '|' + 1 := by
  have e1 : parseRow env line
      = (splitChar '|' inner).map (fun p => processInline env (trimSpace p)) := by
    simp only [parseRow, ht, trimChar_between '|' inner h1 h2]
  have e2 : parseRowOnePipe env line
      = (splitChar '|' inner).map (fun p => processInline env (trimSpace p)) := by
    have hs : hasSuffix (inner ++ ['|']) ['|'] = true := by
      simp [hasSuffix]
    simp only [parseRowOnePipe, ht, hasPrefix, List.isPrefixOf, beq_self_eq_true, Bool.and_self,
      if_true, List.cons_append, List.drop_succ_cons, List.drop_zero, hs, List.dropLast_concat]
  exact ⟨e1, by rw [e1, e2], by rw [e1, List.length_map, splitChar_length]⟩

/-- C15, the failing inputs: the rows `|| b |` and `| a ||` have an empty first
or last cell; `strings.Trim` removes both pipes at that end, so `parseRow`
returns the one cell, where the cells of the specification are two. -/
theorem parseRow_drops_empty_edge_cell :
    isTableRow "|| b |".toList = true ∧
      parseRow plainEnv "|| b |".toList = ["b".toList] ∧
      parseRowOnePipe plainEnv "|| b |".toList = [[], "b".toList] ∧
      isTableRow "| a ||".toList = true ∧
      parseRow plainEnv "| a ||".toList = ["a".toList] ∧
      parseRowOnePipe plainEnv "| a ||".toList = ["a".toList, []] := by
  decide

theorem langOf_of_fenceLine (opn : Str) (h : isFenceLine opn = true) :
    langOf opn = if (trimSpace opn).drop 3 = [] then "go".toList else (trimSpace opn).drop 3 := by
  unfold isFenceLine at h
  have e : trimPrefix (trimSpace opn) fenceMark = (trimSpace opn).drop 3 := by
    rw [trimPrefix, if_pos h]
    rfl
  rw [langOf, e]

theorem extractCodeBlocks_one_block (env : Env) (width : Int) (D opn cls : Str)
    (body : List Str) (hD : splitLines D = opn :: body ++ [cls])
    (hopen : isFenceLine opn = true) (hbody : ∀ l ∈ body, isFenceLine l = false)
    (hclose : isFenceLine cls = true) :
    extractCodeBlocks env D width
      = ("MDFENCE0000".toList,
          [(renderCodeBlock env
              (if (trimSpace opn).drop 3 = [] then "go".toList else (trimSpace opn).drop 3)
              (joinLines body) width).getD (joinLines (opn :: body ++ [cls]) ++ [nl])]) := by
  have hwf : ∀ s ∈ [Seg.block opn body cls], s.wellFormed = true := by
    intro s hs
    rw [List.mem_singleton.mp hs]
    simp only [Seg.wellFormed, hopen, hclose, Bool.true_and, Bool.and_true, List.all_eq_true]
    intro x hx
    simp [hbody x hx]
  have := extractCodeBlocks_segs env width D [Seg.block opn body cls] []
    (by simpa [segLines, Seg.lines] using hD) hwf (by simp)
  rw [this]
  simp only [tokenLines, storedBlocks, List.append_nil, joinLines, langOf_of_fenceLine opn hopen,
    fallbackText]
  rfl

/-- C16: for a document that is one closed fenced block, the one block stored
is the value of the renderer at the language tag of the opening line (the
trimmed line without its three backticks, `go` when nothing is left), the body
lines joined by newlines and the width (the fallback text when that value is an
error); the result depends on the renderer through that one value only, and
when the renderer succeeds the block list is exactly its rendering. -/
theorem single_block_rendered_once (env : Env) (width : Int) (D opn cls : Str)
    (body : List Str) (hD : splitLines D = opn :: body ++ [cls])
    (hopen : isFenceLine opn = true) (hbody : ∀ l ∈ body, isFenceLine l = false)
    (hclose : isFenceLine cls = true) :
    extractCodeBlocks env D width
        = ("MDFENCE0000".toList,
            [(renderCodeBlock env
                (if (trimSpace opn).drop 3 = [] then "go".toList else (trimSpace opn).drop 3)
                (joinLines body) width).getD (joinLines (opn :: body ++ [cls]) ++ [nl])]) ∧
      (∀ r, renderCodeBlock env
            (if (trimSpace opn).drop 3 = [] then "go".toList else (trimSpace opn).drop 3)
            (joinLines body) width = some r →
          (extractCodeBlocks env D width).2 = [r]) ∧
      (∀ env2 : Env,
          renderCodeBlock env2
              (if (trimSpace opn).drop 3 = [] then "go".toList else (trimSpace opn).drop 3)
              (joinLines body) width
            = renderCodeBlock env
              (if (trimSpace opn).drop 3 = [] then "go".toList else (trimSpace opn).drop 3)
              (joinLines body) width →
          extractCodeBlocks env2 D width = extractCodeBlocks env D width) := by
  have h1 := extractCodeBlocks_one_block env width D opn cls body hD hopen hbody hclose
  refine ⟨h1, ?_, ?_⟩
  · intro r hr
    rw [h1, hr]
    rfl
  · intro env2 h2
    rw [h1, extractCodeBlocks_one_block env2 width D opn cls body hD hopen hbody hclose, h2]

theorem single_block_rendered_once_witness :
    splitLines "```\nx := 1\ny := 2\n```".toList
        = "```".toList :: ["x := 1".toList, "y := 2".toList] ++ ["```".toList] ∧
      (if (trimSpace "```".toList).drop 3 = [] then "go".toList
        else (trimSpace "```".toList).drop 3) = "go".toList ∧
      joinLines ["x := 1".toList, "y := 2".toList] = "x := 1\ny := 2".toList ∧
      (extractCodeBlocks sampleEnv "```\nx := 1\ny := 2\n```".toList 80).2
        = [(renderCodeBlock sampleEnv "go".toList "x := 1\ny := 2".toList 80).getD []] ∧
      (renderCodeBlock sampleEnv "go".toList "x := 1\ny := 2".toList 80).isSome = true :=
  ⟨by decide, by decide, by decide,
    (congrArg Prod.snd (single_block_rendered_once sampleEnv 80
      "```\nx := 1\ny := 2\n```".toList "```".toList "```".toList
      ["x := 1".toList, "y := 2".toList] (by decide) (by decide) (by decide)
      (by decide)).1).trans (by decide),
    by decide⟩

/-! ## The resets of a padded line -/

theorem resetsFollowed_cons (c : Char) (y : Str) (hy : ResetsFollowed y)
    (h0 : ∀ q, c :: y = ansiReset ++ q → q = [] ∨ codeBlockBgANSI <+: q) :
    ResetsFollowed (c :: y) := by
  intro p q h
  cases p with
  | nil => exact h0 q (by simpa using h)
  | cons c' p' =>
    simp only [List.cons_append, List.cons.injEq] at h
    exact hy p' q (by simpa using h.2)

theorem resetsFollowed_append (u x : Str) (hu : NoStart ansiReset u x) (hx : ResetsFollowed x) :
    ResetsFollowed (u ++ x) := by
  induction u with
  | nil => exact hx
  | cons c u ih =>
    refine resetsFollowed_cons c (u ++ x)
      (ih (fun v hv hs => hu v hv (hs.trans (List.suffix_cons c u)))) ?_
    intro q hq
    exact absurd ⟨q, hq.symm⟩ (hu (c :: u) (by simp) (List.suffix_refl _))

theorem noStart_reset_of_no_esc (u x : Str) (h : escChar ∉ u) : NoStart ansiReset u x := by
  intro v hv hs hp
  cases v with
  | nil => exact hv rfl
  | cons c v' =>
    rw [ansiReset, List.cons_append, List.cons_prefix_cons] at hp
    exact h (hs.subset (by rw [← hp.1]; simp))

theorem resetsFollowed_reset : ResetsFollowed ansiReset := by
  intro p q h
  have := congrArg List.length h
  simp only [List.length_append] at this
  left
  exact List.length_eq_zero.mp (by omega)

theorem noStart_reset_bg (x : Str) : NoStart ansiReset codeBlockBgANSI x := by
  intro v hv hs hp
  rw [codeBlockBgANSI, List.suffix_cons_iff] at hs
  rcases hs with rfl | hs
  · exact absurd hp (by simp [ansiReset, List.cons_prefix_cons])
  · exact noStart_reset_of_no_esc _ x (by decide) v hv hs hp

theorem resetsFollowed_hit (x : Str) (hx : ResetsFollowed x) :
    ResetsFollowed (ansiReset ++ codeBlockBgANSI ++ x) := by
  have e : ansiReset ++ codeBlockBgANSI ++ x
      = escChar :: ("[0m".toList ++ (codeBlockBgANSI ++ x)) := by
    simp [ansiReset]
  rw [e]
  refine resetsFollowed_cons _ _ ?_ ?_
  · exact resetsFollowed_append _ _ (noStart_reset_of_no_esc _ _ (by decide))
      (resetsFollowed_append _ _ (noStart_reset_bg x) hx)
  · intro q hq
    right
    have : q = codeBlockBgANSI ++ x := by
      rw [ansiReset, List.cons_append, List.cons.injEq] at hq
      exact (List.append_cancel_left hq.2).symm
    rw [this]
    exact List.prefix_append _ _

theorem resetsFollowed_reinject (line t : Str) (h : Char) (t' : Str) (ht : t = h :: t')
    (hh : h ∉ "[0m".toList) (hres : ResetsFollowed t) :
    ResetsFollowed (replaceAll line ansiReset (ansiReset ++ codeBlockBgANSI) ++ t) := by
  have hne : ansiReset ≠ [] := by decide
  refine replaceAll_induction (motive := fun line =>
    ResetsFollowed (replaceAll line ansiReset (ansiReset ++ codeBlockBgANSI) ++ t))
    ansiReset hne ?_ ?_ ?_ line
  · show ResetsFollowed (replaceAll [] ansiReset (ansiReset ++ codeBlockBgANSI) ++ t)
    rw [replaceAll_nil _ _ hne]
    exact hres
  · intro s ih
    show ResetsFollowed (replaceAll (ansiReset ++ s) ansiReset (ansiReset ++ codeBlockBgANSI) ++ t)
    rw [replaceAll_append_left _ _ _ hne, List.append_assoc]
    exact resetsFollowed_hit _ ih
  · intro c s hmiss ih
    show ResetsFollowed (replaceAll (c :: s) ansiReset (ansiReset ++ codeBlockBgANSI) ++ t)
    rw [replaceAll_cons _ _ _ _ hne hmiss, List.cons_append]
    refine resetsFollowed_cons c _ ih ?_
    intro q hq
    exfalso
    apply hmiss
    have hp : ansiReset <+: c :: (replaceAll s ansiReset (ansiReset ++ codeBlockBgANSI) ++ t) :=
      ⟨q, hq.symm⟩
    rw [ansiReset, List.cons_prefix_cons] at hp ⊢
    refine ⟨hp.1, ?_⟩
    have h1 : "[0m".toList <+: replaceAll s ansiReset (ansiReset ++ codeBlockBgANSI) := by
      have := hp.2
      rw [ht] at this
      exact prefix_append_cons _ _ t' h hh this
    exact prefix_of_prefix_replaceAll ansiReset (ansiReset ++ codeBlockBgANSI) escChar
      ("[0m".toList ++ codeBlockBgANSI) hne rfl s _ (by decide) h1

/-- C17: the padded line starts with the background sequence, ends with the
reset sequence, and every occurrence of the reset sequence in it, the final one
apart, is immediately followed by the background sequence. -/
theorem padWithBackground_resets (env : Env) (line : Str) (width : Int) :
    codeBlockBgANSI <+: padWithBackground env line width ∧
      ansiReset <:+ padWithBackground env line width ∧
      ∀ p q : Str, padWithBackground env line width = p ++ ansiReset ++ q →
        q = [] ∨ codeBlockBgANSI <+: q := by
  refine ⟨?_, ?_, ?_⟩
  · simp only [padWithBackground, List.append_assoc]
    exact List.prefix_append _ _
  · simp only [padWithBackground]
    exact List.suffix_append _ _
  · have hT : ∀ n : Nat, ResetsFollowed (List.replicate n ' ' ++ ansiReset) := fun n =>
      resetsFollowed_append _ _ (noStart_reset_of_no_esc _ _ (by
        intro h
        rw [List.mem_replicate] at h
        exact absurd h.2 (by decide))) resetsFollowed_reset
    have hmain : ∀ pad : Str, (∃ n : Nat, pad = List.replicate n ' ') →
        ResetsFollowed (codeBlockBgANSI
          ++ (replaceAll line ansiReset (ansiReset ++ codeBlockBgANSI) ++ (pad ++ ansiReset))) := by
      rintro pad ⟨n, rfl⟩
      apply resetsFollowed_append _ _ (noStart_reset_bg _)
      cases n with
      | zero =>
        exact resetsFollowed_reinject line _ escChar "[0m".toList rfl (by decide) (hT 0)
      | succ n =>
        exact resetsFollowed_reinject line _ ' ' (List.replicate n ' ' ++ ansiReset)
          (by simp [List.replicate_succ]) (by decide) (hT (n + 1))
    intro p q h
    have e : padWithBackground env line width
        = codeBlockBgANSI ++ (replaceAll line ansiReset (ansiReset ++ codeBlockBgANSI)
          ++ ((if (env.stringWidth line : Int) < width
            then List.replicate (width - (env.stringWidth line : Int)).toNat ' ' else [])
            ++ ansiReset)) := by
      simp [padWithBackground]
    rw [e] at h
    refine hmain _ ?_ p q h
    split_ifs
    · exact ⟨_, rfl⟩
    · exact ⟨0, rfl⟩

theorem padWithBackground_resets_witness :
    padWithBackground sampleEnv ("a".toList ++ ansiReset ++ "b".toList) 4
        = (codeBlockBgANSI ++ "a".toList) ++ ansiReset
          ++ (codeBlockBgANSI ++ "b  ".toList ++ ansiReset) ∧
      (codeBlockBgANSI ++ "b  ".toList ++ ansiReset = [] ∨
        codeBlockBgANSI <+: codeBlockBgANSI ++ "b  ".toList ++ ansiReset) :=
  ⟨by decide,
    (padWithBackground_resets sampleEnv ("a".toList ++ ansiReset ++ "b".toList) 4).2.2
      (codeBlockBgANSI ++ "a".toList) (codeBlockBgANSI ++ "b  ".toList ++ ansiReset)
      (by decide)⟩

/-! ## The stripping step of `renderCodeBlock` -/

theorem isPaddingFrom_append (a b : Str) (hb : isPaddingFrom PadState.item b = true) :
    ∀ st, isPaddingFrom st a = true → isPaddingFrom st (a ++ b) = true := by
  induction a with
  | nil =>
    intro st h
    cases st
    · simpa using hb
    · simp [isPaddingFrom] at h
    · simp [isPaddingFrom] at h
  | cons c a ih =>
    intro st h
    cases st
    · simp only [isPaddingFrom, List.cons_append] at h ⊢
      split_ifs at h ⊢ with h1 h2
      · exact ih _ h
      · exact ih _ h
    · simp only [isPaddingFrom, List.cons_append] at h ⊢
      split_ifs at h ⊢ with h1
      · exact ih _ h
    · simp only [isPaddingFrom, List.cons_append] at h ⊢
      split_ifs at h ⊢ with h1 h2
      · exact ih _ h
      · exact ih _ h

theorem stripTrailingPadding_cons (c : Char) (cs : Str) :
    stripTrailingPadding (c :: cs)
      = if isPaddingFrom PadState.item (c :: cs) then [] else c :: stripTrailingPadding cs := rfl

/-- What is removed is a run of spaces and sequences `ESC [ [0-9;]* m`, and no
longer such run ends the line. -/
theorem stripTrailingPadding_split (line : Str) :
    ∃ sfx, line = stripTrailingPadding line ++ sfx ∧ isPaddingFrom PadState.item sfx = true ∧
      ∀ p q : Str, stripTrailingPadding line = p ++ q → q ≠ [] →
        isPaddingFrom PadState.item (q ++ sfx) = false := by
  induction line with
  | nil => exact ⟨[], rfl, rfl, fun p q h hq => absurd (by
      have := congrArg List.length h
      simp only [stripTrailingPadding, List.length_nil, List.length_append] at this
      exact List.length_eq_zero.mp (by omega)) hq⟩
  | cons c cs ih =>
    obtain ⟨sfx, h1, h2, h3⟩ := ih
    rw [stripTrailingPadding_cons]
    by_cases hpad : isPaddingFrom PadState.item (c :: cs) = true
    · rw [if_pos hpad]
      refine ⟨c :: cs, rfl, hpad, fun p q h hq => absurd ?_ hq⟩
      have := congrArg List.length h
      simp only [List.length_nil, List.length_append] at this
      exact List.length_eq_zero.mp (by omega)
    · rw [if_neg hpad]
      refine ⟨sfx, by rw [List.cons_append, ← h1], h2, fun p q h hq => ?_⟩
      cases p with
      | nil =>
        simp only [List.nil_append] at h
        rw [← h, List.cons_append, ← h1]
        simpa using hpad
      | cons c' p' =>
        simp only [List.cons_append, List.cons.injEq] at h
        exact h3 p' q h.2 hq

/-- C18, counterexample: the line `a ESC[1m`: the stripping step returns `a`,
so it removes the sequence `ESC[1m`, which is no colour-reset sequence. -/
theorem strip_removes_more_than_resets :
    stripTrailingPadding ("a".toList ++ escChar :: "[1m".toList) = "a".toList ∧
      isResetRun (escChar :: "[1m".toList) = false ∧
      isPaddingFrom PadState.item (escChar :: "[1m".toList) = true := by
  decide

/-- C18, amended: the stripping step removes the longest trailing run of
spaces and sequences `ESC [ [0-9;]* m` (the colour reset `ESC[0m` among them)
and nothing else: the result is a prefix of the line, the removed suffix is
such a run, and the result ends with no non-empty such run, so neither with a
space nor with `ESC[0m`. -/
theorem stripTrailingPadding_maximal (line : Str) :
    stripTrailingPadding line <+: line ∧
      (∃ sfx, line = stripTrailingPadding line ++ sfx ∧
        isPaddingFrom PadState.item sfx = true) ∧
      (∀ p q : Str, stripTrailingPadding line = p ++ q → q ≠ [] →
        isPaddingFrom PadState.item q = false) ∧
      ¬ [' '] <:+ stripTrailingPadding line ∧
      ¬ ansiReset <:+ stripTrailingPadding line := by
  obtain ⟨sfx, h1, h2, h3⟩ := stripTrailingPadding_split line
  have hmax : ∀ p q : Str, stripTrailingPadding line = p ++ q → q ≠ [] →
      isPaddingFrom PadState.item q = false := by
    intro p q h hq
    by_contra hc
    have := isPaddingFrom_append q sfx h2 PadState.item (by simpa using hc)
    rw [h3 p q h hq] at this
    exact absurd this (by simp)
  refine ⟨⟨sfx, h1.symm⟩, ⟨sfx, h1, h2⟩, hmax, ?_, ?_⟩
  · rintro ⟨p, hp⟩
    exact absurd (hmax p [' '] hp.symm (by simp)) (by decide)
  · rintro ⟨p, hp⟩
    exact absurd (hmax p ansiReset hp.symm (by decide)) (by decide)

theorem stripTrailingPadding_maximal_witness :
    stripTrailingPadding ("ab ".toList ++ ansiReset ++ " ".toList) = "a".toList ++ "b".toList ∧
      "b".toList ≠ [] ∧
      isPaddingFrom PadState.item "b".toList = false :=
  ⟨by decide, by decide,
    (stripTrailingPadding_maximal ("ab ".toList ++ ansiReset ++ " ".toList)).2.2.1
      "a".toList "b".toList (by decide) (by decide)⟩

/-! ## The panel width -/

theorem splitChar_of_not_mem (sep : Char) (s : Str) (h : sep ∉ s) : splitChar sep s = [s] := by
  induction s with
  | nil => rfl
  | cons c cs ih =>
    have hc : c ≠ sep := fun e => h (by simp [e])
    have := ih (fun e => h (by simp [e]))
    simp [splitChar, hc, this]

theorem panelFold_bounds (env : Env) (ls : List Str) :
    ∀ a : Nat,
      a ≤ ls.foldl (fun pw codeLine =>
        if env.stringWidth codeLine + 4 > pw then env.stringWidth codeLine + 4 else pw) a ∧
      (∀ l ∈ ls, env.stringWidth l + 4 ≤ ls.foldl (fun pw codeLine =>
        if env.stringWidth codeLine + 4 > pw then env.stringWidth codeLine + 4 else pw) a) ∧
      (ls.foldl (fun pw codeLine =>
          if env.stringWidth codeLine + 4 > pw then env.stringWidth codeLine + 4 else pw) a = a ∨
        ∃ l ∈ ls, ls.foldl (fun pw codeLine =>
          if env.stringWidth codeLine + 4 > pw then env.stringWidth codeLine + 4 else pw) a
            = env.stringWidth l + 4) := by
  induction ls with
  | nil => intro a; simp
  | cons x ls ih =>
    intro a
    simp only [List.foldl_cons]
    obtain ⟨h1, h2, h3⟩ := ih (if env.stringWidth x + 4 > a then env.stringWidth x + 4 else a)
    refine ⟨?_, ?_, ?_⟩
    · split_ifs at h1 ⊢ <;> omega
    · intro l hl
      rcases List.mem_cons.mp hl with rfl | hl
      · split_ifs at h1 ⊢ <;> omega
      · exact h2 l hl
    · rcases h3 with h3 | ⟨l, hl, h3⟩
      · by_cases hx : env.stringWidth x + 4 > a
        · right
          exact ⟨x, by simp, by rw [h3, if_pos hx]⟩
        · left
          rw [h3, if_neg hx]
      · exact Or.inr ⟨l, by simp [hl], h3⟩

/-- C19: the panel width is the largest display width of a line of the raw code
plus 4: every line fits, one line attains it, it is at least 4, for raw code of
one line it is the width of that line plus 4; it is computed from the raw code
and `xansi.StringWidth` alone, and it is the width `renderCodeBlock` pads
every kept line to, whatever the formatter returned and whatever the wrap
width. -/
theorem panelWidth_spec (env : Env) (code : Str) :
    (∀ l ∈ splitLines code, env.stringWidth l + 4 ≤ panelWidth env code) ∧
      (∃ l ∈ splitLines code, panelWidth env code = env.stringWidth l + 4) ∧
      4 ≤ panelWidth env code ∧
      (nl ∉ code → panelWidth env code = env.stringWidth code + 4) ∧
      (∀ env2 : Env, env2.stringWidth = env.stringWidth →
        panelWidth env2 code = panelWidth env code) ∧
      (∀ (lang rendered : Str) (width : Int),
        env.glamourRender (fenceMark ++ lang ++ [nl] ++ code ++ [nl] ++ fenceMark ++ [nl]) width
          = some rendered →
        renderCodeBlock env lang code width
          = some ([nl] ++ (contentLines rendered).flatMap (fun line =>
              padWithBackground env (stripTrailingPadding line) (panelWidth env code) ++ [nl])
            ++ [nl])) := by
  obtain ⟨_, h2, h3⟩ := panelFold_bounds env (splitLines code) 0
  have hex : ∃ l ∈ splitLines code, panelWidth env code = env.stringWidth l + 4 := by
    rcases h3 with h3 | h3
    · obtain ⟨l, ls, hl⟩ := List.exists_cons_of_ne_nil (splitChar_ne_nil nl code)
      have := h2 l (by rw [splitLines, hl]; simp)
      rw [h3] at this
      omega
    · exact h3
  refine ⟨h2, hex, ?_, ?_, ?_, ?_⟩
  · obtain ⟨l, _, hl⟩ := hex
    omega
  · intro hnl
    obtain ⟨l, hl, hw⟩ := hex
    rw [splitLines, splitChar_of_not_mem nl code hnl, List.mem_singleton] at hl
    rw [hw, hl]
  · intro env2 h
    simp only [panelWidth, h]
  · intro lang rendered width hr
    simp only [renderCodeBlock, hr]

theorem panelWidth_spec_witness :
    nl ∉ "x := 1".toList ∧ sampleEnv.stringWidth "x := 1".toList = 6 ∧
      panelWidth sampleEnv "x := 1".toList = sampleEnv.stringWidth "x := 1".toList + 4 ∧
      panelWidth failEnv "x := 1".toList = panelWidth sampleEnv "x := 1".toList :=
  ⟨by decide, by decide,
    (panelWidth_spec sampleEnv "x := 1".toList).2.2.2.1 (by decide),
    (panelWidth_spec sampleEnv "x := 1".toList).2.2.2.2.1 failEnv rfl⟩

/-! ## The calls of `renderCompactTable` made by `extractTables` -/

theorem tablesAux_snd_eq_map (env : Env) (ls : List Str) :
    ∀ k idx, (tablesAux env k idx ls).2 = (tableArgsAux k ls).map (renderCompactTable env) := by
  induction ls with
  | nil => intro k idx; cases k <;> rfl
  | cons l rest ih =>
    intro k idx
    cases k with
    | succ k => exact ih k idx
    | zero =>
      rw [tablesAux, tableArgsAux]
      by_cases h : (isTableRow l && (rest.head?.map isSeparatorRow).getD false) = true
      · rw [if_pos h, if_pos h]
        simp only [List.map_cons]
        rw [ih]
      · rw [if_neg h, if_neg h]
        exact ih 0 idx

theorem tableArgsAux_shape (ls : List Str) :
    ∀ k, ∀ tl ∈ tableArgsAux k ls,
      ∃ header sep rows, tl = header :: sep :: rows ∧ isTableRow header = true ∧
        isSeparatorRow sep = true ∧ ∀ r ∈ rows, isTableRow r = true := by
  induction ls with
  | nil => intro k tl h; cases k <;> simp [tableArgsAux] at h
  | cons l rest ih =>
    intro k tl htl
    cases k with
    | succ k => exact ih k tl htl
    | zero =>
      rw [tableArgsAux] at htl
      by_cases h : (isTableRow l && (rest.head?.map isSeparatorRow).getD false) = true
      · rw [if_pos h] at htl
        rcases List.mem_cons.mp htl with rfl | htl
        · rw [Bool.and_eq_true] at h
          cases rest with
          | nil => simp at h
          | cons s rest2 =>
            refine ⟨l, s, rest2.takeWhile isTableRow, by simp, h.1, by simpa using h.2, ?_⟩
            intro r hr
            exact (List.mem_takeWhile_imp hr)
        · exact ih _ tl htl
      · rw [if_neg h] at htl
        exact ih 0 tl htl

theorem tableArgsAux_length_sum (ls : List Str) :
    ∀ k, ((tableArgsAux k ls).map List.length).sum + k ≤ max ls.length k := by
  induction ls with
  | nil => intro k; cases k <;> simp [tableArgsAux]
  | cons l rest ih =>
    intro k
    cases k with
    | succ k =>
      have := ih k
      rw [tableArgsAux]
      simp only [List.length_cons]
      omega
    | zero =>
      rw [tableArgsAux]
      by_cases h : (isTableRow l && (rest.head?.map isSeparatorRow).getD false) = true
      · rw [if_pos h]
        have hlen : (rest.take 1 ++ (rest.drop 1).takeWhile isTableRow).length ≤ rest.length := by
          have h1 : ((rest.drop 1).takeWhile isTableRow).length ≤ (rest.drop 1).length :=
            (List.takeWhile_prefix isTableRow).length_le
          simp only [List.length_append, List.length_take, List.length_drop] at h1 ⊢
          omega
        have := ih (rest.take 1 ++ (rest.drop 1).takeWhile isTableRow).length
        simp only [List.map_cons, List.sum_cons, List.length_cons, List.cons_append,
          Nat.add_sub_cancel]
        omega
      · rw [if_neg h]
        have := ih 0
        simp only [List.length_cons]
        omega

/-- C20: the scan of `extractTables` is a total function whose renderings are
`renderCompactTable` applied to the recorded lists of lines, call by call; the
recorded lists together hold no more lines than the document has; every one of
them is a header satisfying `isTableRow`, then a line satisfying
`isSeparatorRow`, then lines satisfying `isTableRow` only, so it has at least
two lines and `renderCompactTable` does not take its pass-through branch on
it. -/
theorem extractTables_calls_shape (env : Env) (content : Str) :
    (extractTables env content).2 = (tableArgs content).map (renderCompactTable env) ∧
      ((tableArgs content).map List.length).sum ≤ (splitLines content).length ∧
      ∀ tl ∈ tableArgs content,
        2 ≤ tl.length ∧
        (∃ header sep rows, tl = header :: sep :: rows ∧ isTableRow header = true ∧
          isSeparatorRow sep = true ∧ ∀ r ∈ rows, isTableRow r = true) ∧
        renderCompactTable env tl
          = [nl] ++ (splitLines (env.tableString (parseRow env (tl.headD []))
              ((((tl.drop 2).map trimSpace).filter (fun l => l != [])).map (parseRow env)))).flatMap
                (fun l => ' ' :: ' ' :: l ++ [nl]) ++ [nl] := by
  refine ⟨?_, ?_, ?_⟩
  · exact tablesAux_snd_eq_map env (splitLines content) 0 0
  · have := tableArgsAux_length_sum (splitLines content) 0
    simpa [tableArgs] using this
  · intro tl htl
    have hs := tableArgsAux_shape (splitLines content) 0 tl htl
    have h2 : 2 ≤ tl.length := by
      obtain ⟨header, sep, rows, rfl, _⟩ := hs
      simp
    refine ⟨h2, hs, ?_⟩
    rw [renderCompactTable, if_neg (by omega)]

theorem extractTables_calls_shape_witness :
    tableArgs "| a |\n|---|\n| 1 |\nx".toList
        = ["| a |".toList, "|---|".toList, "| 1 |".toList] :: [] ∧
      ∀ tl ∈ tableArgs "| a |\n|---|\n| 1 |\nx".toList, 2 ≤ tl.length :=
  ⟨by decide, fun tl htl =>
    ((extractTables_calls_shape sampleEnv "| a |\n|---|\n| 1 |\nx".toList).2.2 tl htl).1⟩

end Mkd
